import Mathlib

/-!
# The text-grid compositor of `pzdc_dungeon_2_gl` (`src/main.c`)

A shallow embedding of the view model, the UTF-8 functions, the value map, the
configuration tree with its builder and the menu loader, the placeholder
substitution, the grid composition, the glyph-atlas packing, the drawing of the
grid and the typewriter reveal of `src/main.c`, followed by the properties
proved about them.

Conventions of the embedding.

* A C string is the list of its bytes before the terminating NUL, each byte a
  natural number; `strlen` is `List.length`.  A read of `s[i]` at or past the
  terminator yields `0`.
* `size_t` and `uint32_t` values that cannot overflow in the modelled code are
  natural numbers; `int` values are integers.  Signed overflow is undefined
  behaviour in C, so integer arithmetic on `int` is modelled on `Int` and
  covers the defined executions.  Where the source converts between `size_t`
  and `int` in a product, the wrap-around is written out.
* A loop over a decoded string carries an explicit bound on its iterations
  (`fuel`); the bound the callers pass is shown to be enough.
* Allocation failures are not modelled.  The file system enters as a function
  from a name to the tree that `yaml_load_file` returns for it, and the YAML
  library as the list of events that it delivers for a file.
-/

namespace Pzdc

/-! ## Data model -/

/-- A `Line` of the source: `text` is the UTF-8 byte string, `cells` the array of
decoded code points.  The field `len_cells` of the source is `cells.length`. -/
structure Line where
  text : List Nat
  cells : List Nat
deriving DecidableEq, Repr

/-- A `View` of the source: its lines (`line_count` is `lines.length`) and
`max_cols`. -/
structure View where
  lines : List Line
  max_cols : Nat
deriving DecidableEq, Repr

/-- The code point of the space character, `(uint32_t)' '`. -/
def SPACE : Nat := 0x20

/-! ## UTF-8 decoding -/

/-- The byte `(unsigned char)s[i]`. -/
def byte_at (s : List Nat) (i : Nat) : Nat := s.getD i 0 % 256

/-- The function `utf8_decode(s, len, i, &out)`: the pair of the code point
written to `out` and the returned advance. -/
def utf8_decode (s : List Nat) (len i : Nat) : Nat × Nat :=
  let c := byte_at s i
  if c < 0x80 then
    (c, 1)
  else if c >>> 5 = 0x6 ∧ i + 1 < len then
    (((c &&& 0x1F) <<< 6) ||| (byte_at s (i + 1) &&& 0x3F), 2)
  else if c >>> 4 = 0xE ∧ i + 2 < len then
    (((c &&& 0x0F) <<< 12) ||| ((byte_at s (i + 1) &&& 0x3F) <<< 6)
      ||| (byte_at s (i + 2) &&& 0x3F), 3)
  else if c >>> 3 = 0x1E ∧ i + 3 < len then
    (((c &&& 0x07) <<< 18) ||| ((byte_at s (i + 1) &&& 0x3F) <<< 12)
      ||| ((byte_at s (i + 2) &&& 0x3F) <<< 6) ||| (byte_at s (i + 3) &&& 0x3F), 4)
  else
    (0xFFFD, 1)

/-! ## Building the cells of a view -/

/-- The counting loop of `view_build_cells`:
`for (j = ...; j < len;) { adv = utf8_decode(...); count++; j += adv; }`,
run for at most `fuel` iterations from the state `(j, count)`. -/
def count_loop (s : List Nat) (len : Nat) : Nat → Nat → Nat → Nat
  | 0, _, count => count
  | fuel + 1, j, count =>
    if j < len then
      count_loop s len fuel (j + (utf8_decode s len j).2) (count + 1)
    else count

/-- The number of code points the first pass of `view_build_cells` counts in a
line's text.  Every iteration advances `j` by at least one, so `len` iterations
are enough (`count_loop_fuel`). -/
def line_count_cols (text : List Nat) : Nat :=
  count_loop text text.length text.length 0 0

/-- The filling loop of `view_build_cells`:
`for (j = ...; j < len && col < max_cols;) { ...; line->cells[col++] = cp; j += adv; }`,
run for at most `fuel` iterations from the state `(j, col, cells)`. -/
def fill_loop (s : List Nat) (len max_cols : Nat) : Nat → Nat → Nat → List Nat → List Nat
  | 0, _, _, cells => cells
  | fuel + 1, j, col, cells =>
    if j < len ∧ col < max_cols then
      fill_loop s len max_cols fuel (j + (utf8_decode s len j).2) (col + 1)
        (cells.set col (utf8_decode s len j).1)
    else cells

/-- The first loop of `view_build_cells` over the lines: the running maximum of
the per-line counts. -/
def view_max_cols (lines : List Line) : Nat :=
  lines.foldl (fun max_cols line =>
    let count := line_count_cols line.text
    if count > max_cols then count else max_cols) 0

/-- The body of the second loop of `view_build_cells` for one line: a fresh
array of `max_cols` spaces, then the decoded code points written from column 0. -/
def build_line (max_cols : Nat) (line : Line) : Line :=
  { text := line.text
    cells := fill_loop line.text line.text.length max_cols line.text.length 0 0
      (List.replicate max_cols SPACE) }

/-- The function `view_build_cells(view)`. -/
def view_build_cells (view : View) : View :=
  let max_cols := view_max_cols view.lines
  { lines := view.lines.map (build_line max_cols)
    max_cols := max_cols }

/-- The code points of a text: the cells `view_build_cells` gives the only line
of a one-line view with that text. -/
def code_points (text : List Nat) : List Nat :=
  (build_line (line_count_cols text) { text := text, cells := [] }).cells

/-! ## Placeholder substitution -/

/-- An `InsertOption` of the source; `method_count` is `methods.length`. -/
structure InsertOption where
  line_idx : Int
  placeholder : Nat
  modifier : Nat
  methods : List (List Nat)
deriving DecidableEq, Repr

/-- The inner loop `while (*p == ch) p++;` of `apply_insert`, on the bytes from
`p` on: the number of steps it takes. -/
def run_length (ch : Nat) : List Nat → Nat
  | [] => 0
  | c :: rest => if c = ch then run_length ch rest + 1 else 0

/-- The buffer `insert` that `apply_insert` fills for a run of `out_len` bytes:
the `memcpy` and `memset` calls in their order. -/
def insert_field (modifier : Nat) (value : List Nat) (out_len : Nat) : List Nat :=
  let val_len := value.length
  if val_len ≥ out_len then
    value.take out_len
  else
    let pad := out_len - val_len
    if modifier = 109 then
      let left := pad / 2
      let right := pad - left
      List.replicate left SPACE ++ value ++ List.replicate right SPACE
    else if modifier = 101 then
      List.replicate pad SPACE ++ value
    else
      value ++ List.replicate pad SPACE

/-- The scanning loop `while (*p) { ... }` of `apply_insert`.  The pointer `p` is
held as the bytes before it (`before`) and the bytes from it on (`rest`); the
result is the line's text when the loop is left, which is `new_line` after a
replacement and the old text otherwise.  At most `fuel` iterations are run. -/
def insert_scan (ch modifier : Nat) (value : List Nat) :
    Nat → List Nat → List Nat → List Nat
  | 0, before, rest => before ++ rest
  | _ + 1, before, [] => before
  | fuel + 1, before, c :: rest =>
    if c = ch then
      let run_len := run_length ch (c :: rest)
      if run_len ≥ 3 then
        before ++ insert_field modifier value run_len ++ (c :: rest).drop run_len
      else
        insert_scan ch modifier value fuel (before ++ (c :: rest).take run_len)
          ((c :: rest).drop run_len)
    else
      insert_scan ch modifier value fuel (before ++ [c]) rest

/-- The text of the target line after `apply_insert`.  Every iteration of the
scan moves `p` forward, so `strlen(line)` iterations are enough. -/
def apply_insert_text (line : List Nat) (opt : InsertOption) (value : List Nat) : List Nat :=
  insert_scan opt.placeholder opt.modifier value line.length [] line

/-- The function `apply_insert(view, opt, value)`. -/
def apply_insert (view : View) (opt : InsertOption) (value : List Nat) : View :=
  if opt.line_idx < 0 ∨ (view.lines.length : Int) ≤ opt.line_idx then view
  else
    match view.lines[opt.line_idx.toNat]? with
    | none => view
    | some line =>
      { view with
        lines := view.lines.set opt.line_idx.toNat
          { line with text := apply_insert_text line.text opt value } }

/-- The text has no three consecutive bytes equal to `ch`, that is, no run of
`ch` of length 3 or more. -/
def NoRun3 (ch : Nat) (text : List Nat) : Prop :=
  ¬ List.replicate 3 ch <:+: text

instance (ch : Nat) (text : List Nat) : Decidable (NoRun3 ch text) :=
  inferInstanceAs (Decidable (¬ List.replicate 3 ch <:+: text))

/-- The text `pre ++ ch^r ++ suf` has its first run of `ch` of length 3 or more at
`pre.length`, and that run is maximal and of length `r`. -/
def FirstRun (ch : Nat) (pre : List Nat) (r : Nat) (suf : List Nat) : Prop :=
  3 ≤ r ∧ NoRun3 ch pre ∧ pre.getLast? ≠ some ch ∧ suf.head? ≠ some ch

instance (ch : Nat) (pre : List Nat) (r : Nat) (suf : List Nat) :
    Decidable (FirstRun ch pre r suf) :=
  inferInstanceAs
    (Decidable (3 ≤ r ∧ NoRun3 ch pre ∧ pre.getLast? ≠ some ch ∧ suf.head? ≠ some ch))

/-! ## Copying one view into another -/

/-- Every line of the view has exactly `max_cols` cells, as after
`view_build_cells`. -/
def Built (view : View) : Prop :=
  ∀ line ∈ view.lines, line.cells.length = view.max_cols

instance (view : View) : Decidable (Built view) :=
  inferInstanceAs (Decidable (∀ line ∈ view.lines, line.cells.length = view.max_cols))

/-- The read `view->lines[y].cells[x]`. -/
def read_cell (view : View) (y x : Nat) : Nat :=
  match view.lines[y]? with
  | some line => line.cells.getD x 0
  | none => 0

/-- The assignment `view->lines[y].cells[x] = cp`. -/
def write_cell (view : View) (y x : Nat) (cp : Nat) : View :=
  match view.lines[y]? with
  | some line =>
    { view with lines := view.lines.set y { line with cells := line.cells.set x cp } }
  | none => view

/-- One execution of the assignment `dline->cells[dx] = sline->cells[x]` of
`insert_view`, with the four indices it uses: `dy` and `dx` into the
destination, `y` and `x` into the source. -/
structure CellCopy where
  dy : Int
  dx : Int
  y : Nat
  x : Nat
deriving DecidableEq, Repr

/-- The body of the inner loop of `insert_view` for the source column `x`: the
bounds test on `dx = x0 + x` with its `continue`, and the copy.  The state is
the destination and the list of the copies executed so far. -/
def insert_view_cell (src : View) (x0 : Int) (dy y : Nat) (st : View × List CellCopy)
    (x : Nat) : View × List CellCopy :=
  let dx : Int := x0 + (x : Int)
  if dx < 0 ∨ dx ≥ (st.1.max_cols : Int) then st
  else (write_cell st.1 dy dx.toNat (read_cell src y x),
        st.2 ++ [{ dy := (dy : Int), dx := dx, y := y, x := x }])

/-- The inner loop `for (int x = 0; x < (int)src->max_cols; ++x)` of
`insert_view` for the destination row `dy` and the source row `y`. -/
def insert_view_cols (src : View) (x0 : Int) (dy y : Nat) (st : View × List CellCopy) :
    View × List CellCopy :=
  (List.range src.max_cols).foldl (insert_view_cell src x0 dy y) st

/-- The body of the outer loop of `insert_view` for the source row `y`: the
bounds test on `dy = y0 + y` with its `continue`, and the inner loop. -/
def insert_view_row (src : View) (y0 x0 : Int) (st : View × List CellCopy) (y : Nat) :
    View × List CellCopy :=
  let dy : Int := y0 + (y : Int)
  if dy < 0 ∨ dy ≥ (st.1.lines.length : Int) then st
  else insert_view_cols src x0 dy.toNat y st

/-- The function `insert_view(dst, src, y0, x0)` together with the list of the
cell copies it executes, in their order: the outer loop
`for (int y = 0; y < (int)src->line_count; ++y)`. -/
def insert_view_trace (dst src : View) (y0 x0 : Int) : View × List CellCopy :=
  (List.range src.lines.length).foldl (insert_view_row src y0 x0) (dst, [])

/-- The function `insert_view(dst, src, y0, x0)`: the destination afterwards. -/
def insert_view (dst src : View) (y0 x0 : Int) : View :=
  (insert_view_trace dst src y0 x0).1

/-- The shape of a view: `max_cols` and the cell count of each line. -/
def view_shape (view : View) : Nat × List Nat :=
  (view.max_cols, view.lines.map (fun line => line.cells.length))

/-- A 4 x 6 parent grid of full stops, built from its text. -/
def example_parent : View :=
  view_build_cells
    { lines := List.replicate 4 { text := List.replicate 6 46, cells := [] }, max_cols := 0 }

/-- A 3 x 5 partial grid with the rows `abcde`, `fghij`, `klmno`, built from its
text. -/
def example_partial : View :=
  view_build_cells
    { lines := [{ text := [97, 98, 99, 100, 101], cells := [] },
                { text := [102, 103, 104, 105, 106], cells := [] },
                { text := [107, 108, 109, 110, 111], cells := [] }],
      max_cols := 0 }

/-! ## UTF-8 encoding -/

/-- The function `utf8_encode(cp, out)`: the bytes written to `out` before the
terminating NUL; the returned count is the length of the list.  The cast
`(char)` keeps the low eight bits. -/
def utf8_encode (cp : Nat) : List Nat :=
  if cp < 0x80 then
    [cp % 256]
  else if cp < 0x800 then
    [(0xC0 ||| (cp >>> 6)) % 256, (0x80 ||| (cp &&& 0x3F)) % 256]
  else if cp < 0x10000 then
    [(0xE0 ||| (cp >>> 12)) % 256, (0x80 ||| ((cp >>> 6) &&& 0x3F)) % 256,
     (0x80 ||| (cp &&& 0x3F)) % 256]
  else
    [(0xF0 ||| (cp >>> 18)) % 256, (0x80 ||| ((cp >>> 12) &&& 0x3F)) % 256,
     (0x80 ||| ((cp >>> 6) &&& 0x3F)) % 256, (0x80 ||| (cp &&& 0x3F)) % 256]

/-! ## The glyph atlas -/

/-- A `Glyph` of the source.  The `float` texture coordinates are held as exact
fractions. -/
structure Glyph where
  codepoint : Nat
  u0 : ℚ
  v0 : ℚ
  u1 : ℚ
  v1 : ℚ
deriving DecidableEq, Repr

/-- A `RenderState` of the source: `glyph_count` is `glyphs.length` and
`glyph_list_count` is `glyph_list.length`.  In place of the texture handle `tex`
the model keeps the pixel size `tex_w` by `tex_h` of the atlas uploaded to it. -/
structure RenderState where
  tex_w : Int
  tex_h : Int
  glyphs : List Glyph
  glyph_list : List Nat
  grid_w : Int
  grid_h : Int
deriving DecidableEq, Repr

/-- The function `has_codepoint(arr, count, cp)`. -/
def has_codepoint (arr : List Nat) (cp : Nat) : Bool :=
  arr.any (fun a => a == cp)

/-- The body of the glyph collection of `build_atlas` for one cell: a code point
not yet in the list is appended. -/
def collect_cell (glyph_list : List Nat) (cp : Nat) : List Nat :=
  if has_codepoint glyph_list cp then glyph_list else glyph_list ++ [cp]

/-- The inner loop of the glyph collection of `build_atlas` over the cells of
one line, `for (j = 0; j < line->len_cells; ++j)`. -/
def collect_line (glyph_list : List Nat) (line : Line) : List Nat :=
  line.cells.foldl collect_cell glyph_list

/-- The glyph collection of `build_atlas`: the loop over the lines. -/
def collect_glyphs (view : View) : List Nat :=
  view.lines.foldl collect_line []

/-- All cells of a view, line after line and left to right. -/
def view_cells (view : View) : List Nat :=
  (view.lines.map (fun line => line.cells)).flatten

/-- The glyph table entry that `calloc` leaves when the glyph is not rasterized. -/
def zero_glyph : Glyph := { codepoint := 0, u0 := 0, v0 := 0, u1 := 0, v1 := 0 }

/-- The search for the least `c` with `n ≤ c * c`, from `c` upwards, in at most
`fuel` steps. -/
def ceil_sqrt_from (n : Nat) : Nat → Nat → Nat
  | 0, c => c
  | fuel + 1, c => if n ≤ c * c then c else ceil_sqrt_from n fuel (c + 1)

/-- The value `(size_t)ceil(sqrt((double)glyph_count))`, as the least `c` with
`glyph_count ≤ c * c`.  The double-precision square root is correctly rounded
and `glyph_count` is at most `2 ^ 32` (the cells are `uint32_t`), far below
`2 ^ 52`, so the computed value is this integer. -/
def atlas_cols (glyph_count : Nat) : Nat :=
  ceil_sqrt_from glyph_count glyph_count 0

/-- The value `(size_t)ceil((double)glyph_count / (double)atlas_cols)`, as the
integer quotient rounded up; for these magnitudes the double-precision quotient
rounds up to this integer. -/
def atlas_rows (glyph_count : Nat) : Nat :=
  if glyph_count % atlas_cols glyph_count = 0 then glyph_count / atlas_cols glyph_count
  else glyph_count / atlas_cols glyph_count + 1

/-- The conversion of an `int` to `size_t` (64 bits). -/
def int_to_size_t (i : Int) : Nat := (i % (2 ^ 64 : Int)).toNat

/-- The conversion `(int)` of a `size_t` to a 32-bit `int`, keeping the low 32
bits in two's complement. -/
def size_t_to_int (n : Nat) : Int := ((n : Int) + 2 ^ 31) % 2 ^ 32 - 2 ^ 31

/-- The expression `(int)(cells * cell)` with `cells` a `size_t` and `cell` an `int`,
as in `(int)(atlas_cols * cell_w)` and `(int)((i % atlas_cols) * cell_w)`: the
product is taken in `size_t`. -/
def pixel_extent (cells : Nat) (cell : Int) : Int :=
  size_t_to_int ((cells * int_to_size_t cell) % 2 ^ 64)

/-- The glyph table entry `glyphs[i]` that the rasterizing loop of `build_atlas`
leaves for the code point `cp`.  The font service `font` stands for
`TTF_RenderUTF8_Blended` and returns the size of the rendered surface or `none`
for `NULL`; on `NULL` the loop continues and the entry stays as `calloc` made it. -/
def atlas_glyph (font : List Nat → Option (Int × Int)) (cell_w cell_h : Int)
    (atlas_cols : Nat) (atlas_w atlas_h : Int) (i : Nat) (cp : Nat) : Glyph :=
  match font (utf8_encode cp) with
  | none => zero_glyph
  | some _ =>
    let gx := pixel_extent (i % atlas_cols) cell_w
    let gy := pixel_extent (i / atlas_cols) cell_h
    { codepoint := cp
      u0 := (gx : ℚ) / (atlas_w : ℚ)
      v0 := (gy : ℚ) / (atlas_h : ℚ)
      u1 := ((gx + cell_w : Int) : ℚ) / (atlas_w : ℚ)
      v1 := ((gy + cell_h : Int) : ℚ) / (atlas_h : ℚ) }

/-- The function `build_atlas(menu, font, cell_w, cell_h, rs)` on the menu's
view: `none` for the result `false`, and the render state written to `rs` for
the result `true`. -/
def build_atlas (view : View) (font : List Nat → Option (Int × Int)) (cell_w cell_h : Int) :
    Option RenderState :=
  let glyph_list := collect_glyphs view
  let glyph_count := glyph_list.length
  if glyph_count = 0 then none
  else
    let atlas_w := pixel_extent (atlas_cols glyph_count) cell_w
    let atlas_h := pixel_extent (atlas_rows glyph_count) cell_h
    some
      { tex_w := atlas_w
        tex_h := atlas_h
        glyphs := (List.range glyph_count).map (fun i =>
          atlas_glyph font cell_w cell_h (atlas_cols glyph_count) atlas_w atlas_h i
            (glyph_list.getD i 0))
        glyph_list := glyph_list
        grid_w := (view.max_cols : Int)
        grid_h := (view.lines.length : Int) }

/-! ## The typewriter reveal of the main loop -/

/-- A 3 x 5 screen with the rows `abcab`, `defde`, `ghigh`, built from its text:
nine distinct glyphs. -/
def example_screen : View :=
  view_build_cells
    { lines := [{ text := [97, 98, 99, 97, 98], cells := [] },
                { text := [100, 101, 102, 100, 101], cells := [] },
                { text := [103, 104, 105, 103, 104], cells := [] }],
      max_cols := 0 }

/-- A one-line screen with the text `A` followed by U+200B (zero width space),
built from its text. -/
def example_zero_width : View :=
  view_build_cells { lines := [{ text := [65, 0xE2, 0x80, 0x8B], cells := [] }], max_cols := 0 }

/-- A font service that returns `NULL` for the zero-width text U+200B and a
6 x 12 surface for every other text. -/
def example_font (utf8 : List Nat) : Option (Int × Int) :=
  if utf8 = [0xE2, 0x80, 0x8B] then none else some (6, 12)

/-- A view with the two lines `é` (two bytes, one code point) and `abc`, cells not
yet built. -/
def example_unbuilt : View :=
  { lines := [{ text := [0xC3, 0xA9], cells := [] }, { text := [97, 98, 99], cells := [] }],
    max_cols := 0 }

/-! ## Decoding a text from start to end -/

/-- The code points obtained by decoding a text with `utf8_decode` from the index
`j` to its end, each call starting where the one before ended, in at most
`fuel` calls.  This follows the wording of the specification and is compared
below with the cells that `view_build_cells` writes. -/
def decode_loop (s : List Nat) (len : Nat) : Nat → Nat → List Nat
  | 0, _ => []
  | fuel + 1, j =>
    if j < len then
      (utf8_decode s len j).1 :: decode_loop s len fuel (j + (utf8_decode s len j).2)
    else []

/-- The code points obtained by decoding a text from start to end. -/
def decoded (text : List Nat) : List Nat :=
  decode_loop text text.length text.length 0

/-! ## Art slots and their alignment -/

/-- An `ArtSlot` of the source. -/
structure ArtSlot where
  y0 : Int
  y1 : Int
  x0 : Int
  x1 : Int
deriving DecidableEq, Repr

/-- The function `align_art_to_field(slot, art_w, art_h, &out_x, &out_y)`: the pair
`(out_x, out_y)`.  The operators `/` and `%` of C on `int` round towards zero. -/
def align_art_to_field (slot : ArtSlot) (art_w art_h : Int) : Int × Int :=
  let field_y_center := (slot.y0 + slot.y1).tdiv 2
  let field_x_center := (slot.x0 + slot.x1).tdiv 2
  let y_half_1 := art_h.tdiv 2 - (if art_h.tmod 2 = 1 then 0 else 1)
  let y_min := field_y_center - y_half_1
  let x_half_1 := art_w.tdiv 2 - (if art_w.tmod 2 = 1 then 0 else 1)
  let x_min := field_x_center - x_half_1
  (x_min, y_min)

/-- The half extent of a block of `d ≥ 1` cells as the specification words it:
`d / 2 - 1` for an even `d` and `d / 2` for an odd `d`. -/
def half_extent (d : Int) : Int :=
  if d % 2 = 0 then d / 2 - 1 else d / 2

/-! ## The value map -/

/-- A `KV` of the source: a key and a value, both strings. -/
structure KV where
  key : List Nat
  value : List Nat
deriving DecidableEq, Repr

/-- A `ValueMap` of the source; `count` is `items.length`. -/
structure ValueMap where
  items : List KV
deriving DecidableEq, Repr

/-- The scanning loop of `value_map_set`: at the first item whose key compares
equal (`strcmp(...) == 0`) the value is replaced and the function returns; `none`
when the loop ends without a match. -/
def value_map_set_loop (key value : List Nat) : List KV → Option (List KV)
  | [] => none
  | kv :: rest =>
    if kv.key = key then some ({ key := kv.key, value := value } :: rest)
    else (value_map_set_loop key value rest).map (fun items => kv :: items)

/-- The function `value_map_set(map, key, value)`. -/
def value_map_set (map : ValueMap) (key value : List Nat) : ValueMap :=
  match value_map_set_loop key value map.items with
  | some items => { items := items }
  | none => { items := map.items ++ [{ key := key, value := value }] }

/-- The function `value_map_get(map, key)`: the value of the first item whose key
compares equal, `none` for `NULL`. -/
def value_map_get (map : ValueMap) (key : List Nat) : Option (List Nat) :=
  match map.items.find? (fun kv => kv.key = key) with
  | some kv => some kv.value
  | none => none

/-- The decimal digits of a natural number, as bytes. -/
def nat_digits (n : Nat) : List Nat :=
  (Nat.toDigits 10 n).map (fun c => c.toNat)

/-- The text `snprintf(buf, sizeof(buf), "%d", value)` writes for an `int`. -/
def format_int (value : Int) : List Nat :=
  if value < 0 then 45 :: nat_digits value.natAbs else nat_digits value.natAbs

/-- The function `value_map_set_int(map, key, value)`. -/
def value_map_set_int (map : ValueMap) (key : List Nat) (value : Int) : ValueMap :=
  value_map_set map key (format_int value)

/-- The function `value_map_set_if_missing(map, key, value)`. -/
def value_map_set_if_missing (map : ValueMap) (key value : List Nat) : ValueMap :=
  match value_map_get map key with
  | none => value_map_set map key value
  | some _ => map

/-- A call of one of the three functions that write a value map. -/
inductive MapCall where
  | set (key value : List Nat)
  | set_int (key : List Nat) (value : Int)
  | set_if_missing (key value : List Nat)
deriving DecidableEq, Repr

/-- The map after one call. -/
def map_call (map : ValueMap) : MapCall → ValueMap
  | .set key value => value_map_set map key value
  | .set_int key value => value_map_set_int map key value
  | .set_if_missing key value => value_map_set_if_missing map key value

/-- The map reached from the empty map by a sequence of calls. -/
def map_calls (calls : List MapCall) : ValueMap :=
  calls.foldl map_call { items := [] }

/-- The keys of a map, in the order of its items. -/
def map_keys (map : ValueMap) : List (List Nat) :=
  map.items.map (fun kv => kv.key)

/-! ## The configuration tree -/

/-- A `Node` of the source: a scalar with its text, a sequence with its items, or
a map with its keys and values in order (`map.keys[i]` with `map.values[i]`). -/
inductive Node where
  | scalar (text : List Nat)
  | seq (items : List Node)
  | map (entries : List (List Nat × Node))

/-- The function `node_map_get(map, key)` on a node that is not `NULL`: the value
of the first entry whose key compares equal, `none` for `NULL`. -/
def node_map_get : Node → List Nat → Option Node
  | .map entries, key => (entries.find? (fun e => e.1 = key)).map (fun e => e.2)
  | _, _ => none

/-- The function `node_scalar(node)`; `none` stands for `NULL`, as argument and
as result. -/
def node_scalar : Option Node → Option (List Nat)
  | some (.scalar text) => some text
  | _ => none

/-- The test `isspace(c)` of the C library in the C locale. -/
def is_space (c : Nat) : Bool :=
  c = 32 || (9 ≤ c && c ≤ 13)

/-- The digits loop of `atoi`: the value of the leading decimal digits. -/
def atoi_digits (acc : Nat) : List Nat → Nat
  | [] => acc
  | c :: rest => if 48 ≤ c ∧ c ≤ 57 then atoi_digits (acc * 10 + (c - 48)) rest else acc

/-- The C library function `atoi` on a text whose value fits an `int`: leading
white space, an optional sign, then decimal digits. -/
def atoi (s : List Nat) : Int :=
  match s.dropWhile is_space with
  | 45 :: rest => -((atoi_digits 0 rest : Nat) : Int)
  | 43 :: rest => ((atoi_digits 0 rest : Nat) : Int)
  | rest => ((atoi_digits 0 rest : Nat) : Int)

/-- The function `node_int(node, fallback)`. -/
def node_int (node : Option Node) (fallback : Int) : Int :=
  match node_scalar node with
  | some s => atoi s
  | none => fallback

/-- The function `node_string_list(node, &count)`: the list of strings; the
returned count is its length. -/
def node_string_list : Option Node → List (List Nat)
  | some (.scalar text) => [text]
  | some (.seq items) => items.filterMap (fun item => node_scalar (some item))
  | _ => []

/-! ## Loading a menu -/

/-- A `PartialSlot` of the source; `none` is a `NULL` name. -/
structure PartialSlot where
  name : Option (List Nat)
  y0 : Int
  y1 : Int
  x0 : Int
  x1 : Int
deriving DecidableEq, Repr

/-- A `Menu` of the source; the counts are the lengths of the lists. -/
structure Menu where
  view : View
  inserts : List InsertOption
  arts : List ArtSlot
  partials : List PartialSlot
deriving DecidableEq, Repr

/-- The string `"view"`. -/
def KEY_VIEW : List Nat := [118, 105, 101, 119]

/-- The string `"insert_options"`. -/
def KEY_INSERT_OPTIONS : List Nat :=
  [105, 110, 115, 101, 114, 116, 95, 111, 112, 116, 105, 111, 110, 115]

/-- The string `"arts"`. -/
def KEY_ARTS : List Nat := [97, 114, 116, 115]

/-- The string `"partials"`. -/
def KEY_PARTIALS : List Nat := [112, 97, 114, 116, 105, 97, 108, 115]

/-- The string `"methods"`. -/
def KEY_METHODS : List Nat := [109, 101, 116, 104, 111, 100, 115]

/-- The string `"modifier"`. -/
def KEY_MODIFIER : List Nat := [109, 111, 100, 105, 102, 105, 101, 114]

/-- The string `"partial_name"`. -/
def KEY_PARTIAL_NAME : List Nat := [112, 97, 114, 116, 105, 97, 108, 95, 110, 97, 109, 101]

/-- The string `"y"`. -/
def KEY_Y : List Nat := [121]

/-- The string `"x"`. -/
def KEY_X : List Nat := [120]

/-- The lines that `menu_load` and `artfile_load` take from the items of a
sequence: one line per scalar item, its text copied and its cells unset; other
items are passed over (`if (!line) continue;`). -/
def load_lines (items : List Node) : List Line :=
  items.filterMap (fun item =>
    match node_scalar (some item) with
    | some text => some { text := text, cells := [] }
    | none => none)

/-- The methods that `menu_load` takes from the node `methods` of a placeholder. -/
def load_methods : Option Node → List (List Nat)
  | some (.seq items) => items.filterMap (fun item => node_scalar (some item))
  | _ => []

/-- The modifier that `menu_load` takes from the node `modifier` of a
placeholder: the first byte of a scalar that is not empty, else `'s'`. -/
def load_modifier : Option Node → Nat
  | some (.scalar (c :: _)) => c
  | _ => 115

/-- The insert options that `menu_load` takes from one entry of the map
`insert_options`: one for every placeholder entry whose value is a map. -/
def load_line_inserts (line_key : List Nat) : Node → List InsertOption
  | .map placeholders =>
    placeholders.filterMap (fun entry =>
      match entry.2 with
      | .map fields =>
        some { line_idx := atoi line_key
               placeholder := entry.1.getD 0 0
               modifier := load_modifier (node_map_get (.map fields) KEY_MODIFIER)
               methods := load_methods (node_map_get (.map fields) KEY_METHODS) }
      | _ => none)
  | _ => []

/-- The insert options that `menu_load` takes from the node `insert_options`. -/
def load_inserts : Option Node → List InsertOption
  | some (.map lines) =>
    (lines.map (fun entry => load_line_inserts entry.1 entry.2)).flatten
  | _ => []

/-- The pair that `menu_load` reads from a node `y` or `x`: the integers of the
first two items of a sequence of two or more items, else `(0, 0)`. -/
def load_pair : Option Node → Int × Int
  | some (.seq (a :: b :: _)) => (node_int (some a) 0, node_int (some b) 0)
  | _ => (0, 0)

/-- The art slots that `menu_load` takes from the node `arts`: one for every
item that is a map. -/
def load_arts : Option Node → List ArtSlot
  | some (.seq items) =>
    items.filterMap (fun item =>
      match item with
      | .map fields =>
        some { y0 := (load_pair (node_map_get (.map fields) KEY_Y)).1
               y1 := (load_pair (node_map_get (.map fields) KEY_Y)).2
               x0 := (load_pair (node_map_get (.map fields) KEY_X)).1
               x1 := (load_pair (node_map_get (.map fields) KEY_X)).2 }
      | _ => none)
  | _ => []

/-- The partial slots that `menu_load` takes from the node `partials`: one for
every item that is a map; the name is set when `partial_name` is a scalar. -/
def load_partials : Option Node → List PartialSlot
  | some (.seq items) =>
    items.filterMap (fun item =>
      match item with
      | .map fields =>
        some { name := node_scalar (node_map_get (.map fields) KEY_PARTIAL_NAME)
               y0 := (load_pair (node_map_get (.map fields) KEY_Y)).1
               y1 := (load_pair (node_map_get (.map fields) KEY_Y)).2
               x0 := (load_pair (node_map_get (.map fields) KEY_X)).1
               x1 := (load_pair (node_map_get (.map fields) KEY_X)).2 }
      | _ => none)
  | _ => []

/-- The view that `menu_load` takes from the node `view`. -/
def load_view : Option Node → View
  | some (.seq items) => { lines := load_lines items, max_cols := 0 }
  | _ => { lines := [], max_cols := 0 }

/-- The function `menu_load(path, menu)` on the root that `yaml_load_file(path)`
returns (`none` for `NULL`): the returned flag and the menu afterwards.  A root
that is no map returns `false` and leaves the menu as it was. -/
def menu_load (root : Option Node) (menu : Menu) : Bool × Menu :=
  match root with
  | some (.map entries) =>
    let loaded : Menu :=
      { view := load_view (node_map_get (.map entries) KEY_VIEW)
        inserts := load_inserts (node_map_get (.map entries) KEY_INSERT_OPTIONS)
        arts := load_arts (node_map_get (.map entries) KEY_ARTS)
        partials := load_partials (node_map_get (.map entries) KEY_PARTIALS) }
    (decide (loaded.view.lines.length > 0), loaded)
  | _ => (false, menu)

/-- The menu `Menu partial = {0};` of `compose_menu`. -/
def empty_menu : Menu :=
  { view := { lines := [], max_cols := 0 }, inserts := [], arts := [], partials := [] }

/-! ## Composing a menu -/

/-- The string `"round"`. -/
def STR_ROUND : List Nat := [114, 111, 117, 110, 100]

/-- The string `"normal"`. -/
def STR_NORMAL : List Nat := [110, 111, 114, 109, 97, 108]

/-- The body of the loop of `apply_method_chain` for one further method.  The
state is the buffer `key` and the string `current`.  The function `round_text`
stands for the text of `snprintf(buf, sizeof(buf), "%.0f", round(atof(current)))`,
which is `double` arithmetic and is left open. -/
def chain_step (round_text : List Nat → List Nat) (map : ValueMap)
    (st : List Nat × List Nat) (method : List Nat) : List Nat × List Nat :=
  if method = STR_ROUND then (st.1, round_text st.2)
  else if st.1.length + method.length + 2 < 128 then
    let key := st.1 ++ [46] ++ method
    match value_map_get map key with
    | some val => (key, val)
    | none => (key, st.2)
  else st

/-- The function `apply_method_chain(map, opt)`.  The buffer `key` has 128 bytes,
so `snprintf(key, sizeof(key), "%s", ...)` keeps at most 127 bytes of the first
method. -/
def apply_method_chain (round_text : List Nat → List Nat) (map : ValueMap)
    (opt : InsertOption) : List Nat :=
  match opt.methods with
  | [] => []
  | first :: rest =>
    let key := first.take 127
    let base := match value_map_get map key with
      | some val => val
      | none => []
    (rest.foldl (chain_step round_text map) (key, base)).2

/-- The function `apply_inserts(menu, map)`. -/
def apply_inserts (round_text : List Nat → List Nat) (menu : Menu) (map : ValueMap) : Menu :=
  { menu with
    view := menu.inserts.foldl
      (fun view opt => apply_insert view opt (apply_method_chain round_text map opt))
      menu.view }

/-- An `Art` of the source. -/
structure Art where
  name : List Nat
  view : View
deriving DecidableEq, Repr

/-- An `ArtArg` of the source; `none` is a `NULL` string. -/
structure ArtArg where
  name : Option (List Nat)
  path : Option (List Nat)
deriving DecidableEq, Repr

/-- The function `artfile_load(path, file)` on the root that `yaml_load_file(path)`
returns: the returned flag and the arts of the file afterwards, one for every
entry of the root map whose value is a sequence. -/
def artfile_load (root : Option Node) : Bool × List Art :=
  match root with
  | some (.map entries) =>
    let arts : List Art := entries.filterMap (fun entry =>
      match entry.2 with
      | .seq items =>
        some { name := entry.1, view := { lines := load_lines items, max_cols := 0 } }
      | _ => none)
    (decide (arts.length > 0), arts)
  | _ => (false, [])

/-- The function `artfile_find(file, name)`. -/
def artfile_find (arts : List Art) (name : List Nat) : Option Art :=
  arts.find? (fun art => art.name = name)

/-- The body of the partial loop of `compose_menu` for the slot `i`, on the view
of the parent.  The function `menu_files` stands for the file system: it gives
for a partial name the root that `yaml_load_file(resolve_menu_path(name))`
returns. -/
def compose_part (menu_files : List Nat → Option Node) (round_text : List Nat → List Nat)
    (main_map : ValueMap) (partial_maps : List (Option ValueMap)) (view : View) (i : Nat)
    (slot : PartialSlot) : View :=
  match slot.name with
  | none => view
  | some name =>
    match menu_load (menu_files name) empty_menu with
    | (true, part) =>
      let map := match partial_maps[i]? with
        | some (some m) => m
        | _ => main_map
      let part1 := apply_inserts round_text part map
      insert_view view (view_build_cells part1.view) slot.y0 slot.x0
    | (false, _) => view

/-- The body of the art loop of `compose_menu` for one art slot and its argument,
on the view of the parent.  The function `art_files` gives for a path the root
that `yaml_load_file(resolve_art_path(path))` returns. -/
def compose_art (art_files : List Nat → Option Node) (view : View) (slot : ArtSlot)
    (arg : ArtArg) : View :=
  match arg.name, arg.path with
  | some name, some path =>
    match artfile_load (art_files path) with
    | (true, arts) =>
      let art := match artfile_find arts name with
        | some a => some a
        | none => if name ≠ STR_NORMAL then artfile_find arts STR_NORMAL else none
      match art with
      | some a =>
        let art_view := view_build_cells a.view
        let xy := align_art_to_field slot (art_view.max_cols : Int) (art_view.lines.length : Int)
        insert_view view art_view xy.2 xy.1
      | none => view
    | (false, _) => view
  | _, _ => view

/-- The function `compose_menu(menu, main_map, partial_maps, partial_map_count,
art_args, art_arg_count)`; the two counts are the lengths of the lists. -/
def compose_menu (menu_files art_files : List Nat → Option Node)
    (round_text : List Nat → List Nat) (menu : Menu) (main_map : ValueMap)
    (partial_maps : List (Option ValueMap)) (art_args : List ArtArg) : Menu :=
  let menu1 := apply_inserts round_text menu main_map
  let view1 := view_build_cells menu1.view
  let view2 := (List.range menu1.partials.length).foldl
    (fun view i =>
      match menu1.partials[i]? with
      | some slot => compose_part menu_files round_text main_map partial_maps view i slot
      | none => view)
    view1
  let view3 := (menu1.arts.zip art_args).foldl
    (fun view p => compose_art art_files view p.1 p.2)
    view2
  { menu1 with view := view3 }

/-- The text `....`. -/
def TEXT_DOTS : List Nat := [46, 46, 46, 46]

/-- A slot node `partial_name: name`, `y: [0, 0]`, `x: [0, 0]`. -/
def example_slot_node (name : List Nat) : Node :=
  .map [(KEY_PARTIAL_NAME, .scalar name),
        (KEY_Y, .seq [.scalar [48], .scalar [48]]),
        (KEY_X, .seq [.scalar [48], .scalar [48]])]

/-- Three menu files: `m` with the view `....`, `....` and a partial slot for `p`
at `(0, 0)`; `p` with the view `ab` and a partial slot for `q` at `(0, 0)`; `q` with
the view `Z`. -/
def example_menu_files (name : List Nat) : Option Node :=
  if name = [109] then
    some (.map [(KEY_VIEW, .seq [.scalar TEXT_DOTS, .scalar TEXT_DOTS]),
                (KEY_PARTIALS, .seq [example_slot_node [112]])])
  else if name = [112] then
    some (.map [(KEY_VIEW, .seq [.scalar [97, 98]]),
                (KEY_PARTIALS, .seq [example_slot_node [113]])])
  else if name = [113] then
    some (.map [(KEY_VIEW, .seq [.scalar [90]])])
  else none

/-- The same menu files with the partial slot of `p` removed. -/
def example_menu_files_flat (name : List Nat) : Option Node :=
  if name = [109] then
    some (.map [(KEY_VIEW, .seq [.scalar TEXT_DOTS, .scalar TEXT_DOTS]),
                (KEY_PARTIALS, .seq [example_slot_node [112]])])
  else if name = [112] then
    some (.map [(KEY_VIEW, .seq [.scalar [97, 98]])])
  else if name = [113] then
    some (.map [(KEY_VIEW, .seq [.scalar [90]])])
  else none

/-- The menu that `menu_load` gives for a file of `example_menu_files`. -/
def example_menu (name : List Nat) : Menu :=
  (menu_load (example_menu_files name) empty_menu).2

/-- The node is a scalar. -/
def is_scalar : Node → Bool
  | .scalar _ => true
  | _ => false

/-- The text `angry`. -/
def STR_ANGRY : List Nat := [97, 110, 103, 114, 121]

/-- Two art files: `a` with the variants `normal` (the line `N`) and `angry` (the
line `A`); `b` with the variant `angry` only. -/
def example_art_files (path : List Nat) : Option Node :=
  if path = [97] then
    some (.map [(STR_NORMAL, .seq [.scalar [78]]), (STR_ANGRY, .seq [.scalar [65]])])
  else if path = [98] then
    some (.map [(STR_ANGRY, .seq [.scalar [65]])])
  else none

/-- A menu with the view `....` and one art slot `y: [0, 0]`, `x: [0, 3]`. -/
def example_art_menu : Menu :=
  { empty_menu with
    view := { lines := [{ text := TEXT_DOTS, cells := [] }], max_cols := 0 },
    arts := [{ y0 := 0, y1 := 0, x0 := 0, x1 := 3 }] }


/-! ## Dotted keys -/

/-- The dotted key `m0.m1.....mi` of the methods `m0, ..., mi`, in the wording of the
specification: the methods joined by `.`. -/
def dotted_key (methods : List (List Nat)) : List Nat :=
  List.intercalate [46] methods

/-- The dotted keys `m0`, `m0.m1`, ..., `m0.m1.....mk` of the methods `m0, ..., mk`. -/
def dotted_keys (methods : List (List Nat)) : List (List Nat) :=
  (List.range methods.length).map (fun i => dotted_key (methods.take (i + 1)))

/-- The value of the last key of the list that the map holds, and `cur` when it
holds none of them. -/
def last_value (map : ValueMap) (keys : List (List Nat)) (cur : List Nat) : List Nat :=
  keys.foldl (fun cur key =>
    match value_map_get map key with
    | some val => val
    | none => cur) cur

/-- Two methods of 63 bytes each, `aaa...a` and `bbb...b`. -/
def example_long_methods : List (List Nat) := [List.replicate 63 97, List.replicate 63 98]

/-- A map that holds the value `x` under the dotted key of `example_long_methods`. -/
def example_long_map : ValueMap :=
  { items := [⟨dotted_key example_long_methods, [120]⟩] }


/-! ## Drawing the grid -/

/-- The function `find_glyph(glyphs, count, cp)`: the first entry of the glyph
table with the code point `cp`, and `none` for `NULL`. -/
def find_glyph (glyphs : List Glyph) (cp : Nat) : Option Glyph :=
  glyphs.find? (fun g => g.codepoint = cp)

/-- A quad that `draw_menu` emits between `glBegin` and `glEnd`: the column `x` and
the row `y` of the cell, which give the four vertex positions, the code point
`cp` of the cell, which gives the colour, and the glyph `g` of the table, which
gives the four texture coordinates. -/
structure Quad where
  x : Nat
  y : Nat
  cp : Nat
  glyph : Glyph
deriving DecidableEq, Repr

/-- The variables `idx` and `y` of `draw_menu` and the quads emitted so far; `stop`
is set when `y = rs->grid_h; break;` has ended both loops. -/
structure DrawState where
  idx : Int
  stop : Bool
  quads : List Quad
deriving DecidableEq, Repr

/-- The code point that `draw_menu` reads for the cell in row `y` and column `x`:
`(x < (int)line->len_cells) ? line->cells[x] : ' '`. -/
def draw_cp (view : View) (y x : Nat) : Nat :=
  match view.lines[y]? with
  | some line => if x < line.cells.length then line.cells.getD x SPACE else SPACE
  | none => SPACE

/-- The body of the inner loop of `draw_menu` for the cell in row `y` and column
`x`.  Once the limit is reached, no later cell is visited. -/
def draw_cell (view : View) (rs : RenderState) (limit : Int) (y x : Nat)
    (st : DrawState) : DrawState :=
  if st.stop then st
  else if st.idx ≥ limit then { st with stop := true }
  else
    let cp := draw_cp view y x
    if cp = SPACE then { st with idx := st.idx + 1 }
    else
      match find_glyph rs.glyphs cp with
      | none => { st with idx := st.idx + 1 }
      | some g =>
        { st with idx := st.idx + 1, quads := st.quads ++ [{ x := x, y := y, cp := cp, glyph := g }] }

/-- The inner loop `for (int x = 0; x < rs->grid_w; ++x)` of `draw_menu` for the
row `y`. -/
def draw_row (view : View) (rs : RenderState) (limit : Int) (st : DrawState) (y : Nat) :
    DrawState :=
  (List.range rs.grid_w.toNat).foldl (fun st x => draw_cell view rs limit y x st) st

/-- The function `draw_menu(menu, rs, win_w, win_h, cell_w, cell_h, alpha,
max_chars)` on the menu's view: the quads emitted, in their order.  The window
size, the cell size and `alpha` enter the vertex positions and the colour only. -/
def draw_menu (view : View) (rs : RenderState) (max_chars : Int) : List Quad :=
  if rs.glyphs.length = 0 then []
  else
    let total_cells := rs.grid_w * rs.grid_h
    let limit := if max_chars < 0 then total_cells else max_chars
    ((List.range rs.grid_h.toNat).foldl (draw_row view rs limit)
      { idx := 0, stop := false, quads := [] }).quads

/-- The quad of the cell in row `y` and column `x`, when that cell is not a space
and its code point has an entry in the glyph table. -/
def cell_quad (view : View) (rs : RenderState) (y x : Nat) : Option Quad :=
  if draw_cp view y x = SPACE then none
  else (find_glyph rs.glyphs (draw_cp view y x)).map
    (fun g => { x := x, y := y, cp := draw_cp view y x, glyph := g })

/-- The quad of the cell with the row-major index `k` in a grid of `w` columns. -/
def quad_at (view : View) (rs : RenderState) (w k : Nat) : Option Quad :=
  cell_quad view rs (k / w) (k % w)

/-- The cells of a grid of `w` columns and `h` rows in row-major order. -/
def cells_row_major (w h : Nat) : List (Nat × Nat) :=
  ((List.range h).map (fun y => (List.range w).map (fun x => (y, x)))).flatten

/-- A screen with the two lines `a b` and `bac`, built from its text. -/
def example_draw_view : View :=
  view_build_cells
    { lines := [{ text := [97, 32, 98], cells := [] }, { text := [98, 97, 99], cells := [] }],
      max_cols := 0 }

/-- A render state for `example_draw_view` whose glyph table has entries for `a`
and `b` and none for `c`. -/
def example_draw_state : RenderState :=
  { tex_w := 16, tex_h := 16,
    glyphs := [{ codepoint := 97, u0 := 0, v0 := 0, u1 := 0, v1 := 0 },
               { codepoint := 98, u0 := 0, v0 := 0, u1 := 0, v1 := 0 }],
    glyph_list := [97, 98], grid_w := 3, grid_h := 2 }


/-! ## The tree builder of `yaml_load_file` -/

/-- The events that `yaml_parser_parse` delivers, with the text of a scalar; the
other data of an event is not read by `yaml_load_file`. -/
inductive Event where
  | stream_start
  | stream_end
  | document_start
  | document_end
  | alias
  | scalar (value : List Nat)
  | sequence_start
  | sequence_end
  | mapping_start
  | mapping_end
deriving DecidableEq, Repr

/-- The function `node_seq_push(seq, item)`. -/
def node_seq_push (seq item : Node) : Node :=
  match seq with
  | .seq items => .seq (items ++ [item])
  | n => n

/-- The function `node_map_set(map, key, value)`: the entry is appended, whatever
keys the map has. -/
def node_map_set (map : Node) (key : List Nat) (value : Node) : Node :=
  match map with
  | .map entries => .map (entries ++ [(key, value)])
  | n => n

/-- How a container was linked when it was opened: as the root, as the next item
of the sequence below it, as the value of the key `key` of the map below it, or
not at all. -/
inductive Attach where
  | root
  | item
  | value (key : List Nat)
  | detached

/-- One level of the arrays `stack`, `map_key` and `map_expect_key`.  The source
links a new container into its parent when it is opened and fills it afterwards
through the pointer on the stack; here the container is kept in its level and
put into the parent when the level is left, at the place fixed when it was
opened, which `attach` records. -/
structure Frame where
  node : Node
  key : Option (List Nat)
  expect_key : Bool
  attach : Attach

/-- The variables `root` and `stack` (top first, `stack_len` is its length) of
`yaml_load_file`. -/
structure Builder where
  root : Option Node
  stack : List Frame

/-- The cases `YAML_MAPPING_START_EVENT` and `YAML_SEQUENCE_START_EVENT`, with the
new node and the value that `map_expect_key` gets.  The arrays have 128
entries; with 128 open containers the write `stack[stack_len] = ...` is beyond
them, for which the result is `none`. -/
def open_container (b : Builder) (node : Node) (expect : Bool) : Option Builder :=
  if b.stack.length ≥ 128 then none
  else
    match b.stack with
    | [] =>
      some { b with
        stack := [{ node := node, key := none, expect_key := expect,
                    attach := if b.root.isNone then .root else .detached }] }
    | parent :: below =>
      match parent.node with
      | .seq _ =>
        some { b with
          stack := { node := node, key := none, expect_key := expect, attach := .item }
            :: parent :: below }
      | .map _ =>
        match parent.expect_key, parent.key with
        | false, some k =>
          some { b with
            stack := { node := node, key := none, expect_key := expect, attach := .value k }
              :: { parent with key := none, expect_key := true } :: below }
        | _, _ =>
          some { b with
            stack := { node := node, key := none, expect_key := expect, attach := .detached }
              :: parent :: below }
      | .scalar _ =>
        some { b with
          stack := { node := node, key := none, expect_key := expect, attach := .detached }
            :: parent :: below }

/-- The cases `YAML_MAPPING_END_EVENT` and `YAML_SEQUENCE_END_EVENT`:
`if (stack_len > 0) stack_len--`, with the container that is left put into its
parent. -/
def close_container (b : Builder) : Builder :=
  match b.stack with
  | [] => b
  | top :: below =>
    match top.attach with
    | .root => { root := some top.node, stack := below }
    | .detached => { b with stack := below }
    | .item =>
      match below with
      | parent :: rest =>
        { b with stack := { parent with node := node_seq_push parent.node top.node } :: rest }
      | [] => { b with stack := [] }
    | .value k =>
      match below with
      | parent :: rest =>
        { b with stack := { parent with node := node_map_set parent.node k top.node } :: rest }
      | [] => { b with stack := [] }

/-- The case `YAML_SCALAR_EVENT` for a scalar with the text `value`. -/
def add_scalar (b : Builder) (value : List Nat) : Builder :=
  match b.stack with
  | [] => if b.root.isNone then { b with root := some (.scalar value) } else b
  | parent :: below =>
    match parent.node with
    | .seq _ =>
      { b with stack := { parent with node := node_seq_push parent.node (.scalar value) } :: below }
    | .map _ =>
      if parent.expect_key then
        { b with stack := { parent with key := some value, expect_key := false } :: below }
      else
        match parent.key with
        | some k =>
          { b with
            stack := { parent with
              node := node_map_set parent.node k (.scalar value),
              key := none, expect_key := true } :: below }
        | none => b
    | .scalar _ => b

/-- The `switch (event.type)` of `yaml_load_file` for an event other than
`YAML_STREAM_END_EVENT`. -/
def build_step (b : Builder) (e : Event) : Option Builder :=
  match e with
  | .mapping_start => open_container b (.map []) true
  | .sequence_start => open_container b (.seq []) false
  | .scalar value => some (add_scalar b value)
  | .mapping_end => some (close_container b)
  | .sequence_end => some (close_container b)
  | _ => some b

/-- The loop `while (yaml_parser_parse(&parser, &event))` of `yaml_load_file` over
the events that the parser delivers; the list ends where the parser fails or
after `YAML_STREAM_END_EVENT`. -/
def build_loop : Builder → List Event → Option Builder
  | b, [] => some b
  | b, e :: rest =>
    if e = .stream_end then some b
    else
      match build_step b e with
      | some b2 => build_loop b2 rest
      | none => none

/-- The containers still open when the loop is left are put into their parents. -/
def close_loop : Nat → Builder → Builder
  | 0, b => b
  | n + 1, b => close_loop n (close_container b)

/-- The tree that `yaml_load_file` returns for a file whose events are `events`:
`some none` for `NULL`, and `none` when the nesting is beyond the arrays. -/
def yaml_build (events : List Event) : Option (Option Node) :=
  (build_loop { root := none, stack := [] } events).map
    (fun b => (close_loop b.stack.length b).root)

mutual
/-- The events of a document node: the text of a scalar, the items of a sequence
between start and end, the keys and values of a map in turn between start and
end. -/
def events_of : Node → List Event
  | .scalar text => [.scalar text]
  | .seq items => .sequence_start :: (events_of_items items ++ [.sequence_end])
  | .map entries => .mapping_start :: (events_of_entries entries ++ [.mapping_end])
/-- The events of the items of a sequence. -/
def events_of_items : List Node → List Event
  | [] => []
  | item :: rest => events_of item ++ events_of_items rest
/-- The events of the entries of a map. -/
def events_of_entries : List (List Nat × Node) → List Event
  | [] => []
  | (key, value) :: rest => .scalar key :: (events_of value ++ events_of_entries rest)
end

mutual
/-- The number of containers nested in a node. -/
def depth : Node → Nat
  | .scalar _ => 0
  | .seq items => depth_items items + 1
  | .map entries => depth_entries entries + 1
/-- The largest depth of an item. -/
def depth_items : List Node → Nat
  | [] => 0
  | item :: rest => max (depth item) (depth_items rest)
/-- The largest depth of a value. -/
def depth_entries : List (List Nat × Node) → Nat
  | [] => 0
  | (_, value) :: rest => max (depth value) (depth_entries rest)
end

/-- The document `a: 1`, `a: 2` as events. -/
def example_repeated_key : List Event :=
  [.stream_start, .document_start, .mapping_start, .scalar [97], .scalar [49],
   .scalar [97], .scalar [50], .mapping_end, .document_end, .stream_end]

/-- The place at the top of the stack takes a node: no root yet and no open
container, or an open sequence, or an open map that has read a key. -/
def Accepts (b : Builder) : Prop :=
  match b.stack with
  | [] => b.root = none
  | parent :: _ =>
    match parent.node with
    | .seq _ => True
    | .map _ => parent.expect_key = false ∧ parent.key ≠ none
    | .scalar _ => False

/-- The builder after a whole node has been taken at the top of the stack. -/
def deliver (b : Builder) (n : Node) : Builder :=
  match b.stack with
  | [] => { b with root := some n }
  | parent :: below =>
    match parent.node with
    | .seq _ => { b with stack := { parent with node := node_seq_push parent.node n } :: below }
    | .map _ =>
      match parent.key with
      | some k =>
        { b with
          stack := { parent with
            node := node_map_set parent.node k n, key := none, expect_key := true } :: below }
      | none => b
    | .scalar _ => b

/-- The keys of a map node, in the order of its entries. -/
def node_keys : Node → List (List Nat)
  | .map entries => entries.map (fun e => e.1)
  | _ => []

/-- The events of a stream with the one document `n`. -/
def document_events (n : Node) : List Event :=
  .stream_start :: .document_start :: (events_of n ++ [.document_end, .stream_end])

/-- The document `view: [ab, cd]`, `x: 1`. -/
def example_document : Node :=
  .map [([118, 105, 101, 119], .seq [.scalar [97, 98], .scalar [99, 100]]),
        ([120], .scalar [49])]


/-! ## Lemmas on decoding and the cell loops -/

theorem utf8_decode_adv_pos (s : List Nat) (len i : Nat) : 1 ≤ (utf8_decode s len i).2 := by
  unfold utf8_decode
  simp only []
  split_ifs <;> simp

theorem count_loop_ge (s : List Nat) (len : Nat) :
    ∀ fuel j count, count ≤ count_loop s len fuel j count := by
  intro fuel
  induction fuel with
  | zero => intro j count; simp [count_loop]
  | succ n ih =>
    intro j count
    simp only [count_loop]
    split_ifs
    · exact Nat.le_trans (Nat.le_succ count) (ih _ _)
    · exact Nat.le_refl _

/-- Fuel beyond `len - j` does not change the result of the counting loop: the
loop has ended by then. -/
theorem count_loop_fuel (s : List Nat) (len : Nat) :
    ∀ fuel j count, len - j ≤ fuel →
      count_loop s len (fuel + 1) j count = count_loop s len fuel j count := by
  intro fuel
  induction fuel with
  | zero =>
    intro j count h
    have hj : ¬ j < len := by omega
    simp [count_loop, hj]
  | succ n ih =>
    intro j count h
    rw [count_loop]
    by_cases hj : j < len
    · have hadv := utf8_decode_adv_pos s len j
      rw [if_pos hj, ih _ _ (by omega)]
      conv_rhs => rw [count_loop, if_pos hj]
    · rw [if_neg hj]
      conv_rhs => rw [count_loop, if_neg hj]

/-- Fuel beyond `len - j` does not change the result of the filling loop. -/
theorem fill_loop_fuel (s : List Nat) (len max_cols : Nat) :
    ∀ fuel j col cells, len - j ≤ fuel →
      fill_loop s len max_cols (fuel + 1) j col cells
        = fill_loop s len max_cols fuel j col cells := by
  intro fuel
  induction fuel with
  | zero =>
    intro j col cells h
    have hj : ¬ (j < len ∧ col < max_cols) := by omega
    simp [fill_loop, hj]
  | succ n ih =>
    intro j col cells h
    rw [fill_loop]
    by_cases hg : j < len ∧ col < max_cols
    · have hadv := utf8_decode_adv_pos s len j
      rw [if_pos hg, ih _ _ _ (by omega)]
      conv_rhs => rw [fill_loop, if_pos hg]
    · rw [if_neg hg]
      conv_rhs => rw [fill_loop, if_neg hg]

theorem fill_loop_length (s : List Nat) (len max_cols : Nat) :
    ∀ fuel j col cells, (fill_loop s len max_cols fuel j col cells).length = cells.length := by
  intro fuel
  induction fuel with
  | zero => intro j col cells; simp [fill_loop]
  | succ n ih =>
    intro j col cells
    simp only [fill_loop]
    split_ifs
    · rw [ih]; simp
    · rfl

/-- The filling loop leaves every column at or beyond the count of the counting
loop (started from the same state) as it was. -/
theorem fill_loop_frame (s : List Nat) (len max_cols : Nat) :
    ∀ fuel j col cells idx, count_loop s len fuel j col ≤ idx →
      (fill_loop s len max_cols fuel j col cells)[idx]? = cells[idx]? := by
  intro fuel
  induction fuel with
  | zero => intro j col cells idx _; simp [fill_loop]
  | succ n ih =>
    intro j col cells idx h
    simp only [fill_loop]
    by_cases hg : j < len ∧ col < max_cols
    · rw [if_pos hg]
      simp only [count_loop, if_pos hg.1] at h
      have hge := count_loop_ge s len n (j + (utf8_decode s len j).2) (col + 1)
      rw [ih _ _ _ _ h]
      exact List.getElem?_set_ne (by omega)
    · rw [if_neg hg]

theorem view_build_cells_lines (view : View) :
    (view_build_cells view).lines = view.lines.map (build_line (view_max_cols view.lines)) := rfl

theorem view_build_cells_max_cols (view : View) :
    (view_build_cells view).max_cols = view_max_cols view.lines := rfl

/-! ## Single-byte (ASCII) texts: bytes and code points coincide -/

theorem utf8_decode_ascii (s : List Nat) (len j : Nat) (hj : j < s.length)
    (h : s[j] < 0x80) : utf8_decode s len j = (s[j], 1) := by
  have hb : byte_at s j = s[j] := by
    unfold byte_at
    rw [List.getD_eq_getElem _ _ hj]
    omega
  unfold utf8_decode
  simp only [hb]
  rw [if_pos h]

theorem count_loop_ascii (s : List Nat) (h : ∀ b ∈ s, b < 0x80) :
    ∀ fuel j count, s.length - j ≤ fuel →
      count_loop s s.length fuel j count = count + (s.length - j) := by
  intro fuel
  induction fuel with
  | zero => intro j count hf; simp only [count_loop]; omega
  | succ n ih =>
    intro j count hf
    simp only [count_loop]
    by_cases hj : j < s.length
    · rw [if_pos hj, utf8_decode_ascii s _ j hj (h _ (List.getElem_mem hj))]
      rw [ih _ _ (by simp only []; omega)]
      simp only []
      omega
    · rw [if_neg hj]; omega

/-- A text of single-byte characters has as many code points as bytes. -/
theorem line_count_cols_ascii (s : List Nat) (h : ∀ b ∈ s, b < 0x80) :
    line_count_cols s = s.length := by
  unfold line_count_cols
  rw [count_loop_ascii s h _ _ _ (by omega)]
  omega

theorem fill_loop_ascii (s : List Nat) (h : ∀ b ∈ s, b < 0x80) :
    ∀ fuel j cells, s.length - j ≤ fuel → cells.length = s.length →
      fill_loop s s.length s.length fuel j j cells = cells.take j ++ s.drop j := by
  intro fuel
  induction fuel with
  | zero =>
    intro j cells hf hl
    simp only [fill_loop]
    rw [List.drop_eq_nil_of_le (by omega), List.take_of_length_le (by omega)]
    simp
  | succ n ih =>
    intro j cells hf hl
    simp only [fill_loop]
    by_cases hj : j < s.length
    · rw [if_pos ⟨hj, hj⟩, utf8_decode_ascii s _ j hj (h _ (List.getElem_mem hj))]
      simp only []
      rw [ih _ _ (by omega) (by simpa using hl)]
      have hjc : j < cells.length := by omega
      have htk : (cells.set j s[j]).take j = cells.take j := by
        apply List.ext_getElem?
        intro i
        rw [List.getElem?_take, List.getElem?_take]
        by_cases hi : i < j
        · rw [if_pos hi, if_pos hi, List.getElem?_set_ne (by omega)]
        · rw [if_neg hi, if_neg hi]
      rw [List.take_succ, List.getElem?_set_self hjc, htk, List.drop_eq_getElem_cons hj]
      simp
    · rw [if_neg (by omega)]
      rw [List.drop_eq_nil_of_le (by omega), List.take_of_length_le (by omega)]
      simp

/-- A text of single-byte characters decodes to itself. -/
theorem code_points_ascii (s : List Nat) (h : ∀ b ∈ s, b < 0x80) : code_points s = s := by
  unfold code_points build_line
  simp only [line_count_cols_ascii s h]
  rw [fill_loop_ascii s h _ _ _ (by omega) (by simp)]
  simp

/-! ## Lemmas on lists -/

theorem list_set_getElem_self {α : Type} (l : List α) (i : Nat) (h : i < l.length) :
    l.set i l[i] = l := by
  apply List.ext_getElem?
  intro j
  by_cases hj : i = j
  · subst hj
    simp [h]
  · rw [List.getElem?_set_ne hj]

/-! ## Lemmas on the placeholder scan -/

theorem run_length_le (ch : Nat) : ∀ l : List Nat, run_length ch l ≤ l.length := by
  intro l
  induction l with
  | nil => simp [run_length]
  | cons c rest ih =>
    simp only [run_length]
    split_ifs
    · simp only [List.length_cons]; omega
    · simp

theorem run_length_take (ch : Nat) :
    ∀ l : List Nat, l.take (run_length ch l) = List.replicate (run_length ch l) ch := by
  intro l
  induction l with
  | nil => simp [run_length]
  | cons c rest ih =>
    simp only [run_length]
    split_ifs with h
    · subst h
      simp [List.replicate_succ, ih]
    · simp

theorem run_length_drop_head (ch : Nat) :
    ∀ l : List Nat, (l.drop (run_length ch l)).head? ≠ some ch := by
  intro l
  induction l with
  | nil => simp [run_length]
  | cons c rest ih =>
    simp only [run_length]
    split_ifs with h
    · simpa using ih
    · simpa using h

theorem run_length_replicate_append (ch : Nat) (suf : List Nat) (hs : suf.head? ≠ some ch) :
    ∀ r : Nat, run_length ch (List.replicate r ch ++ suf) = r := by
  intro r
  induction r with
  | zero =>
    cases suf with
    | nil => simp [run_length]
    | cons c rest =>
      have hc : c ≠ ch := by simpa using hs
      simp [run_length, hc]
  | succ n ih =>
    simp [List.replicate_succ, run_length, ih]

theorem run_length_append_of_lt (ch : Nat) (rest : List Nat) :
    ∀ pre : List Nat, run_length ch pre < pre.length →
      run_length ch (pre ++ rest) = run_length ch pre := by
  intro pre
  induction pre with
  | nil => intro h; simp at h
  | cons c tl ih =>
    intro h
    rw [List.cons_append]
    simp only [run_length] at h ⊢
    by_cases hc : c = ch
    · simp only [if_pos hc] at h ⊢
      rw [ih (by simpa using h)]
    · simp only [if_neg hc]

theorem NoRun3.of_suffix {ch : Nat} {l l' : List Nat} (h : NoRun3 ch l) (hs : l' <:+ l) :
    NoRun3 ch l' :=
  fun hi => h (hi.trans hs.isInfix)

theorem NoRun3.run_length_lt {ch : Nat} {l : List Nat} (h : NoRun3 ch l) :
    run_length ch l < 3 := by
  by_contra hge
  apply h
  have h3 : List.replicate 3 ch <+: List.replicate (run_length ch l) ch := by
    refine ⟨List.replicate (run_length ch l - 3) ch, ?_⟩
    rw [← List.replicate_add]
    congr 1
    omega
  have hp : List.replicate (run_length ch l) ch <+: l := by
    rw [← run_length_take]
    exact List.take_prefix _ _
  exact (h3.trans hp).isInfix

/-- Fuel beyond the number of bytes left does not change the result of the scan:
`strlen(line)` iterations are enough. -/
theorem insert_scan_fuel (ch modifier : Nat) (value : List Nat) :
    ∀ fuel before rest, rest.length ≤ fuel →
      insert_scan ch modifier value (fuel + 1) before rest
        = insert_scan ch modifier value fuel before rest := by
  intro fuel
  induction fuel with
  | zero =>
    intro before rest h
    have hnil : rest = [] := List.eq_nil_of_length_eq_zero (by omega)
    subst hnil
    simp [insert_scan]
  | succ n ih =>
    intro before rest h
    cases rest with
    | nil => simp [insert_scan]
    | cons c tl =>
      rw [insert_scan]
      conv_rhs => rw [insert_scan]
      by_cases hc : c = ch
      · simp only [if_pos hc]
        by_cases h3 : run_length ch (c :: tl) ≥ 3
        · simp only [if_pos h3]
        · simp only [if_neg h3]
          have hpos : 0 < run_length ch (c :: tl) := by simp [run_length, hc]
          apply ih
          simp only [List.length_drop, List.length_cons] at h ⊢
          omega
      · simp only [if_neg hc]
        apply ih
        simpa using h

/-- A line without a run of three placeholder bytes is returned as it is, for
every bound on the iterations. -/
theorem insert_scan_no_run (ch modifier : Nat) (value : List Nat) :
    ∀ fuel before rest, NoRun3 ch rest →
      insert_scan ch modifier value fuel before rest = before ++ rest := by
  intro fuel
  induction fuel with
  | zero => intro before rest _; simp [insert_scan]
  | succ n ih =>
    intro before rest h
    cases rest with
    | nil => simp [insert_scan]
    | cons c tl =>
      simp only [insert_scan]
      by_cases hc : c = ch
      · rw [if_pos hc]
        have hlt := h.run_length_lt
        rw [if_neg (by omega)]
        rw [ih _ _ (h.of_suffix (List.drop_suffix _ _))]
        rw [List.append_assoc, List.take_append_drop]
      · rw [if_neg hc]
        rw [ih _ _ (h.of_suffix (List.suffix_cons c tl))]
        simp

/-- The scan finds the first run of three or more placeholder bytes and
replaces it by the field, given a bound above the number of bytes before it. -/
theorem insert_scan_first_run (ch modifier : Nat) (value : List Nat) (r : Nat)
    (suf : List Nat) (hr : 3 ≤ r) (hs : suf.head? ≠ some ch) :
    ∀ fuel before pre, NoRun3 ch pre → pre.getLast? ≠ some ch → pre.length < fuel →
      insert_scan ch modifier value fuel before (pre ++ (List.replicate r ch ++ suf))
        = before ++ pre ++ insert_field modifier value r ++ suf := by
  intro fuel
  induction fuel with
  | zero => intro before pre _ _ h; omega
  | succ n ih =>
    intro before pre hno hlast hlen
    cases pre with
    | nil =>
      obtain ⟨k, rfl⟩ : ∃ k, r = k + 1 := ⟨r - 1, by omega⟩
      have hrun := run_length_replicate_append ch suf hs (k + 1)
      simp only [List.nil_append, List.replicate_succ, List.cons_append] at hrun ⊢
      simp only [insert_scan, if_true, hrun]
      rw [if_pos (by omega)]
      have hd : (ch :: (List.replicate k ch ++ suf)).drop (k + 1) = suf := by
        simp
      rw [hd]
      simp
    | cons c tl =>
      rw [List.cons_append]
      simp only [insert_scan]
      by_cases hc : c = ch
      · rw [if_pos hc]
        have hlt3 := hno.run_length_lt
        have hltlen : run_length ch (c :: tl) < (c :: tl).length := by
          rcases Nat.lt_or_ge (run_length ch (c :: tl)) (c :: tl).length with h | h
          · exact h
          · exfalso
            have hle := run_length_le ch (c :: tl)
            have heq : run_length ch (c :: tl) = (c :: tl).length := by omega
            have htk := run_length_take ch (c :: tl)
            rw [heq, List.take_length] at htk
            apply hlast
            rw [htk]
            simp [List.getLast?_replicate]
        have happ := run_length_append_of_lt ch (List.replicate r ch ++ suf) (c :: tl) hltlen
        simp only [List.cons_append] at happ
        rw [happ, if_neg (by omega)]
        have hsplit : c :: (tl ++ (List.replicate r ch ++ suf))
            = (c :: tl) ++ (List.replicate r ch ++ suf) := rfl
        rw [hsplit, List.take_append_of_le_length (by omega),
          List.drop_append_of_le_length (by omega)]
        have hsuf : (c :: tl).drop (run_length ch (c :: tl)) <:+ (c :: tl) :=
          List.drop_suffix _ _
        have hne : (c :: tl).drop (run_length ch (c :: tl)) ≠ [] := by
          intro hnil
          have := List.drop_eq_nil_iff.mp hnil
          omega
        have hlast2 : ((c :: tl).drop (run_length ch (c :: tl))).getLast? ≠ some ch := by
          rw [List.getLast?_drop]
          rw [if_neg (by omega)]
          exact hlast
        have hlen2 : ((c :: tl).drop (run_length ch (c :: tl))).length < n := by
          have hpos : 0 < run_length ch (c :: tl) := by simp [run_length, hc]
          simp only [List.length_drop, List.length_cons] at hlen ⊢
          omega
        rw [ih _ _ (hno.of_suffix hsuf) hlast2 hlen2]
        simp only [List.append_assoc]
        rw [← List.append_assoc ((c :: tl).take _), List.take_append_drop]
      · rw [if_neg hc]
        have hlast2 : tl.getLast? ≠ some ch := by
          cases tl with
          | nil => simp
          | cons d tl2 => simpa [List.getLast?_cons_cons] using hlast
        have hlen2 : tl.length < n := by simpa using hlen
        rw [ih _ _ (hno.of_suffix (List.suffix_cons c tl)) hlast2 hlen2]
        simp

theorem apply_insert_text_first_run (opt : InsertOption) (value pre suf : List Nat) (r : Nat)
    (hrun : FirstRun opt.placeholder pre r suf) :
    apply_insert_text (pre ++ List.replicate r opt.placeholder ++ suf) opt value
      = pre ++ insert_field opt.modifier value r ++ suf := by
  obtain ⟨hr, hno, hlast, hs⟩ := hrun
  unfold apply_insert_text
  rw [List.append_assoc]
  rw [insert_scan_first_run opt.placeholder opt.modifier value r suf hr hs _ [] pre hno hlast
    (by simp only [List.length_append, List.length_replicate]; omega)]
  simp

theorem apply_insert_at (view : View) (opt : InsertOption) (value : List Nat) (idx : Nat)
    (line : Line) (hidx : opt.line_idx = (idx : Int)) (hline : view.lines[idx]? = some line) :
    apply_insert view opt value
      = { view with
          lines := view.lines.set idx
            { line with text := apply_insert_text line.text opt value } } := by
  have hlt : idx < view.lines.length := by
    rcases Nat.lt_or_ge idx view.lines.length with h | h
    · exact h
    · rw [List.getElem?_eq_none h] at hline; cases hline
  unfold apply_insert
  rw [hidx]
  have hguard : ¬ ((idx : Int) < 0 ∨ (view.lines.length : Int) ≤ (idx : Int)) := by omega
  rw [if_neg hguard]
  simp only [Int.toNat_ofNat, hline]

theorem apply_insert_outside (view : View) (opt : InsertOption) (value : List Nat)
    (h : opt.line_idx < 0 ∨ (view.lines.length : Int) ≤ opt.line_idx) :
    apply_insert view opt value = view := by
  unfold apply_insert
  rw [if_pos h]

/-! ## Lemmas on `insert_view` -/

theorem view_shape_lines_length (v : View) : (view_shape v).2.length = v.lines.length := by
  simp [view_shape]

theorem lines_length_of_shape {v w : View} (h : view_shape w = view_shape v) :
    w.lines.length = v.lines.length := by
  rw [← view_shape_lines_length w, ← view_shape_lines_length v, h]

theorem max_cols_of_shape {v w : View} (h : view_shape w = view_shape v) :
    w.max_cols = v.max_cols := by
  have := congrArg Prod.fst h
  simpa [view_shape] using this

theorem built_iff_shape (v : View) :
    Built v ↔ ∀ n ∈ (view_shape v).2, n = (view_shape v).1 := by
  simp [Built, view_shape]

theorem built_of_shape {v w : View} (h : view_shape w = view_shape v) (hb : Built v) :
    Built w := by
  rw [built_iff_shape] at hb ⊢
  rw [h]
  exact hb

theorem write_cell_shape (v : View) (y x cp : Nat) :
    view_shape (write_cell v y x cp) = view_shape v := by
  unfold write_cell
  cases hl : v.lines[y]? with
  | none => rfl
  | some line =>
    simp only [view_shape]
    congr 1
    apply List.ext_getElem?
    intro i
    simp only [List.getElem?_map]
    by_cases hi : y = i
    · subst hi
      have hlt : y < v.lines.length := by
        rcases Nat.lt_or_ge y v.lines.length with h | h
        · exact h
        · rw [List.getElem?_eq_none h] at hl; cases hl
      rw [List.getElem?_set_self hlt, hl]
      simp
    · rw [List.getElem?_set_ne hi]

theorem read_write_cell (v : View) (hb : Built v) (y x cp : Nat) (hy : y < v.lines.length)
    (hx : x < v.max_cols) (r c : Nat) :
    read_cell (write_cell v y x cp) r c
      = if r = y ∧ c = x then cp else read_cell v r c := by
  have hl : v.lines[y]? = some v.lines[y] := List.getElem?_eq_getElem hy
  have hlen : v.lines[y].cells.length = v.max_cols := hb _ (List.getElem_mem hy)
  unfold write_cell
  rw [hl]
  unfold read_cell
  simp only []
  by_cases hr : r = y
  · subst hr
    rw [List.getElem?_set_self hy, hl]
    simp only []
    by_cases hc : c = x
    · subst hc
      rw [if_pos (by simp), List.getD_eq_getElem?_getD, List.getElem?_set_self (by omega)]
      rfl
    · rw [if_neg (fun h => hc h.2), List.getD_eq_getElem?_getD,
        List.getElem?_set_ne (fun h => hc h.symm), ← List.getD_eq_getElem?_getD]
  · rw [if_neg (fun h => hr h.1), List.getElem?_set_ne (fun h => hr h.symm)]

/-- The state of the inner loop of `insert_view` after its first `n` columns. -/
theorem insert_view_cols_upto (src : View) (x0 : Int) (dy y : Nat)
    (st : View × List CellCopy) (hb : Built st.1) (hdy : dy < st.1.lines.length) :
    ∀ n : Nat,
      view_shape ((List.range n).foldl (insert_view_cell src x0 dy y) st).1
        = view_shape st.1 ∧
      (∀ r c : Nat,
        read_cell ((List.range n).foldl (insert_view_cell src x0 dy y) st).1 r c
          = if r = dy ∧ c < st.1.max_cols ∧ x0 ≤ (c : Int) ∧ (c : Int) - x0 < (n : Int)
            then read_cell src y ((c : Int) - x0).toNat else read_cell st.1 r c) ∧
      (∀ w ∈ ((List.range n).foldl (insert_view_cell src x0 dy y) st).2,
        w ∈ st.2 ∨
          (w.dy = (dy : Int) ∧ 0 ≤ w.dx ∧ w.dx < (st.1.max_cols : Int) ∧ w.y = y ∧ w.x < n)) := by
  intro n
  induction n with
  | zero =>
    refine ⟨rfl, ?_, ?_⟩
    · intro r c
      rw [if_neg (by omega)]
      rfl
    · intro w hw
      exact Or.inl hw
  | succ k ih =>
    obtain ⟨hshape, hread, htrace⟩ := ih
    rw [List.range_succ, List.foldl_append]
    simp only [List.foldl_cons, List.foldl_nil]
    generalize (List.range k).foldl (insert_view_cell src x0 dy y) st = cur at hshape hread htrace
    have hmc : cur.1.max_cols = st.1.max_cols := max_cols_of_shape hshape
    have hll : cur.1.lines.length = st.1.lines.length := lines_length_of_shape hshape
    unfold insert_view_cell
    simp only []
    by_cases hg : x0 + (k : Int) < 0 ∨ x0 + (k : Int) ≥ (cur.1.max_cols : Int)
    · rw [if_pos hg]
      refine ⟨hshape, ?_, ?_⟩
      · intro r c
        rw [hread r c]
        by_cases h1 : r = dy ∧ c < st.1.max_cols ∧ x0 ≤ (c : Int) ∧ (c : Int) - x0 < (k : Int)
        · rw [if_pos h1, if_pos ⟨h1.1, h1.2.1, h1.2.2.1, by omega⟩]
        · rw [if_neg h1, if_neg (by omega)]
      · intro w hw
        rcases htrace w hw with h | h
        · exact Or.inl h
        · exact Or.inr ⟨h.1, h.2.1, h.2.2.1, h.2.2.2.1, by omega⟩
    · rw [if_neg hg]
      simp only []
      refine ⟨?_, ?_, ?_⟩
      · rw [write_cell_shape, hshape]
      · intro r c
        rw [read_write_cell cur.1 (built_of_shape hshape hb) dy _ _ (by omega) (by omega) r c]
        rw [hread r c]
        by_cases h2 : r = dy ∧ c = (x0 + (k : Int)).toNat
        · rw [if_pos h2, if_pos ⟨h2.1, by omega, by omega, by omega⟩]
          congr 1
          omega
        · rw [if_neg h2]
          by_cases h1 : r = dy ∧ c < st.1.max_cols ∧ x0 ≤ (c : Int) ∧ (c : Int) - x0 < (k : Int)
          · rw [if_pos h1, if_pos ⟨h1.1, h1.2.1, h1.2.2.1, by omega⟩]
          · rw [if_neg h1, if_neg (by omega)]
      · intro w hw
        rcases List.mem_append.mp hw with h | h
        · rcases htrace w h with h' | h'
          · exact Or.inl h'
          · exact Or.inr ⟨h'.1, h'.2.1, h'.2.2.1, h'.2.2.2.1, by omega⟩
        · rw [List.mem_singleton] at h
          subst h
          exact Or.inr ⟨rfl, by simp only []; omega, by simp only []; omega, rfl, by simp⟩

/-- The state of the outer loop of `insert_view` after its first `m` source rows. -/
theorem insert_view_rows_upto (dst src : View) (y0 x0 : Int) (hb : Built dst) :
    ∀ m : Nat,
      view_shape ((List.range m).foldl (insert_view_row src y0 x0) (dst, [])).1
        = view_shape dst ∧
      (∀ r c : Nat,
        read_cell ((List.range m).foldl (insert_view_row src y0 x0) (dst, [])).1 r c
          = if r < dst.lines.length ∧ c < dst.max_cols ∧ y0 ≤ (r : Int) ∧
                (r : Int) - y0 < (m : Int) ∧ x0 ≤ (c : Int) ∧
                (c : Int) - x0 < (src.max_cols : Int)
            then read_cell src ((r : Int) - y0).toNat ((c : Int) - x0).toNat
            else read_cell dst r c) ∧
      (∀ w ∈ ((List.range m).foldl (insert_view_row src y0 x0) (dst, [])).2,
        0 ≤ w.dy ∧ w.dy < (dst.lines.length : Int) ∧ 0 ≤ w.dx ∧
          w.dx < (dst.max_cols : Int) ∧ w.y < m ∧ w.x < src.max_cols) := by
  intro m
  induction m with
  | zero =>
    refine ⟨rfl, ?_, ?_⟩
    · intro r c
      rw [if_neg (by omega)]
      rfl
    · intro w hw
      simp at hw
  | succ k ih =>
    obtain ⟨hshape, hread, htrace⟩ := ih
    rw [List.range_succ, List.foldl_append]
    simp only [List.foldl_cons, List.foldl_nil]
    generalize (List.range k).foldl (insert_view_row src y0 x0) (dst, []) = cur
      at hshape hread htrace
    have hmc : cur.1.max_cols = dst.max_cols := max_cols_of_shape hshape
    have hll : cur.1.lines.length = dst.lines.length := lines_length_of_shape hshape
    unfold insert_view_row
    simp only []
    by_cases hg : y0 + (k : Int) < 0 ∨ y0 + (k : Int) ≥ (cur.1.lines.length : Int)
    · rw [if_pos hg]
      refine ⟨hshape, ?_, ?_⟩
      · intro r c
        rw [hread r c]
        by_cases h1 : r < dst.lines.length ∧ c < dst.max_cols ∧ y0 ≤ (r : Int) ∧
            (r : Int) - y0 < (k : Int) ∧ x0 ≤ (c : Int) ∧ (c : Int) - x0 < (src.max_cols : Int)
        · rw [if_pos h1, if_pos ⟨h1.1, h1.2.1, h1.2.2.1, by omega, h1.2.2.2.2.1, h1.2.2.2.2.2⟩]
        · rw [if_neg h1, if_neg (by omega)]
      · intro w hw
        obtain ⟨h1, h2, h3, h4, h5, h6⟩ := htrace w hw
        exact ⟨h1, h2, h3, h4, by omega, h6⟩
    · rw [if_neg hg]
      unfold insert_view_cols
      obtain ⟨hshape2, hread2, htrace2⟩ :=
        insert_view_cols_upto src x0 (y0 + (k : Int)).toNat k cur
          (built_of_shape hshape hb) (by omega) src.max_cols
      refine ⟨hshape2.trans hshape, ?_, ?_⟩
      · intro r c
        rw [hread2 r c, hread r c]
        by_cases h2 : r = (y0 + (k : Int)).toNat ∧ c < cur.1.max_cols ∧ x0 ≤ (c : Int) ∧
            (c : Int) - x0 < (src.max_cols : Int)
        · rw [if_pos h2,
            if_pos ⟨by omega, by omega, by omega, by omega, h2.2.2.1, h2.2.2.2⟩]
          congr 1
          omega
        · rw [if_neg h2]
          by_cases h1 : r < dst.lines.length ∧ c < dst.max_cols ∧ y0 ≤ (r : Int) ∧
              (r : Int) - y0 < (k : Int) ∧ x0 ≤ (c : Int) ∧
              (c : Int) - x0 < (src.max_cols : Int)
          · rw [if_pos h1,
              if_pos ⟨h1.1, h1.2.1, h1.2.2.1, by omega, h1.2.2.2.2.1, h1.2.2.2.2.2⟩]
          · rw [if_neg h1, if_neg (by omega)]
      · intro w hw
        rcases htrace2 w hw with h | h
        · obtain ⟨h1, h2, h3, h4, h5, h6⟩ := htrace w h
          exact ⟨h1, h2, h3, h4, by omega, h6⟩
        · obtain ⟨h1, h2, h3, h4, h5⟩ := h
          exact ⟨by omega, by omega, h2, by omega, by omega, h5⟩

/-! ## Lemmas on the atlas packing -/

theorem ceil_sqrt_from_spec (n : Nat) :
    ∀ fuel c, n ≤ fuel + c → (∀ c', c' < c → c' * c' < n) →
      n ≤ ceil_sqrt_from n fuel c * ceil_sqrt_from n fuel c ∧
      ∀ c', c' < ceil_sqrt_from n fuel c → c' * c' < n := by
  intro fuel
  induction fuel with
  | zero =>
    intro c hc hlow
    simp only [ceil_sqrt_from]
    refine ⟨?_, hlow⟩
    rcases Nat.eq_zero_or_pos c with h0 | hpos
    · subst h0; omega
    · calc n ≤ c := by omega
        _ = c * 1 := (Nat.mul_one c).symm
        _ ≤ c * c := Nat.mul_le_mul_left c hpos
  | succ k ih =>
    intro c hc hlow
    simp only [ceil_sqrt_from]
    by_cases h : n ≤ c * c
    · rw [if_pos h]
      exact ⟨h, hlow⟩
    · rw [if_neg h]
      apply ih (c + 1) (by omega)
      intro c' hc'
      rcases Nat.lt_or_ge c' c with h1 | h1
      · exact hlow c' h1
      · have : c' = c := by omega
        subst this
        omega

/-- The packing column count is the least `c` with `n ≤ c * c`. -/
theorem atlas_cols_spec (n : Nat) :
    n ≤ atlas_cols n * atlas_cols n ∧ ∀ c', c' < atlas_cols n → c' * c' < n :=
  ceil_sqrt_from_spec n n 0 (by omega) (fun c' h => absurd h (Nat.not_lt_zero c'))

theorem atlas_cols_pos (n : Nat) (hn : 1 ≤ n) : 1 ≤ atlas_cols n := by
  have h := (atlas_cols_spec n).1
  rcases Nat.eq_zero_or_pos (atlas_cols n) with h0 | hpos
  · rw [h0] at h; omega
  · exact hpos

/-- The packing row count is the least `r` with `n ≤ r * atlas_cols n`. -/
theorem atlas_rows_spec (n : Nat) (hn : 1 ≤ n) :
    1 ≤ atlas_rows n ∧ (atlas_rows n - 1) * atlas_cols n < n ∧
      n ≤ atlas_rows n * atlas_cols n := by
  have hc := atlas_cols_pos n hn
  have hdm := Nat.div_add_mod n (atlas_cols n)
  have hmod := Nat.mod_lt n hc
  unfold atlas_rows
  generalize atlas_cols n = c at hc hdm hmod ⊢
  generalize hq : n / c = q at hdm ⊢
  generalize hm : n % c = m at hdm hmod ⊢
  by_cases h0 : m = 0
  · rw [if_pos h0]
    subst h0
    have hq1 : 1 ≤ q := by
      rcases Nat.eq_zero_or_pos q with hz | hp
      · subst hz; simp at hdm; omega
      · exact hp
    obtain ⟨q', rfl⟩ : ∃ q', q = q' + 1 := ⟨q - 1, by omega⟩
    refine ⟨by omega, ?_, ?_⟩
    · simp only [Nat.add_sub_cancel]
      have : c * (q' + 1) = q' * c + c := by ring
      omega
    · have : c * (q' + 1) = (q' + 1) * c := by ring
      omega
  · rw [if_neg h0]
    refine ⟨by omega, ?_, ?_⟩
    · simp only [Nat.add_sub_cancel]
      have : c * q = q * c := by ring
      omega
    · have : (q + 1) * c = c * q + c := by ring
      omega

theorem atlas_cols_eq_ceil_sqrt (n : Nat) (hn : 1 ≤ n) :
    atlas_cols n = ⌈Real.sqrt (n : ℝ)⌉₊ := by
  have hpos := atlas_cols_pos n hn
  obtain ⟨hup, hlow⟩ := atlas_cols_spec n
  symm
  rw [Nat.ceil_eq_iff (by omega)]
  constructor
  · rw [Real.lt_sqrt (Nat.cast_nonneg _)]
    have h := hlow (atlas_cols n - 1) (by omega)
    have h' : ((atlas_cols n - 1 : ℕ) : ℝ) * ((atlas_cols n - 1 : ℕ) : ℝ) < (n : ℝ) := by
      exact_mod_cast h
    rw [pow_two]
    exact h'
  · rw [Real.sqrt_le_left (Nat.cast_nonneg _)]
    have h' : (n : ℝ) ≤ (atlas_cols n : ℝ) * (atlas_cols n : ℝ) := by
      exact_mod_cast hup
    rw [pow_two]
    exact h'

theorem atlas_rows_eq_ceil_div (n : Nat) (hn : 1 ≤ n) :
    atlas_rows n = ⌈(n : ℝ) / (atlas_cols n : ℝ)⌉₊ := by
  have hc := atlas_cols_pos n hn
  obtain ⟨hr, hlow, hup⟩ := atlas_rows_spec n hn
  have hcr : (0 : ℝ) < (atlas_cols n : ℝ) := by exact_mod_cast hc
  symm
  rw [Nat.ceil_eq_iff (by omega)]
  constructor
  · rw [lt_div_iff₀ hcr]
    exact_mod_cast hlow
  · rw [div_le_iff₀ hcr]
    exact_mod_cast hup

/-- Without overflow, `(int)(cells * cell)` is the product. -/
theorem pixel_extent_eq (cells : Nat) (cell : Int) (h0 : 0 ≤ cell) (hc : cell < 2 ^ 31)
    (h : (cells : Int) * cell < 2 ^ 31) : pixel_extent cells cell = (cells : Int) * cell := by
  obtain ⟨k, rfl⟩ := Int.eq_ofNat_of_zero_le h0
  have hk : k < 2 ^ 31 := by exact_mod_cast hc
  have hp : cells * k < 2 ^ 31 := by exact_mod_cast h
  have h1 : int_to_size_t (k : Int) = k := by
    unfold int_to_size_t
    norm_num at hk ⊢
    omega
  unfold pixel_extent
  rw [h1]
  unfold size_t_to_int
  have hcast : ((cells : Int) * (k : Int)) = ((cells * k : ℕ) : Int) := by push_cast; rfl
  rw [hcast]
  generalize cells * k = p at hp
  norm_num at hp ⊢
  omega

/-! ## Lemmas on the glyph collection -/

theorem has_codepoint_iff (arr : List Nat) (cp : Nat) :
    has_codepoint arr cp = true ↔ cp ∈ arr := by
  unfold has_codepoint
  rw [List.any_eq_true]
  constructor
  · rintro ⟨a, ha, hcp⟩
    have : a = cp := by simpa using hcp
    exact this ▸ ha
  · intro h
    exact ⟨cp, h, by simp⟩

theorem collect_glyphs_eq (view : View) :
    collect_glyphs view = (view_cells view).foldl collect_cell [] := by
  unfold collect_glyphs view_cells
  rw [List.foldl_flatten, List.foldl_map]
  rfl

theorem collect_cells_spec :
    ∀ (cells acc : List Nat), acc.Nodup →
      (cells.foldl collect_cell acc).Nodup ∧
      ∀ x, x ∈ cells.foldl collect_cell acc ↔ x ∈ acc ∨ x ∈ cells := by
  intro cells
  induction cells with
  | nil => intro acc h; simp [h]
  | cons c tl ih =>
    intro acc hnd
    rw [List.foldl_cons]
    have hstep : collect_cell acc c = if has_codepoint acc c then acc else acc ++ [c] := rfl
    by_cases hc : has_codepoint acc c = true
    · rw [hstep, if_pos hc]
      obtain ⟨h1, h2⟩ := ih acc hnd
      refine ⟨h1, ?_⟩
      intro x
      rw [h2 x, List.mem_cons]
      have hmem := (has_codepoint_iff acc c).mp hc
      constructor
      · rintro (h | h)
        · exact Or.inl h
        · exact Or.inr (Or.inr h)
      · rintro (h | h | h)
        · exact Or.inl h
        · exact Or.inl (h ▸ hmem)
        · exact Or.inr h
    · rw [hstep, if_neg hc]
      have hnot : c ∉ acc := fun h => hc ((has_codepoint_iff acc c).mpr h)
      have hnd2 : (acc ++ [c]).Nodup := by
        rw [List.nodup_append]
        refine ⟨hnd, List.nodup_singleton c, ?_⟩
        intro x hx hx2
        rw [List.mem_singleton] at hx2
        exact hnot (hx2 ▸ hx)
      obtain ⟨h1, h2⟩ := ih (acc ++ [c]) hnd2
      refine ⟨h1, ?_⟩
      intro x
      rw [h2 x, List.mem_append, List.mem_singleton, List.mem_cons]
      tauto

/-- The collected glyph list has no repetition and holds exactly the code
points of the cells. -/
theorem collect_glyphs_spec (view : View) :
    (collect_glyphs view).Nodup ∧ ∀ cp, cp ∈ collect_glyphs view ↔ cp ∈ view_cells view := by
  rw [collect_glyphs_eq]
  obtain ⟨h1, h2⟩ := collect_cells_spec (view_cells view) [] List.nodup_nil
  refine ⟨h1, ?_⟩
  intro cp
  rw [h2 cp]
  simp

theorem collect_glyphs_card (view : View) :
    (collect_glyphs view).length = (view_cells view).toFinset.card := by
  obtain ⟨h1, h2⟩ := collect_glyphs_spec view
  rw [← List.toFinset_card_of_nodup h1]
  congr 1
  ext cp
  simp [h2 cp]

theorem atlas_glyph_none (font : List Nat → Option (Int × Int)) (cell_w cell_h : Int)
    (cols : Nat) (atlas_w atlas_h : Int) (i cp : Nat) (h : font (utf8_encode cp) = none) :
    atlas_glyph font cell_w cell_h cols atlas_w atlas_h i cp = zero_glyph := by
  unfold atlas_glyph
  rw [h]

theorem atlas_glyph_some (font : List Nat → Option (Int × Int)) (cell_w cell_h : Int)
    (cols : Nat) (atlas_w atlas_h : Int) (i cp : Nat)
    (h : (font (utf8_encode cp)).isSome = true) :
    atlas_glyph font cell_w cell_h cols atlas_w atlas_h i cp
      = { codepoint := cp
          u0 := (pixel_extent (i % cols) cell_w : ℚ) / (atlas_w : ℚ)
          v0 := (pixel_extent (i / cols) cell_h : ℚ) / (atlas_h : ℚ)
          u1 := ((pixel_extent (i % cols) cell_w + cell_w : Int) : ℚ) / (atlas_w : ℚ)
          v1 := ((pixel_extent (i / cols) cell_h + cell_h : Int) : ℚ) / (atlas_h : ℚ) } := by
  unfold atlas_glyph
  obtain ⟨g, hg⟩ := Option.isSome_iff_exists.mp h
  rw [hg]

/-- Two different indices below `n` have different packing cells, and the
pixel rectangles of the cells do not overlap. -/
theorem packing_cells_disjoint (cols : Nat) (cell_w cell_h : Int) (hw : 0 < cell_w)
    (hh : 0 < cell_h) (i j : Nat) (hij : i ≠ j) :
    ((i % cols + 1 : ℕ) : Int) * cell_w ≤ ((j % cols : ℕ) : Int) * cell_w ∨
    ((j % cols + 1 : ℕ) : Int) * cell_w ≤ ((i % cols : ℕ) : Int) * cell_w ∨
    ((i / cols + 1 : ℕ) : Int) * cell_h ≤ ((j / cols : ℕ) : Int) * cell_h ∨
    ((j / cols + 1 : ℕ) : Int) * cell_h ≤ ((i / cols : ℕ) : Int) * cell_h := by
  have hi := Nat.div_add_mod i cols
  have hj := Nat.div_add_mod j cols
  have key : ∀ (a b : Nat) (c : Int), 0 < c → a + 1 ≤ b →
      ((a + 1 : ℕ) : Int) * c ≤ ((b : ℕ) : Int) * c := by
    intro a b c hc hab
    have : ((a + 1 : ℕ) : Int) ≤ ((b : ℕ) : Int) := by exact_mod_cast hab
    exact Int.mul_le_mul_of_nonneg_right this (le_of_lt hc)
  rcases Nat.lt_trichotomy (i % cols) (j % cols) with h | h | h
  · exact Or.inl (key _ _ _ hw h)
  · rcases Nat.lt_trichotomy (i / cols) (j / cols) with h2 | h2 | h2
    · exact Or.inr (Or.inr (Or.inl (key _ _ _ hh h2)))
    · exfalso
      apply hij
      rw [← hi, ← hj, h, h2]
    · exact Or.inr (Or.inr (Or.inr (key _ _ _ hh h2)))
  · exact Or.inr (Or.inl (key _ _ _ hw h))

/-- The packing cell of an index below `n` lies in the grid of `atlas_cols n` by
`atlas_rows n` cells. -/
theorem packing_cell_inside (n : Nat) (hn : 1 ≤ n) (i : Nat) (hi : i < n) :
    i % atlas_cols n < atlas_cols n ∧ i / atlas_cols n < atlas_rows n := by
  have hc := atlas_cols_pos n hn
  obtain ⟨_, _, hup⟩ := atlas_rows_spec n hn
  refine ⟨Nat.mod_lt i hc, ?_⟩
  rw [Nat.div_lt_iff_lt_mul hc]
  omega

/-! ## Lemmas on the typewriter reveal -/

theorem decode_loop_length (s : List Nat) (len : Nat) :
    ∀ fuel j count, count_loop s len fuel j count = count + (decode_loop s len fuel j).length := by
  intro fuel
  induction fuel with
  | zero => intro j count; simp [count_loop, decode_loop]
  | succ n ih =>
    intro j count
    simp only [count_loop, decode_loop]
    by_cases hj : j < len
    · rw [if_pos hj, if_pos hj, ih, List.length_cons]
      omega
    · rw [if_neg hj, if_neg hj]
      simp

/-- The count of the first pass of `view_build_cells` is the number of decoded
code points. -/
theorem line_count_cols_eq (text : List Nat) : line_count_cols text = (decoded text).length := by
  unfold line_count_cols decoded
  rw [decode_loop_length]
  omega

/-- The filling loop writes the decoded code points from column `col` on, when
they fit. -/
theorem fill_loop_decoded (s : List Nat) (len max_cols : Nat) :
    ∀ fuel j col cells, col + (decode_loop s len fuel j).length ≤ max_cols →
      cells.length = max_cols →
      fill_loop s len max_cols fuel j col cells
        = cells.take col ++ decode_loop s len fuel j
            ++ cells.drop (col + (decode_loop s len fuel j).length) := by
  intro fuel
  induction fuel with
  | zero =>
    intro j col cells _ _
    simp [fill_loop, decode_loop]
  | succ n ih =>
    intro j col cells hfit hlen
    simp only [fill_loop, decode_loop] at hfit ⊢
    by_cases hj : j < len
    · rw [if_pos hj] at hfit ⊢
      rw [List.length_cons] at hfit
      have hcol : col < max_cols := by omega
      have hcl : col < cells.length := by omega
      rw [if_pos ⟨hj, hcol⟩, ih _ _ _ (by omega) (by simpa using hlen)]
      have htk : (cells.set col (utf8_decode s len j).1).take (col + 1)
          = cells.take col ++ [(utf8_decode s len j).1] := by
        rw [List.take_succ, List.getElem?_set_self hcl]
        congr 1
        apply List.ext_getElem?
        intro i
        rw [List.getElem?_take, List.getElem?_take]
        by_cases hi : i < col
        · rw [if_pos hi, if_pos hi, List.getElem?_set_ne (by omega)]
        · rw [if_neg hi, if_neg hi]
      have hdr : (cells.set col (utf8_decode s len j).1).drop
            (col + 1 + (decode_loop s len n (j + (utf8_decode s len j).2)).length)
          = cells.drop (col + ((decode_loop s len n (j + (utf8_decode s len j).2)).length + 1)) := by
        apply List.ext_getElem?
        intro i
        rw [List.getElem?_drop, List.getElem?_drop, List.getElem?_set_ne (by omega)]
        congr 1
        omega
      rw [htk, hdr, List.length_cons]
      simp
    · rw [if_neg hj, if_neg (fun h => hj h.1)]
      simp

theorem view_max_cols_foldl (lines : List Line) :
    ∀ init : Nat,
      lines.foldl (fun max_cols line =>
        let count := line_count_cols line.text
        if count > max_cols then count else max_cols) init
        = max init ((lines.map (fun line => (decoded line.text).length)).foldr max 0) := by
  induction lines with
  | nil => intro init; simp
  | cons l tl ih =>
    intro init
    rw [List.foldl_cons, ih]
    simp only [List.map_cons, List.foldr_cons, line_count_cols_eq]
    by_cases h : (decoded l.text).length > init
    · rw [if_pos h]; omega
    · rw [if_neg h]; omega

/-- The value `max_cols` is the maximum of the decoded lengths of the lines. -/
theorem view_max_cols_eq (lines : List Line) :
    view_max_cols lines = (lines.map (fun line => (decoded line.text).length)).foldr max 0 := by
  unfold view_max_cols
  rw [view_max_cols_foldl]
  omega

theorem foldr_max_ge (l : List Nat) : ∀ n ∈ l, n ≤ l.foldr max 0 := by
  induction l with
  | nil => intro n hn; cases hn
  | cons a tl ih =>
    intro n hn
    rw [List.foldr_cons]
    rcases List.mem_cons.mp hn with h | h
    · subst h; omega
    · have := ih n h; omega

theorem build_line_cells (max_cols : Nat) (line : Line)
    (h : (decoded line.text).length ≤ max_cols) :
    (build_line max_cols line).cells
      = decoded line.text ++ List.replicate (max_cols - (decoded line.text).length) SPACE := by
  unfold build_line
  simp only []
  rw [fill_loop_decoded _ _ _ _ _ _ _ (by simpa [decoded] using h) (by simp)]
  simp only [List.take_zero, List.nil_append, Nat.zero_add]
  congr 1
  simp [decoded]

/-! ## Lemmas on the value map -/

theorem value_map_set_loop_none (key value : List Nat) :
    ∀ items : List KV, key ∉ items.map (fun kv => kv.key) →
      value_map_set_loop key value items = none := by
  intro items
  induction items with
  | nil => intro _; rfl
  | cons kv rest ih =>
    intro h
    rw [List.map_cons, List.mem_cons, not_or] at h
    simp only [value_map_set_loop]
    rw [if_neg (fun hk => h.1 hk.symm), ih h.2]
    rfl

theorem value_map_set_loop_some (key value : List Nat) :
    ∀ items : List KV, key ∈ items.map (fun kv => kv.key) →
      ∃ pre old post, items = pre ++ { key := key, value := old } :: post ∧
        key ∉ pre.map (fun kv => kv.key) ∧
        value_map_set_loop key value items
          = some (pre ++ { key := key, value := value } :: post) := by
  intro items
  induction items with
  | nil => intro h; simp at h
  | cons kv rest ih =>
    intro h
    simp only [value_map_set_loop]
    by_cases hk : kv.key = key
    · rw [if_pos hk]
      refine ⟨[], kv.value, rest, ?_, by simp, ?_⟩
      · rw [← hk]; rfl
      · rw [hk]; rfl
    · rw [if_neg hk]
      rw [List.map_cons, List.mem_cons] at h
      have hrest : key ∈ rest.map (fun kv => kv.key) := by
        rcases h with h | h
        · exact absurd h.symm hk
        · exact h
      obtain ⟨pre, old, post, h1, h2, h3⟩ := ih hrest
      refine ⟨kv :: pre, old, post, ?_, ?_, ?_⟩
      · rw [h1]; rfl
      · rw [List.map_cons, List.mem_cons, not_or]
        exact ⟨fun hk2 => hk hk2.symm, h2⟩
      · rw [h3]; rfl

theorem value_map_set_absent (map : ValueMap) (key value : List Nat)
    (h : key ∉ map_keys map) :
    value_map_set map key value
      = { items := map.items ++ [{ key := key, value := value }] } := by
  unfold value_map_set
  rw [value_map_set_loop_none key value map.items h]

theorem value_map_set_present (map : ValueMap) (key value : List Nat)
    (h : key ∈ map_keys map) :
    ∃ pre old post, map.items = pre ++ { key := key, value := old } :: post ∧
      key ∉ pre.map (fun kv => kv.key) ∧
      value_map_set map key value
        = { items := pre ++ { key := key, value := value } :: post } := by
  obtain ⟨pre, old, post, h1, h2, h3⟩ := value_map_set_loop_some key value map.items h
  refine ⟨pre, old, post, h1, h2, ?_⟩
  unfold value_map_set
  rw [h3]

theorem find_key_append (key : List Nat) (pre : List KV) (kv : KV) (post : List KV)
    (hpre : key ∉ pre.map (fun kv => kv.key)) (hkv : kv.key = key) :
    (pre ++ kv :: post).find? (fun kv => kv.key = key) = some kv := by
  induction pre with
  | nil => simp [List.find?, hkv]
  | cons a tl ih =>
    rw [List.map_cons, List.mem_cons, not_or] at hpre
    rw [List.cons_append, List.find?_cons]
    have : decide (a.key = key) = false := by
      simp only [decide_eq_false_iff_not]
      exact fun h => hpre.1 h.symm
    rw [this]
    exact ih hpre.2

theorem find_key_other (key key2 : List Nat) (hne : key2 ≠ key) (pre : List KV)
    (old value : List Nat) (post : List KV) :
    (pre ++ { key := key, value := value } :: post).find? (fun kv => kv.key = key2)
      = (pre ++ { key := key, value := old } :: post).find? (fun kv => kv.key = key2) := by
  induction pre with
  | nil =>
    have : decide (key = key2) = false := by
      simp only [decide_eq_false_iff_not]
      exact fun h => hne h.symm
    simp only [List.nil_append, List.find?_cons, this]
  | cons a tl ih =>
    rw [List.cons_append, List.cons_append, List.find?_cons, List.find?_cons, ih]

theorem value_map_get_none_iff (map : ValueMap) (key : List Nat) :
    value_map_get map key = none ↔ key ∉ map_keys map := by
  unfold value_map_get map_keys
  cases hf : map.items.find? (fun kv => kv.key = key) with
  | none =>
    simp only [true_iff]
    intro hmem
    rw [List.mem_map] at hmem
    obtain ⟨kv, hkv, hk⟩ := hmem
    have := List.find?_eq_none.mp hf kv hkv
    simp [hk] at this
  | some kv =>
    have h1 := List.mem_of_find?_eq_some hf
    have h2 := List.find?_some hf
    constructor
    · intro h
      cases h
    · intro hnot
      exfalso
      apply hnot
      rw [List.mem_map]
      exact ⟨kv, h1, by simpa using h2⟩

theorem value_map_get_set_same (map : ValueMap) (key value : List Nat) :
    value_map_get (value_map_set map key value) key = some value := by
  by_cases h : key ∈ map_keys map
  · obtain ⟨pre, old, post, _, h2, h3⟩ := value_map_set_present map key value h
    rw [h3]
    unfold value_map_get
    simp only []
    rw [find_key_append key pre _ post h2 rfl]
  · rw [value_map_set_absent map key value h]
    unfold value_map_get
    simp only []
    rw [find_key_append key map.items _ [] h rfl]

theorem value_map_get_set_other (map : ValueMap) (key value key2 : List Nat)
    (hne : key2 ≠ key) :
    value_map_get (value_map_set map key value) key2 = value_map_get map key2 := by
  by_cases h : key ∈ map_keys map
  · obtain ⟨pre, old, post, h1, _, h3⟩ := value_map_set_present map key value h
    rw [h3]
    unfold value_map_get
    simp only []
    rw [h1, find_key_other key key2 hne pre old value post]
  · rw [value_map_set_absent map key value h]
    unfold value_map_get
    simp only []
    rw [List.find?_append]
    cases hf : map.items.find? (fun kv => kv.key = key2) with
    | some kv => simp
    | none =>
      have : decide (key = key2) = false := by
        simp only [decide_eq_false_iff_not]
        exact fun h => hne h.symm
      simp [List.find?_cons, this]

theorem map_keys_set (map : ValueMap) (key value : List Nat) :
    map_keys (value_map_set map key value)
      = if key ∈ map_keys map then map_keys map else map_keys map ++ [key] := by
  by_cases h : key ∈ map_keys map
  · rw [if_pos h]
    obtain ⟨pre, old, post, h1, _, h3⟩ := value_map_set_present map key value h
    rw [h3]
    unfold map_keys
    rw [h1]
    simp
  · rw [if_neg h, value_map_set_absent map key value h]
    unfold map_keys
    simp

theorem map_keys_nodup_set (map : ValueMap) (key value : List Nat)
    (h : (map_keys map).Nodup) : (map_keys (value_map_set map key value)).Nodup := by
  rw [map_keys_set]
  by_cases hk : key ∈ map_keys map
  · rw [if_pos hk]; exact h
  · rw [if_neg hk, List.nodup_append]
    refine ⟨h, List.nodup_singleton key, ?_⟩
    intro x hx hx2
    rw [List.mem_singleton] at hx2
    exact hk (hx2 ▸ hx)

theorem map_keys_nodup_call (map : ValueMap) (call : MapCall) (h : (map_keys map).Nodup) :
    (map_keys (map_call map call)).Nodup := by
  cases call with
  | set key value => exact map_keys_nodup_set map key value h
  | set_int key value => exact map_keys_nodup_set map key (format_int value) h
  | set_if_missing key value =>
    simp only [map_call, value_map_set_if_missing]
    cases hg : value_map_get map key with
    | none => exact map_keys_nodup_set map key value h
    | some _ => exact h

theorem map_keys_nodup_calls (calls : List MapCall) :
    ∀ map : ValueMap, (map_keys map).Nodup → (map_keys (calls.foldl map_call map)).Nodup := by
  induction calls with
  | nil => intro map h; exact h
  | cons c tl ih =>
    intro map h
    rw [List.foldl_cons]
    exact ih _ (map_keys_nodup_call map c h)

/-! ## Lemmas on the bit operations of the UTF-8 functions -/

theorem shr3 (x : Nat) : x >>> 3 = x / 8 := by rw [Nat.shiftRight_eq_div_pow]
theorem shr4 (x : Nat) : x >>> 4 = x / 16 := by rw [Nat.shiftRight_eq_div_pow]
theorem shr5 (x : Nat) : x >>> 5 = x / 32 := by rw [Nat.shiftRight_eq_div_pow]
theorem shr6 (x : Nat) : x >>> 6 = x / 64 := by rw [Nat.shiftRight_eq_div_pow]
theorem shr12 (x : Nat) : x >>> 12 = x / 4096 := by rw [Nat.shiftRight_eq_div_pow]
theorem shr18 (x : Nat) : x >>> 18 = x / 262144 := by rw [Nat.shiftRight_eq_div_pow]
theorem shl6 (x : Nat) : x <<< 6 = x * 64 := by rw [Nat.shiftLeft_eq]
theorem shl12 (x : Nat) : x <<< 12 = x * 4096 := by rw [Nat.shiftLeft_eq]
theorem shl18 (x : Nat) : x <<< 18 = x * 262144 := by rw [Nat.shiftLeft_eq]

theorem and07 (x : Nat) : x &&& 0x07 = x % 8 := by
  have h := Nat.and_pow_two_sub_one_eq_mod x 3
  norm_num at h
  exact h

theorem and0F (x : Nat) : x &&& 0x0F = x % 16 := by
  have h := Nat.and_pow_two_sub_one_eq_mod x 4
  norm_num at h
  exact h

theorem and1F (x : Nat) : x &&& 0x1F = x % 32 := by
  have h := Nat.and_pow_two_sub_one_eq_mod x 5
  norm_num at h
  exact h

theorem and3F (x : Nat) : x &&& 0x3F = x % 64 := by
  have h := Nat.and_pow_two_sub_one_eq_mod x 6
  norm_num at h
  exact h

/-- The bitwise or of a multiple of `2 ^ i` and a number below `2 ^ i` is their sum. -/
theorem or_eq_add (i n a b : Nat) (hn : n = 2 ^ i) (ha : a % n = 0) (hb : b < n) :
    a ||| b = a + b := by
  subst hn
  have h := Nat.mul_add_lt_is_or hb (a / 2 ^ i)
  have hdm := Nat.div_add_mod a (2 ^ i)
  rw [ha, Nat.add_zero] at hdm
  rw [hdm] at h
  exact h.symm

theorem byte_at_lt (s : List Nat) (i : Nat) : byte_at s i < 256 := by
  unfold byte_at
  omega

/-- Fuel beyond `len - j` does not change the decoded code points. -/
theorem decode_loop_fuel (s : List Nat) (len : Nat) :
    ∀ fuel j, len - j ≤ fuel →
      decode_loop s len (fuel + 1) j = decode_loop s len fuel j := by
  intro fuel
  induction fuel with
  | zero =>
    intro j h
    have hj : ¬ j < len := by omega
    simp [decode_loop, hj]
  | succ n ih =>
    intro j h
    rw [decode_loop]
    by_cases hj : j < len
    · have hadv := utf8_decode_adv_pos s len j
      rw [if_pos hj, ih _ (by omega)]
      conv_rhs => rw [decode_loop, if_pos hj]
    · rw [if_neg hj]
      conv_rhs => rw [decode_loop, if_neg hj]

/-- A leading byte `110xxxxx` with one more byte left: the result in arithmetic. -/
theorem utf8_decode_two (s : List Nat) (len i : Nat)
    (hc : 0xC0 ≤ byte_at s i ∧ byte_at s i ≤ 0xDF) (hlen : i + 1 < len) :
    utf8_decode s len i
      = (byte_at s i % 32 * 64 + byte_at s (i + 1) % 64, 2) := by
  unfold utf8_decode
  simp only [shr5, and1F, and3F, shl6]
  rw [if_neg (by omega), if_pos ⟨by omega, hlen⟩]
  rw [or_eq_add 6 64 _ _ (by norm_num) (by omega) (by omega)]

/-- A leading byte `1110xxxx` with two more bytes left: the result in arithmetic. -/
theorem utf8_decode_three (s : List Nat) (len i : Nat)
    (hc : 0xE0 ≤ byte_at s i ∧ byte_at s i ≤ 0xEF) (hlen : i + 2 < len) :
    utf8_decode s len i
      = (byte_at s i % 16 * 4096 + byte_at s (i + 1) % 64 * 64 + byte_at s (i + 2) % 64, 3) := by
  unfold utf8_decode
  simp only [shr5, shr4, and0F, and3F, shl6, shl12]
  rw [if_neg (by omega), if_neg (by omega), if_pos ⟨by omega, hlen⟩]
  rw [or_eq_add 12 4096 (byte_at s i % 16 * 4096) (byte_at s (i + 1) % 64 * 64)
      (by norm_num) (by omega) (by omega),
    or_eq_add 6 64 (byte_at s i % 16 * 4096 + byte_at s (i + 1) % 64 * 64)
      (byte_at s (i + 2) % 64) (by norm_num) (by omega) (by omega)]

/-- A leading byte `11110xxx` with three more bytes left: the result in
arithmetic. -/
theorem utf8_decode_four (s : List Nat) (len i : Nat)
    (hc : 0xF0 ≤ byte_at s i ∧ byte_at s i ≤ 0xF7) (hlen : i + 3 < len) :
    utf8_decode s len i
      = (byte_at s i % 8 * 262144 + byte_at s (i + 1) % 64 * 4096
          + byte_at s (i + 2) % 64 * 64 + byte_at s (i + 3) % 64, 4) := by
  unfold utf8_decode
  simp only [shr5, shr4, shr3, and07, and3F, shl6, shl12, shl18]
  rw [if_neg (by omega), if_neg (by omega), if_neg (by omega), if_pos ⟨by omega, hlen⟩]
  rw [or_eq_add 18 262144 (byte_at s i % 8 * 262144) (byte_at s (i + 1) % 64 * 4096)
      (by norm_num) (by omega) (by omega),
    or_eq_add 12 4096 (byte_at s i % 8 * 262144 + byte_at s (i + 1) % 64 * 4096)
      (byte_at s (i + 2) % 64 * 64) (by norm_num) (by omega) (by omega),
    or_eq_add 6 64
      (byte_at s i % 8 * 262144 + byte_at s (i + 1) % 64 * 4096 + byte_at s (i + 2) % 64 * 64)
      (byte_at s (i + 3) % 64) (by norm_num) (by omega) (by omega)]

/-- The result of `utf8_decode` depends on the leading byte and on the low six
bits of the three bytes after it only. -/
theorem utf8_decode_congr (s t : List Nat) (len i : Nat)
    (hlead : byte_at s i = byte_at t i)
    (hlow : ∀ k, 1 ≤ k → k ≤ 3 → byte_at s (i + k) % 64 = byte_at t (i + k) % 64) :
    utf8_decode s len i = utf8_decode t len i := by
  unfold utf8_decode
  simp only [and3F, hlead, hlow 1 (by omega) (by omega), hlow 2 (by omega) (by omega),
    hlow 3 (by omega) (by omega)]

theorem byte_at_cons_zero (a : Nat) (l : List Nat) : byte_at (a :: l) 0 = a % 256 := rfl

theorem byte_at_cons_succ (a : Nat) (l : List Nat) (k : Nat) :
    byte_at (a :: l) (k + 1) = byte_at l k := rfl

/-- The bytes `utf8_encode` writes, in arithmetic, for a code point of one byte. -/
theorem utf8_encode_one (cp : Nat) (h : cp < 0x80) : utf8_encode cp = [cp] := by
  unfold utf8_encode
  rw [if_pos h, Nat.mod_eq_of_lt (by omega)]

/-- The bytes `utf8_encode` writes, in arithmetic, for a code point of two bytes. -/
theorem utf8_encode_two (cp : Nat) (h1 : 0x80 ≤ cp) (h2 : cp < 0x800) :
    utf8_encode cp = [192 + cp / 64, 128 + cp % 64] := by
  unfold utf8_encode
  rw [if_neg (by omega), if_pos h2]
  simp only [shr6, and3F]
  have e0 : (0xC0 + cp / 64) % 256 = 192 + cp / 64 := by omega
  have e1 : (0x80 + cp % 64) % 256 = 128 + cp % 64 := by omega
  rw [or_eq_add 6 64 0xC0 (cp / 64) (by norm_num) (by norm_num) (by omega),
    or_eq_add 6 64 0x80 (cp % 64) (by norm_num) (by norm_num) (by omega), e0, e1]

/-- The bytes `utf8_encode` writes, in arithmetic, for a code point of three
bytes. -/
theorem utf8_encode_three (cp : Nat) (h1 : 0x800 ≤ cp) (h2 : cp < 0x10000) :
    utf8_encode cp = [224 + cp / 4096, 128 + cp / 64 % 64, 128 + cp % 64] := by
  unfold utf8_encode
  rw [if_neg (by omega), if_neg (by omega), if_pos h2]
  simp only [shr6, shr12, and3F]
  have e0 : (0xE0 + cp / 4096) % 256 = 224 + cp / 4096 := by omega
  have e1 : (0x80 + cp / 64 % 64) % 256 = 128 + cp / 64 % 64 := by omega
  have e2 : (0x80 + cp % 64) % 256 = 128 + cp % 64 := by omega
  rw [or_eq_add 4 16 0xE0 (cp / 4096) (by norm_num) (by norm_num) (by omega),
    or_eq_add 6 64 0x80 (cp / 64 % 64) (by norm_num) (by norm_num) (by omega),
    or_eq_add 6 64 0x80 (cp % 64) (by norm_num) (by norm_num) (by omega), e0, e1, e2]

/-- The bytes `utf8_encode` writes, in arithmetic, for a code point of four bytes
up to U+10FFFF. -/
theorem utf8_encode_four (cp : Nat) (h1 : 0x10000 ≤ cp) (h2 : cp ≤ 0x10FFFF) :
    utf8_encode cp
      = [240 + cp / 262144, 128 + cp / 4096 % 64, 128 + cp / 64 % 64, 128 + cp % 64] := by
  unfold utf8_encode
  rw [if_neg (by omega), if_neg (by omega), if_neg (by omega)]
  simp only [shr6, shr12, shr18, and3F]
  have e0 : (0xF0 + cp / 262144) % 256 = 240 + cp / 262144 := by omega
  have e1 : (0x80 + cp / 4096 % 64) % 256 = 128 + cp / 4096 % 64 := by omega
  have e2 : (0x80 + cp / 64 % 64) % 256 = 128 + cp / 64 % 64 := by omega
  have e3 : (0x80 + cp % 64) % 256 = 128 + cp % 64 := by omega
  rw [or_eq_add 3 8 0xF0 (cp / 262144) (by norm_num) (by norm_num) (by omega),
    or_eq_add 6 64 0x80 (cp / 4096 % 64) (by norm_num) (by norm_num) (by omega),
    or_eq_add 6 64 0x80 (cp / 64 % 64) (by norm_num) (by norm_num) (by omega),
    or_eq_add 6 64 0x80 (cp % 64) (by norm_num) (by norm_num) (by omega), e0, e1, e2, e3]

/-! ## Lemmas on `menu_load` -/

theorem load_lines_ne_nil_iff (items : List Node) :
    load_lines items ≠ [] ↔ ∃ text, Node.scalar text ∈ items := by
  induction items with
  | nil => simp [load_lines]
  | cons item rest ih =>
    cases item with
    | scalar text =>
      constructor
      · intro _
        exact ⟨text, List.mem_cons_self _ _⟩
      · intro _
        simp [load_lines, node_scalar]
    | seq items =>
      have hstep : load_lines (Node.seq items :: rest) = load_lines rest := by
        simp [load_lines, node_scalar]
      rw [hstep, ih]
      constructor
      · rintro ⟨text, h⟩
        exact ⟨text, List.mem_cons_of_mem _ h⟩
      · rintro ⟨text, h⟩
        rcases List.mem_cons.mp h with h | h
        · cases h
        · exact ⟨text, h⟩
    | map entries =>
      have hstep : load_lines (Node.map entries :: rest) = load_lines rest := by
        simp [load_lines, node_scalar]
      rw [hstep, ih]
      constructor
      · rintro ⟨text, h⟩
        exact ⟨text, List.mem_cons_of_mem _ h⟩
      · rintro ⟨text, h⟩
        rcases List.mem_cons.mp h with h | h
        · cases h
        · exact ⟨text, h⟩

theorem menu_load_map (entries : List (List Nat × Node)) (menu : Menu) :
    menu_load (some (.map entries)) menu
      = (decide ((load_view (node_map_get (.map entries) KEY_VIEW)).lines.length > 0),
         { view := load_view (node_map_get (.map entries) KEY_VIEW)
           inserts := load_inserts (node_map_get (.map entries) KEY_INSERT_OPTIONS)
           arts := load_arts (node_map_get (.map entries) KEY_ARTS)
           partials := load_partials (node_map_get (.map entries) KEY_PARTIALS) }) := rfl

theorem load_view_lines_ne_nil_iff (node : Option Node) :
    (load_view node).lines ≠ [] ↔
      ∃ items, node = some (.seq items) ∧ ∃ text, Node.scalar text ∈ items := by
  cases node with
  | none => simp [load_view]
  | some n =>
    cases n with
    | scalar text => simp [load_view]
    | map entries => simp [load_view]
    | seq items =>
      simp only [load_view, load_lines_ne_nil_iff]
      constructor
      · intro h
        exact ⟨items, rfl, h⟩
      · rintro ⟨items2, h1, h2⟩
        cases h1
        exact h2

/-! ## Lemmas on `compose_menu` -/

theorem compose_part_congr (files files2 : List Nat → Option Node)
    (round_text : List Nat → List Nat) (main_map : ValueMap)
    (partial_maps : List (Option ValueMap))
    (h : ∀ name,
      (menu_load (files name) empty_menu).1 = (menu_load (files2 name) empty_menu).1 ∧
      (menu_load (files name) empty_menu).2.view = (menu_load (files2 name) empty_menu).2.view ∧
      (menu_load (files name) empty_menu).2.inserts
        = (menu_load (files2 name) empty_menu).2.inserts)
    (view : View) (i : Nat) (slot : PartialSlot) :
    compose_part files round_text main_map partial_maps view i slot
      = compose_part files2 round_text main_map partial_maps view i slot := by
  unfold compose_part
  cases hname : slot.name with
  | none => rfl
  | some name =>
    simp only []
    obtain ⟨h1, h2, h3⟩ := h name
    rcases hr : menu_load (files name) empty_menu with ⟨b, part⟩
    rcases hr2 : menu_load (files2 name) empty_menu with ⟨b2, part2⟩
    rw [hr, hr2] at h1 h2 h3
    simp only [] at h1 h2 h3
    subst h1
    cases b with
    | false => rfl
    | true =>
      simp only [apply_inserts, h2, h3]

/-! ## Lengths in `apply_insert` -/

theorem insert_field_length (modifier : Nat) (value : List Nat) (out_len : Nat) :
    (insert_field modifier value out_len).length = out_len := by
  unfold insert_field
  by_cases h : value.length ≥ out_len
  · simp only [h, if_true, List.length_take]
    omega
  · simp only [h, if_false]
    split_ifs <;> simp only [List.length_append, List.length_replicate] <;> omega

theorem insert_scan_length (ch modifier : Nat) (value : List Nat) :
    ∀ fuel before rest,
      (insert_scan ch modifier value fuel before rest).length = before.length + rest.length := by
  intro fuel
  induction fuel with
  | zero => intro before rest; simp [insert_scan]
  | succ n ih =>
    intro before rest
    cases rest with
    | nil => simp [insert_scan]
    | cons c tl =>
      have hle := run_length_le ch (c :: tl)
      rw [insert_scan]
      by_cases hc : c = ch
      · rw [if_pos hc]
        by_cases h3 : run_length ch (c :: tl) ≥ 3
        · simp only [h3, if_true, List.length_append, insert_field_length, List.length_drop]
          omega
        · simp only [h3, if_false]
          rw [ih]
          simp only [List.length_append, List.length_take, List.length_drop]
          omega
      · rw [if_neg hc, ih]
        simp only [List.length_append, List.length_cons, List.length_nil]
        omega

theorem apply_insert_text_length (line : List Nat) (opt : InsertOption) (value : List Nat) :
    (apply_insert_text line opt value).length = line.length := by
  unfold apply_insert_text
  rw [insert_scan_length]
  simp


/-! ## The order of the glyph list -/

theorem collect_cells_order (cells : List Nat) :
    ∀ (rem done acc : List Nat), done ++ rem = cells →
      (∀ x, x ∈ acc ↔ x ∈ done) →
      acc.Pairwise (fun a b => cells.indexOf a < cells.indexOf b) →
      (rem.foldl collect_cell acc).Pairwise
        (fun a b => cells.indexOf a < cells.indexOf b) := by
  intro rem
  induction rem with
  | nil => intro done acc _ _ h; exact h
  | cons c tl ih =>
    intro done acc hsplit hmem hpw
    rw [List.foldl_cons]
    have hstep : collect_cell acc c = if has_codepoint acc c then acc else acc ++ [c] := rfl
    have hsplit2 : (done ++ [c]) ++ tl = cells := by
      rw [List.append_assoc]; exact hsplit
    by_cases hc : has_codepoint acc c = true
    · rw [hstep, if_pos hc]
      have hin : c ∈ acc := (has_codepoint_iff acc c).mp hc
      refine ih (done ++ [c]) acc hsplit2 ?_ hpw
      intro x
      rw [List.mem_append, List.mem_singleton, hmem x]
      constructor
      · exact fun h => Or.inl h
      · rintro (h | h)
        · exact h
        · rw [h]; exact (hmem c).mp hin
    · rw [hstep, if_neg hc]
      have hnin : c ∉ acc := fun h => hc ((has_codepoint_iff acc c).mpr h)
      have hnd : c ∉ done := fun h => hnin ((hmem c).mpr h)
      refine ih (done ++ [c]) (acc ++ [c]) hsplit2 ?_ ?_
      · intro x
        rw [List.mem_append, List.mem_append, hmem x]
      · rw [List.pairwise_append]
        refine ⟨hpw, List.pairwise_singleton _ _, ?_⟩
        intro a ha b hb
        rw [List.mem_singleton] at hb
        subst hb
        have had : a ∈ done := (hmem a).mp ha
        rw [← hsplit, List.indexOf_append_of_mem had, List.indexOf_append_of_not_mem hnd,
          List.indexOf_cons_self]
        have := List.indexOf_lt_length.mpr had
        omega


theorem build_atlas_some (view : View) (font : List Nat → Option (Int × Int))
    (cell_w cell_h : Int) (rs : RenderState)
    (h : build_atlas view font cell_w cell_h = some rs) :
    rs.glyph_list = collect_glyphs view ∧ rs.grid_w = (view.max_cols : Int) ∧
    rs.grid_h = (view.lines.length : Int) ∧
    rs.glyphs.length = (collect_glyphs view).length ∧
    (collect_glyphs view).length ≠ 0 := by
  by_cases h0 : (collect_glyphs view).length = 0
  · unfold build_atlas at h
    simp only [h0] at h
    rw [if_pos trivial] at h
    cases h
  · unfold build_atlas at h
    rw [if_neg h0] at h
    have h2 := (Option.some.inj h).symm
    rw [h2]
    exact ⟨rfl, rfl, rfl, by simp, h0⟩


/-! ## Lemmas on `apply_method_chain` -/

theorem dotted_key_cons_cons (x y : List Nat) (zs : List (List Nat)) :
    dotted_key (x :: y :: zs) = x ++ ([46] ++ dotted_key (y :: zs)) := rfl

theorem dotted_key_snoc : ∀ (l : List (List Nat)) (m : List Nat), l ≠ [] →
    dotted_key (l ++ [m]) = dotted_key l ++ [46] ++ m := by
  intro l
  induction l with
  | nil => intro m h; exact absurd rfl h
  | cons x tl ih =>
    intro m _
    cases tl with
    | nil =>
      rw [List.singleton_append, dotted_key_cons_cons]
      simp [dotted_key, List.intercalate, List.intersperse]
    | cons y zs =>
      rw [List.cons_append, List.cons_append, dotted_key_cons_cons, ← List.cons_append,
        ih m (by simp), dotted_key_cons_cons]
      simp only [List.append_assoc]

theorem dotted_key_length_mono : ∀ (tl l : List (List Nat)), l ≠ [] →
    (dotted_key l).length ≤ (dotted_key (l ++ tl)).length := by
  intro tl
  induction tl with
  | nil => intro l _; simp
  | cons m rest ih =>
    intro l hl
    have h1 := ih (l ++ [m]) (by simp)
    rw [List.append_assoc, List.singleton_append, dotted_key_snoc l m hl] at h1
    simp only [List.length_append] at h1
    omega

theorem last_value_none (map : ValueMap) : ∀ (keys : List (List Nat)) (cur : List Nat),
    (∀ key ∈ keys, value_map_get map key = none) → last_value map keys cur = cur := by
  intro keys
  induction keys with
  | nil => intro cur _; rfl
  | cons k tl ih =>
    intro cur h
    unfold last_value
    rw [List.foldl_cons, h k (List.mem_cons_self _ _)]
    exact ih cur (fun key hk => h key (List.mem_cons_of_mem _ hk))

theorem last_value_at (map : ValueMap) : ∀ (keys : List (List Nat)) (cur : List Nat) (i : Nat)
    (key v : List Nat), keys[i]? = some key → value_map_get map key = some v →
    (∀ j key2, i < j → keys[j]? = some key2 → value_map_get map key2 = none) →
    last_value map keys cur = v := by
  intro keys
  induction keys with
  | nil => intro cur i key v h; simp at h
  | cons k tl ih =>
    intro cur i key v hi hv hlater
    cases i with
    | zero =>
      have hk : k = key := by simpa using hi
      subst hk
      unfold last_value
      rw [List.foldl_cons, hv]
      refine last_value_none map tl v ?_
      intro key2 hk2
      obtain ⟨j, hj⟩ := List.getElem?_of_mem hk2
      exact hlater (j + 1) key2 (by omega) (by simpa using hj)
    | succ n =>
      unfold last_value
      rw [List.foldl_cons]
      refine ih _ n key v (by simpa using hi) hv ?_
      intro j key2 hj hk2
      exact hlater (j + 1) key2 (by omega) (by simpa using hk2)

theorem chain_fold (round_text : List Nat → List Nat) (map : ValueMap) :
    ∀ (rest done : List (List Nat)) (cur : List Nat), done ≠ [] →
      (∀ m ∈ rest, m ≠ STR_ROUND) → (dotted_key (done ++ rest)).length ≤ 126 →
      rest.foldl (chain_step round_text map) (dotted_key done, cur)
        = (dotted_key (done ++ rest),
           last_value map
             ((List.range rest.length).map (fun j => dotted_key (done ++ rest.take (j + 1))))
             cur) := by
  intro rest
  induction rest with
  | nil => intro done cur _ _ _; simp [last_value]
  | cons m tl ih =>
    intro done cur hdone hround hfit
    have hm : m ≠ STR_ROUND := hround m (List.mem_cons_self _ _)
    have hsplit : done ++ m :: tl = (done ++ [m]) ++ tl := by simp
    have hlen : (dotted_key (done ++ [m])).length ≤ 126 := by
      have := dotted_key_length_mono tl (done ++ [m]) (by simp)
      rw [← hsplit] at this
      omega
    have hsnoc := dotted_key_snoc done m hdone
    have hguard : (dotted_key done).length + m.length + 2 < 128 := by
      rw [hsnoc] at hlen
      simp only [List.length_append, List.length_singleton] at hlen
      omega
    have hstep : chain_step round_text map (dotted_key done, cur) m
        = (dotted_key (done ++ [m]),
            match value_map_get map (dotted_key (done ++ [m])) with
            | some val => val
            | none => cur) := by
      unfold chain_step
      rw [if_neg hm, if_pos hguard, hsnoc]
      dsimp only
      cases value_map_get map (dotted_key done ++ [46] ++ m) <;> rfl
    rw [List.foldl_cons, hstep, ih (done ++ [m]) _ (by simp)
      (fun x hx => hround x (List.mem_cons_of_mem _ hx)) (by rw [← hsplit]; exact hfit)]
    rw [← hsplit]
    congr 1
    rw [List.length_cons, List.range_succ_eq_map, List.map_cons, List.map_map]
    unfold last_value
    rw [List.foldl_cons]
    simp only [List.take_succ_cons, List.take_zero, Function.comp, List.append_assoc,
      List.singleton_append]
    rfl


theorem dotted_keys_length (methods : List (List Nat)) :
    (dotted_keys methods).length = methods.length := by
  simp [dotted_keys]

theorem apply_method_chain_eq (round_text : List Nat → List Nat) (map : ValueMap)
    (opt : InsertOption) (hround : ∀ m ∈ opt.methods, m ≠ STR_ROUND)
    (hfit : (dotted_key opt.methods).length ≤ 126) :
    apply_method_chain round_text map opt = last_value map (dotted_keys opt.methods) [] := by
  unfold apply_method_chain
  cases hm : opt.methods with
  | nil => rfl
  | cons first rest =>
    rw [hm] at hround hfit
    have hfirst : first.length ≤ 126 := by
      have := dotted_key_length_mono rest [first] (by simp)
      rw [List.singleton_append] at this
      have h1 : dotted_key [first] = first := by simp [dotted_key, List.intercalate, List.intersperse]
      rw [h1] at this
      omega
    have htake : first.take 127 = first := List.take_of_length_le (by omega)
    have hkey : dotted_key [first] = first := by
      simp [dotted_key, List.intercalate, List.intersperse]
    have hfold : ∀ cur, rest.foldl (chain_step round_text map) (first, cur)
        = (dotted_key ([first] ++ rest),
           last_value map
             ((List.range rest.length).map (fun j => dotted_key ([first] ++ rest.take (j + 1))))
             cur) := by
      intro cur
      have h := chain_fold round_text map rest [first] cur (by simp)
        (fun x hx => hround x (List.mem_cons_of_mem _ hx))
        (by rw [List.singleton_append]; exact hfit)
      rw [hkey] at h
      exact h
    have hkeys : dotted_keys (first :: rest)
        = first :: (List.range rest.length).map
            (fun j => dotted_key ([first] ++ rest.take (j + 1))) := by
      unfold dotted_keys
      rw [List.length_cons, List.range_succ_eq_map, List.map_cons, List.map_map]
      simp only [List.take_succ_cons, List.take_zero, hkey, zero_add, List.singleton_append]
      rfl
    have hlast : ∀ keys, last_value map (first :: keys) []
        = last_value map keys (match value_map_get map first with
            | some val => val
            | none => []) := fun _ => rfl
    dsimp only
    rw [htake, hkeys, hlast]
    cases value_map_get map first with
    | none => dsimp only; rw [hfold]
    | some val => dsimp only; rw [hfold]


theorem dotted_keys_getElem (methods : List (List Nat)) (i : Nat) (h : i < methods.length) :
    (dotted_keys methods)[i]? = some (dotted_key (methods.take (i + 1))) := by
  unfold dotted_keys
  rw [List.getElem?_map, List.getElem?_range h]
  rfl


/-! ## Lemmas on `draw_menu` -/

theorem draw_cell_stopped (view : View) (rs : RenderState) (limit : Int) :
    ∀ (cs : List (Nat × Nat)) (st : DrawState), st.stop = true →
      cs.foldl (fun st c => draw_cell view rs limit c.1 c.2 st) st = st := by
  intro cs
  induction cs with
  | nil => intro st _; rfl
  | cons c tl ih =>
    intro st h
    rw [List.foldl_cons]
    have hstep : draw_cell view rs limit c.1 c.2 st = st := by
      unfold draw_cell
      rw [if_pos h]
    rw [hstep]
    exact ih st h

theorem draw_cell_step (view : View) (rs : RenderState) (limit : Int) (y x : Nat)
    (st : DrawState) (hs : st.stop = false) (hlt : st.idx < limit) :
    draw_cell view rs limit y x st
      = { idx := st.idx + 1, stop := false,
          quads := st.quads ++ (cell_quad view rs y x).toList } := by
  unfold draw_cell cell_quad
  have h1 : ¬ st.stop = true := by rw [hs]; exact Bool.false_ne_true
  have h2 : ¬ st.idx ≥ limit := by omega
  rw [if_neg h1, if_neg h2]
  dsimp only
  by_cases hsp : draw_cp view y x = SPACE
  · rw [if_pos hsp, if_pos hsp]
    simp [hs]
  · rw [if_neg hsp, if_neg hsp]
    cases find_glyph rs.glyphs (draw_cp view y x) with
    | none => simp [hs]
    | some g => simp [hs]

theorem draw_cells_quads (view : View) (rs : RenderState) (limit : Int) :
    ∀ (cs : List (Nat × Nat)) (st : DrawState), st.stop = false →
      (cs.foldl (fun st c => draw_cell view rs limit c.1 c.2 st) st).quads
        = st.quads ++ (cs.take (limit - st.idx).toNat).filterMap
            (fun c => cell_quad view rs c.1 c.2) := by
  intro cs
  induction cs with
  | nil => intro st _; simp
  | cons c tl ih =>
    intro st hs
    rw [List.foldl_cons]
    by_cases hlt : st.idx < limit
    · rw [draw_cell_step view rs limit c.1 c.2 st hs hlt, ih _ rfl]
      have hn : (limit - st.idx).toNat = (limit - (st.idx + 1)).toNat + 1 := by omega
      rw [hn, List.take_succ_cons, List.filterMap_cons]
      dsimp only
      cases cell_quad view rs c.1 c.2 with
      | none => simp
      | some q => simp
    · have hstep : draw_cell view rs limit c.1 c.2 st = { st with stop := true } := by
        unfold draw_cell
        have h1 : ¬ st.stop = true := by rw [hs]; exact Bool.false_ne_true
        rw [if_neg h1, if_pos (by omega)]
      rw [hstep, draw_cell_stopped view rs limit tl _ rfl]
      have hn : (limit - st.idx).toNat = 0 := by omega
      rw [hn]
      simp

theorem draw_rows_flat (view : View) (rs : RenderState) (limit : Int) (h : Nat)
    (st : DrawState) :
    (List.range h).foldl (draw_row view rs limit) st
      = (cells_row_major rs.grid_w.toNat h).foldl
          (fun st c => draw_cell view rs limit c.1 c.2 st) st := by
  unfold cells_row_major
  rw [List.foldl_flatten, List.foldl_map]
  congr 1
  funext st y
  unfold draw_row
  rw [List.foldl_map]

theorem cells_row_major_eq (w : Nat) : ∀ h : Nat,
    cells_row_major w h = (List.range (w * h)).map (fun k => (k / w, k % w)) := by
  intro h
  induction h with
  | zero => simp [cells_row_major]
  | succ n ih =>
    have hsplit : cells_row_major w (n + 1)
        = cells_row_major w n ++ (List.range w).map (fun x => (n, x)) := by
      unfold cells_row_major
      rw [List.range_succ, List.map_append, List.flatten_append]
      simp
    rw [hsplit, ih, Nat.mul_succ, List.range_add, List.map_append, List.map_map]
    congr 1
    apply List.map_congr_left
    intro x hx
    have hxw : x < w := List.mem_range.mp hx
    have hw : 0 < w := by omega
    simp only [Function.comp]
    rw [Nat.mul_comm w n, Nat.add_comm, Nat.add_mul_div_right _ _ hw, Nat.add_mul_mod_self_right,
      Nat.div_eq_of_lt hxw, Nat.mod_eq_of_lt hxw, Nat.zero_add]


theorem cell_quad_no_glyphs (view : View) (rs : RenderState) (h : rs.glyphs.length = 0)
    (y x : Nat) : cell_quad view rs y x = none := by
  have hnil : rs.glyphs = [] := List.eq_nil_of_length_eq_zero h
  unfold cell_quad find_glyph
  rw [hnil]
  split_ifs <;> rfl

theorem filterMap_all_none {α β : Type} (f : α → Option β) (hf : ∀ a, f a = none) :
    ∀ l : List α, l.filterMap f = [] := by
  intro l
  induction l with
  | nil => rfl
  | cons a tl ih => rw [List.filterMap_cons, hf a]; exact ih

theorem draw_menu_eq (view : View) (rs : RenderState) (max_chars : Int)
    (hw : rs.grid_w = (view.max_cols : Int)) (hh : rs.grid_h = (view.lines.length : Int)) :
    draw_menu view rs max_chars
      = (List.range (if max_chars < 0 then view.max_cols * view.lines.length
          else min max_chars.toNat (view.max_cols * view.lines.length))).filterMap
          (quad_at view rs view.max_cols) := by
  unfold draw_menu
  by_cases hg : rs.glyphs.length = 0
  · rw [if_pos hg]
    exact (filterMap_all_none _ (fun k => cell_quad_no_glyphs view rs hg _ _) _).symm
  · rw [if_neg hg]
    dsimp only
    have hwn : rs.grid_w.toNat = view.max_cols := by omega
    have hhn : rs.grid_h.toNat = view.lines.length := by omega
    rw [draw_rows_flat, draw_cells_quads view rs _ _ _ rfl, hwn, hhn, cells_row_major_eq,
      ← List.map_take, List.take_range, List.filterMap_map, List.nil_append]
    have hcomp : (fun c : Nat × Nat => cell_quad view rs c.1 c.2)
        ∘ (fun k => (k / view.max_cols, k % view.max_cols)) = quad_at view rs view.max_cols := rfl
    rw [hcomp]
    congr 2
    have htot : rs.grid_w * rs.grid_h = ((view.max_cols * view.lines.length : Nat) : Int) := by
      rw [hw, hh]; push_cast; ring
    by_cases hm : max_chars < 0
    · rw [if_pos hm, if_pos hm, htot, sub_zero, Int.toNat_natCast, min_self]
    · rw [if_neg hm, if_neg hm]
      simp


theorem find_glyph_some (glyphs : List Glyph) (cp : Nat) (g : Glyph)
    (h : find_glyph glyphs cp = some g) : g ∈ glyphs ∧ g.codepoint = cp := by
  unfold find_glyph at h
  refine ⟨List.mem_of_find?_eq_some h, ?_⟩
  have := List.find?_some h
  simpa using this

theorem find_glyph_none_iff (glyphs : List Glyph) (cp : Nat) :
    find_glyph glyphs cp = none ↔ ∀ g ∈ glyphs, g.codepoint ≠ cp := by
  unfold find_glyph
  rw [List.find?_eq_none]
  simp

theorem quad_at_some (view : View) (rs : RenderState) (w k : Nat) (q : Quad)
    (h : quad_at view rs w k = some q) :
    q.x = k % w ∧ q.y = k / w ∧ q.cp = draw_cp view q.y q.x ∧ q.cp ≠ SPACE ∧
    find_glyph rs.glyphs q.cp = some q.glyph := by
  unfold quad_at cell_quad at h
  by_cases hsp : draw_cp view (k / w) (k % w) = SPACE
  · rw [if_pos hsp] at h
    cases h
  · rw [if_neg hsp] at h
    cases hg : find_glyph rs.glyphs (draw_cp view (k / w) (k % w)) with
    | none => rw [hg] at h; cases h
    | some g =>
      rw [hg] at h
      have hq : q = { x := k % w, y := k / w, cp := draw_cp view (k / w) (k % w), glyph := g } :=
        (Option.some.inj h).symm
      rw [hq]
      exact ⟨rfl, rfl, rfl, hsp, hg⟩

theorem quad_at_index (view : View) (rs : RenderState) (w k : Nat) (q : Quad)
    (h : quad_at view rs w k = some q) : q.y * w + q.x = k := by
  obtain ⟨hx, hy, _⟩ := quad_at_some view rs w k q h
  rw [hx, hy, Nat.mul_comm]
  exact Nat.div_add_mod k w

theorem countP_filterMap_range {β : Type} (f : Nat → Option β) (p : β → Bool) (k0 : Nat)
    (hf : ∀ k q, f k = some q → (p q = true ↔ k = k0)) :
    ∀ n, ((List.range n).filterMap f).countP p = if k0 < n ∧ (f k0).isSome = true then 1 else 0 := by
  intro n
  induction n with
  | zero => simp
  | succ n ih =>
    rw [List.range_succ, List.filterMap_append, List.countP_append, ih]
    cases hfn : f n with
    | none =>
      have h1 : List.filterMap f [n] = [] := by simp [hfn]
      rw [h1, List.countP_nil, Nat.add_zero]
      by_cases hk : k0 = n
      · subst hk
        rw [hfn]
        simp
      · have hiff : k0 < n ↔ k0 < n + 1 := by omega
        simp only [hiff]
    | some q =>
      have h1 : List.filterMap f [n] = [q] := by simp [hfn]
      rw [h1]
      by_cases hk : n = k0
      · subst hk
        have hp : p q = true := (hf n q hfn).mpr rfl
        rw [hfn]
        simp [hp]
      · have hp : ¬ p q = true := fun h => hk ((hf n q hfn).mp h)
        have hiff : k0 < n ↔ k0 < n + 1 := by omega
        simp only [hiff]
        simp [hp]



/-! ## Lemmas on the tree builder -/

theorem add_scalar_deliver (b : Builder) (text : List Nat) (hpos : Accepts b) :
    add_scalar b text = deliver b (.scalar text) := by
  obtain ⟨root, stack⟩ := b
  cases stack with
  | nil =>
    have hroot : root = none := hpos
    subst hroot
    rfl
  | cons parent below =>
    obtain ⟨node, key, expect_key, attach⟩ := parent
    cases node with
    | scalar t => exact absurd hpos (by simp [Accepts])
    | seq items => rfl
    | map entries =>
      have h2 : expect_key = false ∧ key ≠ none := hpos
      obtain ⟨he, hk⟩ := h2
      subst he
      cases key with
      | none => exact absurd rfl hk
      | some k => rfl

theorem open_close (b : Builder) (node0 : Node) (expect : Bool) (hpos : Accepts b)
    (hlen : b.stack.length < 128) :
    ∃ (f : Frame) (below : List Frame),
      open_container b node0 expect = some { root := b.root, stack := f :: below } ∧
      f.node = node0 ∧ f.key = none ∧ f.expect_key = expect ∧
      below.length = b.stack.length ∧
      ∀ n : Node,
        close_container { root := b.root, stack := { f with node := n } :: below }
          = deliver b n := by
  obtain ⟨root, stack⟩ := b
  have hge : ¬ stack.length ≥ 128 := by simpa using hlen
  cases stack with
  | nil =>
    have hroot : root = none := hpos
    subst hroot
    refine ⟨{ node := node0, key := none, expect_key := expect, attach := .root }, [], ?_,
      rfl, rfl, rfl, rfl, fun n => rfl⟩
    unfold open_container
    rw [if_neg (by simp)]
    rfl
  | cons parent below =>
    obtain ⟨node, key, expect_key, attach⟩ := parent
    cases node with
    | scalar t => exact absurd hpos (by simp [Accepts])
    | seq items =>
      refine ⟨{ node := node0, key := none, expect_key := expect, attach := .item },
        { node := .seq items, key := key, expect_key := expect_key, attach := attach } :: below,
        ?_, rfl, rfl, rfl, rfl, fun n => rfl⟩
      unfold open_container
      rw [if_neg hge]
    | map entries =>
      have h2 : expect_key = false ∧ key ≠ none := hpos
      obtain ⟨he, hk⟩ := h2
      subst he
      cases key with
      | none => exact absurd rfl hk
      | some k =>
        refine ⟨{ node := node0, key := none, expect_key := expect, attach := .value k },
          { node := .map entries, key := none, expect_key := true, attach := attach } :: below,
          ?_, rfl, rfl, rfl, rfl, fun n => rfl⟩
        unfold open_container
        rw [if_neg hge]

theorem build_loop_cons (b : Builder) (e : Event) (rest : List Event)
    (he : e ≠ .stream_end) :
    build_loop b (e :: rest)
      = match build_step b e with
        | some b2 => build_loop b2 rest
        | none => none := by
  rw [build_loop, if_neg he]

mutual
theorem run_node : ∀ (n : Node) (b : Builder) (rest : List Event),
    b.stack.length + depth n ≤ 128 → Accepts b →
    build_loop b (events_of n ++ rest) = build_loop (deliver b n) rest
  | .scalar text, b, rest, _, hpos => by
    rw [events_of, List.singleton_append, build_loop_cons b _ rest (by simp)]
    show build_loop (add_scalar b text) rest = _
    rw [add_scalar_deliver b text hpos]
  | .seq items, b, rest, hlen, hpos => by
    rw [depth] at hlen
    obtain ⟨f, below, hopen, hnode, _, _, hbelow, hclose⟩ :=
      open_close b (.seq []) false hpos (by omega)
    rw [events_of, List.cons_append, List.append_assoc,
      build_loop_cons b _ _ (by simp)]
    show (match open_container b (.seq []) false with
      | some b2 => build_loop b2 _
      | none => none) = _
    rw [hopen]
    show build_loop { root := b.root, stack := f :: below } _ = _
    rw [run_items items b.root f below [] _ hnode (by omega), List.singleton_append,
      build_loop_cons _ _ rest (by simp)]
    show build_loop (close_container _) rest = _
    rw [List.nil_append, hclose]
  | .map entries, b, rest, hlen, hpos => by
    rw [depth] at hlen
    obtain ⟨f, below, hopen, hnode, hkey, hexp, hbelow, hclose⟩ :=
      open_close b (.map []) true hpos (by omega)
    rw [events_of, List.cons_append, List.append_assoc,
      build_loop_cons b _ _ (by simp)]
    show (match open_container b (.map []) true with
      | some b2 => build_loop b2 _
      | none => none) = _
    rw [hopen]
    show build_loop { root := b.root, stack := f :: below } _ = _
    rw [run_entries entries b.root f below [] _ hnode hexp hkey (by omega),
      List.singleton_append, build_loop_cons _ _ rest (by simp)]
    show build_loop (close_container _) rest = _
    rw [List.nil_append, hclose]
theorem run_items : ∀ (items : List Node) (root : Option Node) (f : Frame)
    (below : List Frame) (its : List Node) (rest : List Event),
    f.node = .seq its → below.length + 1 + depth_items items ≤ 128 →
    build_loop { root := root, stack := f :: below } (events_of_items items ++ rest)
      = build_loop { root := root, stack := { f with node := .seq (its ++ items) } :: below }
          rest
  | [], root, f, below, its, rest, hnode, _ => by
    rw [events_of_items, List.nil_append, List.append_nil, ← hnode]
  | n :: tl, root, f, below, its, rest, hnode, hlen => by
    rw [depth_items] at hlen
    have h1 : depth n ≤ max (depth n) (depth_items tl) := le_max_left _ _
    have h2 : depth_items tl ≤ max (depth n) (depth_items tl) := le_max_right _ _
    have hpos : Accepts { root := root, stack := f :: below } := by
      simp [Accepts, hnode]
    have hdel : deliver { root := root, stack := f :: below } n
        = { root := root, stack := { f with node := .seq (its ++ [n]) } :: below } := by
      simp [deliver, hnode, node_seq_push]
    rw [events_of_items, List.append_assoc,
      run_node n { root := root, stack := f :: below } _
        (by simp only [List.length_cons]; omega) hpos,
      hdel, run_items tl root _ below (its ++ [n]) rest rfl (by omega)]
    simp
theorem run_entries : ∀ (entries : List (List Nat × Node)) (root : Option Node) (f : Frame)
    (below : List Frame) (ents : List (List Nat × Node)) (rest : List Event),
    f.node = .map ents → f.expect_key = true → f.key = none →
    below.length + 1 + depth_entries entries ≤ 128 →
    build_loop { root := root, stack := f :: below } (events_of_entries entries ++ rest)
      = build_loop
          { root := root, stack := { f with node := .map (ents ++ entries) } :: below } rest
  | [], root, f, below, ents, rest, hnode, _, _, _ => by
    rw [events_of_entries, List.nil_append, List.append_nil, ← hnode]
  | (k, v) :: tl, root, f, below, ents, rest, hnode, hexp, hkey, hlen => by
    rw [depth_entries] at hlen
    have h1 : depth v ≤ max (depth v) (depth_entries tl) := le_max_left _ _
    have h2 : depth_entries tl ≤ max (depth v) (depth_entries tl) := le_max_right _ _
    have hstep : build_step { root := root, stack := f :: below } (.scalar k)
        = some { root := root,
                 stack := { f with key := some k, expect_key := false } :: below } := by
      simp [build_step, add_scalar, hnode, hexp]
    have hpos : Accepts
        { root := root, stack := { f with key := some k, expect_key := false } :: below } := by
      simp [Accepts, hnode]
    have hdel : deliver
        { root := root, stack := { f with key := some k, expect_key := false } :: below } v
        = { root := root, stack := { f with node := .map (ents ++ [(k, v)]) } :: below } := by
      obtain ⟨node, key, expect_key, attach⟩ := f
      simp only [] at hnode hexp hkey
      subst hnode hexp hkey
      rfl
    rw [events_of_entries, List.cons_append, List.append_assoc,
      build_loop_cons _ _ _ (by simp), hstep]
    show build_loop _ (events_of v ++ _) = _
    rw [run_node v _ _ (by simp only [List.length_cons]; omega) hpos, hdel,
      run_entries tl root { f with node := .map (ents ++ [(k, v)]) } below (ents ++ [(k, v)])
        rest rfl hexp hkey (by omega)]
    simp
end


/-! ## When `utf8_decode` gives the replacement character -/

/-- A byte below `0x80` is its own code point. -/
theorem utf8_decode_low (s : List Nat) (len i : Nat) (h : byte_at s i < 0x80) :
    utf8_decode s len i = (byte_at s i, 1) := by
  unfold utf8_decode
  simp only []
  rw [if_pos h]

/-- The last branch of `utf8_decode`: a byte that is no leading byte, or a sequence
cut off by the end of the string. -/
theorem utf8_decode_replacement (s : List Nat) (len i : Nat)
    (h : (0x80 ≤ byte_at s i ∧ byte_at s i ≤ 0xBF) ∨ 0xF8 ≤ byte_at s i ∨
      (0xC0 ≤ byte_at s i ∧ byte_at s i ≤ 0xDF ∧ len ≤ i + 1) ∨
      (0xE0 ≤ byte_at s i ∧ byte_at s i ≤ 0xEF ∧ len ≤ i + 2) ∨
      (0xF0 ≤ byte_at s i ∧ byte_at s i ≤ 0xF7 ∧ len ≤ i + 3)) :
    utf8_decode s len i = (0xFFFD, 1) := by
  have hc := byte_at_lt s i
  unfold utf8_decode
  simp only [shr5, shr4, shr3]
  rw [if_neg (by omega), if_neg (by omega), if_neg (by omega), if_neg (by omega)]

/-- The result U+FFFD with the advance 1 comes from the last branch only. -/
theorem utf8_decode_replacement_iff (s : List Nat) (len i : Nat) :
    utf8_decode s len i = (0xFFFD, 1) ↔
      ((0x80 ≤ byte_at s i ∧ byte_at s i ≤ 0xBF) ∨ 0xF8 ≤ byte_at s i ∨
        (0xC0 ≤ byte_at s i ∧ byte_at s i ≤ 0xDF ∧ len ≤ i + 1) ∨
        (0xE0 ≤ byte_at s i ∧ byte_at s i ≤ 0xEF ∧ len ≤ i + 2) ∨
        (0xF0 ≤ byte_at s i ∧ byte_at s i ≤ 0xF7 ∧ len ≤ i + 3)) := by
  have hc := byte_at_lt s i
  constructor
  · intro h
    by_contra hno
    have hadv : (utf8_decode s len i).2 = 1 := by rw [h]
    have hcp : (utf8_decode s len i).1 = 0xFFFD := by rw [h]
    by_cases h1 : byte_at s i < 0x80
    · rw [utf8_decode_low s len i h1] at hcp
      simp only [] at hcp
      omega
    · by_cases h2 : byte_at s i ≤ 0xDF
      · rw [utf8_decode_two s len i ⟨by omega, h2⟩ (by omega)] at hadv
        simp at hadv
      · by_cases h3 : byte_at s i ≤ 0xEF
        · rw [utf8_decode_three s len i ⟨by omega, h3⟩ (by omega)] at hadv
          simp at hadv
        · rw [utf8_decode_four s len i ⟨by omega, by omega⟩ (by omega)] at hadv
          simp at hadv
  · exact utf8_decode_replacement s len i


/-! ## Properties of `view_build_cells` -/

/-- C1: after `view_build_cells`, every line has exactly `max_cols` cells, and
every cell at a column at or beyond the line's own decoded code-point count is
the space code point U+0020. -/
theorem view_build_cells_padded (view : View) :
    ∀ line ∈ (view_build_cells view).lines,
      line.cells.length = (view_build_cells view).max_cols ∧
      ∀ c, line_count_cols line.text ≤ c → c < (view_build_cells view).max_cols →
        line.cells[c]? = some SPACE := by
  intro line hline
  rw [view_build_cells_lines, List.mem_map] at hline
  obtain ⟨l0, _, rfl⟩ := hline
  rw [view_build_cells_max_cols]
  refine ⟨?_, ?_⟩
  · simp [build_line, fill_loop_length]
  · intro c hc hlt
    simp only [build_line] at hc ⊢
    rw [fill_loop_frame _ _ _ _ _ _ _ _ hc]
    simp [hlt]

/-- Witness of C1: in the view with the lines `é` and `abc`, the rebuilt first line
has three cells, U+00E9 and two spaces. -/
theorem view_build_cells_padded_witness :
    (view_build_cells example_unbuilt).max_cols = 3 ∧
    ({ text := [0xC3, 0xA9], cells := [0xE9, 0x20, 0x20] } : Line)
      ∈ (view_build_cells example_unbuilt).lines ∧
    ({ text := [0xC3, 0xA9], cells := [0xE9, 0x20, 0x20] } : Line).cells.length
      = (view_build_cells example_unbuilt).max_cols ∧
    ({ text := [0xC3, 0xA9], cells := [0xE9, 0x20, 0x20] } : Line).cells[1]? = some SPACE :=
  ⟨by decide, by decide,
   (view_build_cells_padded example_unbuilt
      { text := [0xC3, 0xA9], cells := [0xE9, 0x20, 0x20] } (by decide)).1,
   (view_build_cells_padded example_unbuilt
      { text := [0xC3, 0xA9], cells := [0xE9, 0x20, 0x20] } (by decide)).2 1
      (by decide) (by decide)⟩

/-! ## Properties of `apply_insert` -/

/-- C2, as the code has it: when the first run of three or more placeholder
bytes of the target line has length `r` and the value has at least `r` bytes,
`apply_insert` replaces the run by the first `r` bytes of the value, whatever
the modifier, and changes nothing else in the view.  For a value of single-byte
characters these are its first `r` code points. -/
theorem apply_insert_truncates (view : View) (opt : InsertOption) (value : List Nat)
    (idx : Nat) (line : Line) (pre suf : List Nat) (r : Nat)
    (hidx : opt.line_idx = (idx : Int)) (hline : view.lines[idx]? = some line)
    (htext : line.text = pre ++ List.replicate r opt.placeholder ++ suf)
    (hrun : FirstRun opt.placeholder pre r suf) (hlen : r ≤ value.length) :
    apply_insert view opt value
      = { view with
          lines := view.lines.set idx { line with text := pre ++ value.take r ++ suf } } ∧
    ((∀ b ∈ value, b < 0x80) →
      r ≤ line_count_cols value ∧ code_points (value.take r) = (code_points value).take r) := by
  constructor
  · rw [apply_insert_at view opt value idx line hidx hline, htext,
      apply_insert_text_first_run opt value pre suf r hrun]
    simp [insert_field, hlen]
  · intro hascii
    have htake : ∀ b ∈ value.take r, b < 0x80 :=
      fun b hb => hascii b (List.mem_of_mem_take hb)
    rw [line_count_cols_ascii value hascii, code_points_ascii value hascii,
      code_points_ascii _ htake]
    exact ⟨hlen, rfl⟩

/-- C3, as the code has it: when the first run of three or more placeholder
bytes has length `r` and the value has fewer than `r` bytes, a modifier other
than `'m'` and `'e'` gives the value followed by `r - strlen(value)` spaces, and
the modifier `'e'` gives `r - strlen(value)` spaces followed by the value.  For
a value of single-byte characters `strlen(value)` is its number of code
points. -/
theorem apply_insert_pads_start_end (view : View) (opt : InsertOption) (value : List Nat)
    (idx : Nat) (line : Line) (pre suf : List Nat) (r : Nat)
    (hidx : opt.line_idx = (idx : Int)) (hline : view.lines[idx]? = some line)
    (htext : line.text = pre ++ List.replicate r opt.placeholder ++ suf)
    (hrun : FirstRun opt.placeholder pre r suf) (hlen : value.length < r) :
    (opt.modifier ≠ 109 → opt.modifier ≠ 101 →
      apply_insert view opt value
        = { view with
            lines := view.lines.set idx
              { line with
                text := pre ++ (value ++ List.replicate (r - value.length) SPACE) ++ suf } }) ∧
    (opt.modifier = 101 →
      apply_insert view opt value
        = { view with
            lines := view.lines.set idx
              { line with
                text := pre ++ (List.replicate (r - value.length) SPACE ++ value) ++ suf } }) ∧
    ((∀ b ∈ value, b < 0x80) → line_count_cols value = value.length) := by
  rw [apply_insert_at view opt value idx line hidx hline, htext,
    apply_insert_text_first_run opt value pre suf r hrun]
  have hn : ¬ value.length ≥ r := by omega
  refine ⟨?_, ?_, line_count_cols_ascii value⟩
  · intro hm he
    simp only [insert_field, if_neg hn, if_neg hm, if_neg he]
  · intro he
    have hm : opt.modifier ≠ 109 := by omega
    simp only [insert_field, if_neg hn, if_neg hm, if_pos he]

/-- C4, as the code has it: when the first run of three or more placeholder
bytes has length `r` and the value has fewer than `r` bytes, the modifier `'m'`
gives `(r - strlen(value)) / 2` spaces, the value, and the remaining spaces, so
that an odd pad has its extra space on the right.  For a value of single-byte
characters `strlen(value)` is its number of code points. -/
theorem apply_insert_pads_middle (view : View) (opt : InsertOption) (value : List Nat)
    (idx : Nat) (line : Line) (pre suf : List Nat) (r : Nat)
    (hidx : opt.line_idx = (idx : Int)) (hline : view.lines[idx]? = some line)
    (htext : line.text = pre ++ List.replicate r opt.placeholder ++ suf)
    (hrun : FirstRun opt.placeholder pre r suf) (hlen : value.length < r)
    (hm : opt.modifier = 109) :
    apply_insert view opt value
      = { view with
          lines := view.lines.set idx
            { line with
              text := pre ++ (List.replicate ((r - value.length) / 2) SPACE ++ value ++
                List.replicate ((r - value.length) - (r - value.length) / 2) SPACE) ++ suf } } ∧
    (r - value.length) / 2 ≤ (r - value.length) - (r - value.length) / 2 ∧
    ((∀ b ∈ value, b < 0x80) → line_count_cols value = value.length) := by
  rw [apply_insert_at view opt value idx line hidx hline, htext,
    apply_insert_text_first_run opt value pre suf r hrun]
  have hn : ¬ value.length ≥ r := by omega
  refine ⟨?_, by omega, line_count_cols_ascii value⟩
  simp only [insert_field, if_neg hn, if_pos hm]

/-- C5: when the target line has no run of three or more placeholder bytes,
`apply_insert` returns the view as it was, and so does any number of
applications. -/
theorem apply_insert_short_runs (view : View) (opt : InsertOption) (value : List Nat)
    (h : ∀ (idx : Nat) (line : Line), opt.line_idx = (idx : Int) →
      view.lines[idx]? = some line → NoRun3 opt.placeholder line.text) :
    apply_insert view opt value = view ∧
    ∀ n : Nat, (fun v => apply_insert v opt value)^[n] view = view := by
  have h1 : apply_insert view opt value = view := by
    by_cases hg : opt.line_idx < 0 ∨ (view.lines.length : Int) ≤ opt.line_idx
    · exact apply_insert_outside view opt value hg
    · have hidx : opt.line_idx = ((opt.line_idx.toNat : Nat) : Int) := by
        rw [Int.toNat_of_nonneg]; omega
      have hlt : opt.line_idx.toNat < view.lines.length := by omega
      have hline : view.lines[opt.line_idx.toNat]? = some view.lines[opt.line_idx.toNat] :=
        List.getElem?_eq_getElem hlt
      rw [apply_insert_at view opt value _ _ hidx hline]
      have hno := h _ _ hidx hline
      have htxt : apply_insert_text view.lines[opt.line_idx.toNat].text opt value
          = view.lines[opt.line_idx.toNat].text := by
        unfold apply_insert_text
        rw [insert_scan_no_run _ _ _ _ _ _ hno]
        simp
      rw [htxt]
      show View.mk (view.lines.set opt.line_idx.toNat view.lines[opt.line_idx.toNat])
        view.max_cols = view
      rw [list_set_getElem_self]
  refine ⟨h1, ?_⟩
  intro n
  induction n with
  | zero => rfl
  | succ k ih =>
    rw [Function.iterate_succ_apply, h1, ih]


/-- Witness of C2: the line `"Name: ####"` with the value `"Atonal"` becomes
`"Name: Aton"`. -/
theorem apply_insert_truncates_witness :
    FirstRun 35 [78, 97, 109, 101, 58, 32] 4 [] ∧
    apply_insert ⟨[⟨[78, 97, 109, 101, 58, 32, 35, 35, 35, 35], []⟩], 0⟩ ⟨0, 35, 115, []⟩
        [65, 116, 111, 110, 97, 108]
      = ⟨[⟨[78, 97, 109, 101, 58, 32, 65, 116, 111, 110], []⟩], 0⟩ :=
  ⟨by decide,
   (apply_insert_truncates ⟨[⟨[78, 97, 109, 101, 58, 32, 35, 35, 35, 35], []⟩], 0⟩
     ⟨0, 35, 115, []⟩ [65, 116, 111, 110, 97, 108] 0
     ⟨[78, 97, 109, 101, 58, 32, 35, 35, 35, 35], []⟩ [78, 97, 109, 101, 58, 32] [] 4
     (by decide) (by decide) (by decide) (by decide) (by decide)).1⟩

/-- C2 as stated, with lengths in code points, fails: the value `"ééé"` has three
code points, the run `"###"` has length 3, and the field written is the first
three bytes of the value, which decode to U+00E9 and U+FFFD and not to the
first three code points of the value. -/
theorem apply_insert_truncates_code_points_counterexample :
    3 ≤ line_count_cols [0xC3, 0xA9, 0xC3, 0xA9, 0xC3, 0xA9] ∧
    FirstRun 35 [] 3 [] ∧
    apply_insert ⟨[⟨[35, 35, 35], []⟩], 0⟩ ⟨0, 35, 115, []⟩
        [0xC3, 0xA9, 0xC3, 0xA9, 0xC3, 0xA9]
      = ⟨[⟨[0xC3, 0xA9, 0xC3], []⟩], 0⟩ ∧
    code_points [0xC3, 0xA9, 0xC3] = [0xE9, 0xFFFD] ∧
    code_points [0xC3, 0xA9, 0xC3]
      ≠ (code_points [0xC3, 0xA9, 0xC3, 0xA9, 0xC3, 0xA9]).take 3 := by
  decide

/-- Witness of C3: the line `"Name: ####"` with the value `"Ato"` becomes
`"Name: Ato "` with the modifier `'s'` and `"Name:  Ato"` with the modifier `'e'`. -/
theorem apply_insert_pads_start_end_witness :
    apply_insert ⟨[⟨[78, 97, 109, 101, 58, 32, 35, 35, 35, 35], []⟩], 0⟩ ⟨0, 35, 115, []⟩
        [65, 116, 111]
      = ⟨[⟨[78, 97, 109, 101, 58, 32, 65, 116, 111, 32], []⟩], 0⟩ ∧
    apply_insert ⟨[⟨[78, 97, 109, 101, 58, 32, 35, 35, 35, 35], []⟩], 0⟩ ⟨0, 35, 101, []⟩
        [65, 116, 111]
      = ⟨[⟨[78, 97, 109, 101, 58, 32, 32, 65, 116, 111], []⟩], 0⟩ :=
  ⟨(apply_insert_pads_start_end ⟨[⟨[78, 97, 109, 101, 58, 32, 35, 35, 35, 35], []⟩], 0⟩
      ⟨0, 35, 115, []⟩ [65, 116, 111] 0
      ⟨[78, 97, 109, 101, 58, 32, 35, 35, 35, 35], []⟩ [78, 97, 109, 101, 58, 32] [] 4
      (by decide) (by decide) (by decide) (by decide) (by decide)).1 (by decide) (by decide),
   (apply_insert_pads_start_end ⟨[⟨[78, 97, 109, 101, 58, 32, 35, 35, 35, 35], []⟩], 0⟩
      ⟨0, 35, 101, []⟩ [65, 116, 111] 0
      ⟨[78, 97, 109, 101, 58, 32, 35, 35, 35, 35], []⟩ [78, 97, 109, 101, 58, 32] [] 4
      (by decide) (by decide) (by decide) (by decide) (by decide)).2.1 (by decide)⟩

/-- C3 as stated, with lengths in code points, fails: the value `"é"` has one
code point and two bytes, the run `"####"` has length 4, and with the modifier
`'s'` the field written is the value followed by two spaces, not by `4 - 1`. -/
theorem apply_insert_pads_start_code_points_counterexample :
    line_count_cols [0xC3, 0xA9] = 1 ∧
    FirstRun 35 [] 4 [] ∧
    apply_insert ⟨[⟨[35, 35, 35, 35], []⟩], 0⟩ ⟨0, 35, 115, []⟩ [0xC3, 0xA9]
      = ⟨[⟨[0xC3, 0xA9, 32, 32], []⟩], 0⟩ ∧
    [0xC3, 0xA9, 32, 32]
      ≠ [0xC3, 0xA9] ++ List.replicate (4 - line_count_cols [0xC3, 0xA9]) SPACE ∧
    code_points [0xC3, 0xA9, 32, 32]
      ≠ code_points [0xC3, 0xA9] ++ List.replicate (4 - line_count_cols [0xC3, 0xA9]) SPACE := by
  decide

/-- Witness of C4: a run of width 4 with the value `"Ato"` and the modifier `'m'`
gives the field `"Ato "`. -/
theorem apply_insert_pads_middle_witness :
    apply_insert ⟨[⟨[78, 97, 109, 101, 58, 32, 35, 35, 35, 35], []⟩], 0⟩ ⟨0, 35, 109, []⟩
        [65, 116, 111]
      = ⟨[⟨[78, 97, 109, 101, 58, 32, 65, 116, 111, 32], []⟩], 0⟩ :=
  (apply_insert_pads_middle ⟨[⟨[78, 97, 109, 101, 58, 32, 35, 35, 35, 35], []⟩], 0⟩
    ⟨0, 35, 109, []⟩ [65, 116, 111] 0
    ⟨[78, 97, 109, 101, 58, 32, 35, 35, 35, 35], []⟩ [78, 97, 109, 101, 58, 32] [] 4
    (by decide) (by decide) (by decide) (by decide) (by decide) (by decide)).1

/-- C4 as stated, with lengths in code points, fails: the value `"é"` has one
code point and two bytes, the run `"####"` has length 4, and with the modifier
`'m'` the field written is one space, the value and one space, not
`(4 - 1) / 2 = 1` space, the value and the remaining two spaces. -/
theorem apply_insert_pads_middle_code_points_counterexample :
    line_count_cols [0xC3, 0xA9] = 1 ∧
    FirstRun 35 [] 4 [] ∧
    apply_insert ⟨[⟨[35, 35, 35, 35], []⟩], 0⟩ ⟨0, 35, 109, []⟩ [0xC3, 0xA9]
      = ⟨[⟨[32, 0xC3, 0xA9, 32], []⟩], 0⟩ ∧
    [32, 0xC3, 0xA9, 32]
      ≠ List.replicate ((4 - line_count_cols [0xC3, 0xA9]) / 2) SPACE ++ [0xC3, 0xA9] ++
          List.replicate ((4 - line_count_cols [0xC3, 0xA9])
            - (4 - line_count_cols [0xC3, 0xA9]) / 2) SPACE ∧
    code_points [32, 0xC3, 0xA9, 32]
      ≠ List.replicate ((4 - line_count_cols [0xC3, 0xA9]) / 2) SPACE ++
          code_points [0xC3, 0xA9] ++
          List.replicate ((4 - line_count_cols [0xC3, 0xA9])
            - (4 - line_count_cols [0xC3, 0xA9]) / 2) SPACE := by
  decide

/-- Witness of C5: the line `"a##b#"` has only short runs of `'#'` and is left
as it is. -/
theorem apply_insert_short_runs_witness :
    apply_insert ⟨[⟨[97, 35, 35, 98, 35], []⟩], 0⟩ ⟨0, 35, 115, []⟩ [65, 116, 111]
      = ⟨[⟨[97, 35, 35, 98, 35], []⟩], 0⟩ :=
  (apply_insert_short_runs ⟨[⟨[97, 35, 35, 98, 35], []⟩], 0⟩ ⟨0, 35, 115, []⟩ [65, 116, 111]
    (by
      intro idx line hidx hline
      have h0 : idx = 0 := by
        have : ((0 : Int)) = (idx : Int) := hidx
        omega
      subst h0
      have hl : line = ⟨[97, 35, 35, 98, 35], []⟩ := by
        simpa using hline.symm
      subst hl
      decide)).1


/-! ## Properties of `insert_view` -/

/-- C6: for built views and every offset, each cell copy of `insert_view` uses a
destination row in `[0, dst.rows)` and a destination column in
`[0, dst.max_cols)`, inside the destination line's cell array, and a source row
and column inside the source; the destination keeps its line count, its
`max_cols` and every line's cell count. -/
theorem insert_view_in_bounds (dst src : View) (y0 x0 : Int) (hd : Built dst)
    (hs : Built src) :
    (∀ w ∈ (insert_view_trace dst src y0 x0).2,
      0 ≤ w.dy ∧ w.dy < (dst.lines.length : Int) ∧ 0 ≤ w.dx ∧ w.dx < (dst.max_cols : Int) ∧
      (∀ line, dst.lines[w.dy.toNat]? = some line → w.dx.toNat < line.cells.length) ∧
      w.y < src.lines.length ∧ w.x < src.max_cols ∧
      (∀ line, src.lines[w.y]? = some line → w.x < line.cells.length)) ∧
    (insert_view dst src y0 x0).lines.length = dst.lines.length ∧
    (insert_view dst src y0 x0).max_cols = dst.max_cols ∧
    (insert_view dst src y0 x0).lines.map (fun line => line.cells.length)
      = dst.lines.map (fun line => line.cells.length) ∧
    Built (insert_view dst src y0 x0) := by
  obtain ⟨hshape, _, htrace⟩ := insert_view_rows_upto dst src y0 x0 hd src.lines.length
  refine ⟨?_, lines_length_of_shape hshape, max_cols_of_shape hshape, ?_,
    built_of_shape hshape hd⟩
  · intro w hw
    obtain ⟨h1, h2, h3, h4, h5, h6⟩ := htrace w hw
    refine ⟨h1, h2, h3, h4, ?_, h5, h6, ?_⟩
    · intro line hline
      rw [hd line (List.getElem?_mem hline)]
      omega
    · intro line hline
      rw [hs line (List.getElem?_mem hline)]
      exact h6
  · exact congrArg Prod.snd hshape

/-- Witness of C6: the 3 x 5 partial placed at `(-1, 4)` in the 4 x 6 parent, partly
above and partly right of it. -/
theorem insert_view_in_bounds_witness :
    (insert_view_trace example_parent example_partial (-1) 4).2
      = [⟨0, 4, 1, 0⟩, ⟨0, 5, 1, 1⟩, ⟨1, 4, 2, 0⟩, ⟨1, 5, 2, 1⟩] ∧
    Built (insert_view example_parent example_partial (-1) 4) :=
  ⟨by decide,
   (insert_view_in_bounds example_parent example_partial (-1) 4 (by decide) (by decide)).2.2.2.2⟩

/-- C7: after `insert_view(dst, src, y0, x0)` on built views, every position
`(dy, dx)` inside the destination is a cell of the result, and that cell equals
the source cell `(dy - y0, dx - x0)` when that lies inside the source, and is
unchanged otherwise. -/
theorem insert_view_cells (dst src : View) (y0 x0 : Int) (hd : Built dst) (_hs : Built src)
    (dy dx : Nat) (hdy : dy < dst.lines.length) (hdx : dx < dst.max_cols) :
    (∃ line, (insert_view dst src y0 x0).lines[dy]? = some line ∧
      line.cells[dx]? = some (read_cell (insert_view dst src y0 x0) dy dx)) ∧
    read_cell (insert_view dst src y0 x0) dy dx
      = if 0 ≤ (dy : Int) - y0 ∧ (dy : Int) - y0 < (src.lines.length : Int) ∧
            0 ≤ (dx : Int) - x0 ∧ (dx : Int) - x0 < (src.max_cols : Int)
        then read_cell src ((dy : Int) - y0).toNat ((dx : Int) - x0).toNat
        else read_cell dst dy dx := by
  obtain ⟨hshape, hread, _⟩ := insert_view_rows_upto dst src y0 x0 hd src.lines.length
  constructor
  · have hb : Built (insert_view dst src y0 x0) := built_of_shape hshape hd
    have hlen : dy < (insert_view dst src y0 x0).lines.length := by
      rw [show (insert_view dst src y0 x0).lines.length = dst.lines.length from
        lines_length_of_shape hshape]
      exact hdy
    have hmc : (insert_view dst src y0 x0).max_cols = dst.max_cols :=
      max_cols_of_shape hshape
    have hline : (insert_view dst src y0 x0).lines[dy]?
        = some (insert_view dst src y0 x0).lines[dy] := List.getElem?_eq_getElem hlen
    have hcells : dx < (insert_view dst src y0 x0).lines[dy].cells.length := by
      rw [hb _ (List.getElem_mem hlen), hmc]
      exact hdx
    refine ⟨_, hline, ?_⟩
    unfold read_cell
    rw [hline]
    simp only []
    rw [List.getD_eq_getElem _ _ hcells, List.getElem?_eq_getElem hcells]
  · unfold insert_view insert_view_trace
    rw [hread dy dx]
    by_cases h : 0 ≤ (dy : Int) - y0 ∧ (dy : Int) - y0 < (src.lines.length : Int) ∧
        0 ≤ (dx : Int) - x0 ∧ (dx : Int) - x0 < (src.max_cols : Int)
    · rw [if_pos h, if_pos ⟨hdy, hdx, by omega, h.2.1, by omega, h.2.2.2⟩]
    · rw [if_neg h, if_neg (by omega)]

/-- Witness of C7: the 3 x 5 partial placed at `(1, 2)` in the 4 x 6 parent.  The
parent cell `(1, 5)` takes the partial's cell `(0, 3)`; rows 0 to 2 and columns
0 to 3 of the partial are copied and its column 4 is dropped. -/
theorem insert_view_cells_witness :
    read_cell (insert_view example_parent example_partial 1 2) 1 5
      = read_cell example_partial 0 3 ∧
    (insert_view example_parent example_partial 1 2).lines.map (fun line => line.cells)
      = [[46, 46, 46, 46, 46, 46],
         [46, 46, 97, 98, 99, 100],
         [46, 46, 102, 103, 104, 105],
         [46, 46, 107, 108, 109, 110]] :=
  ⟨(insert_view_cells example_parent example_partial 1 2 (by decide) (by decide) 1 5
      (by decide) (by decide)).2.trans (by decide),
   by decide⟩


/-! ## Properties of `build_atlas` -/

/-- C8: for a view with `n ≥ 1` distinct glyphs, and cell sizes for which the
pixel sizes fit an `int`, `build_atlas` succeeds with `columns = ⌈√n⌉` and
`rows = ⌈n / columns⌉`, and the atlas is `columns * cell_w` by `rows * cell_h`
pixels. -/
theorem build_atlas_grid (view : View) (font : List Nat → Option (Int × Int))
    (cell_w cell_h : Int) (n : Nat) (hglyphs : (collect_glyphs view).length = n)
    (hn : 1 ≤ n) (hw0 : 0 ≤ cell_w) (hh0 : 0 ≤ cell_h)
    (hw : (atlas_cols n : Int) * cell_w < 2 ^ 31)
    (hh : (atlas_rows n : Int) * cell_h < 2 ^ 31) :
    atlas_cols n = ⌈Real.sqrt (n : ℝ)⌉₊ ∧
    atlas_rows n = ⌈(n : ℝ) / (atlas_cols n : ℝ)⌉₊ ∧
    ∃ rs, build_atlas view font cell_w cell_h = some rs ∧
      rs.tex_w = (atlas_cols n : Int) * cell_w ∧
      rs.tex_h = (atlas_rows n : Int) * cell_h := by
  refine ⟨atlas_cols_eq_ceil_sqrt n hn, atlas_rows_eq_ceil_div n hn, ?_⟩
  have hc := atlas_cols_pos n hn
  have hr := (atlas_rows_spec n hn).1
  have hcw : cell_w < 2 ^ 31 := by
    have : (1 : Int) ≤ (atlas_cols n : Int) := by exact_mod_cast hc
    nlinarith
  have hch : cell_h < 2 ^ 31 := by
    have : (1 : Int) ≤ (atlas_rows n : Int) := by exact_mod_cast hr
    nlinarith
  unfold build_atlas
  simp only [hglyphs]
  rw [if_neg (by omega)]
  exact ⟨_, rfl, pixel_extent_eq _ _ hw0 hcw hw, pixel_extent_eq _ _ hh0 hch hh⟩

/-- Witness of C8: a screen with nine distinct glyphs and cells of 8 by 16 pixels
is packed in 3 columns and 3 rows. -/
theorem build_atlas_grid_witness :
    (collect_glyphs example_screen).length = 9 ∧ atlas_cols 9 = 3 ∧ atlas_rows 9 = 3 ∧
    (3 : ℕ) = ⌈Real.sqrt ((9 : ℕ) : ℝ)⌉₊ ∧
    (build_atlas example_screen (fun _ => some (6, 12)) 8 16).map
      (fun rs => (rs.tex_w, rs.tex_h)) = some (24, 48) :=
  ⟨by decide, by decide, by decide,
   (build_atlas_grid example_screen (fun _ => some (6, 12)) 8 16 9 (by decide) (by decide)
      (by decide) (by decide) (by decide) (by decide)).1,
   by decide⟩


/-- C9, as the code has it: for a view with `n ≥ 1` distinct code points and cell
sizes for which the pixel sizes fit an `int`, `build_atlas` succeeds, the glyph
list holds the `n` distinct code points of the grid once each, and the glyph
table has `n` entries.  Entry `i` belongs to the `i`-th code point of the list:
when the font service rasterizes that glyph, the entry carries the code point
and its rectangle is the packing cell at column `i % columns` and row
`i / columns`, normalized by the atlas size; when the font service returns
`NULL`, the entry is left zeroed.  The `n` packing cells lie inside the atlas and
do not overlap. -/
theorem build_atlas_glyph_table (view : View) (font : List Nat → Option (Int × Int))
    (cell_w cell_h : Int) (n : Nat) (hglyphs : (collect_glyphs view).length = n)
    (hn : 1 ≤ n) (hw0 : 0 < cell_w) (hh0 : 0 < cell_h)
    (hw : (atlas_cols n : Int) * cell_w < 2 ^ 31)
    (hh : (atlas_rows n : Int) * cell_h < 2 ^ 31) :
    ∃ rs, build_atlas view font cell_w cell_h = some rs ∧
      n = (view_cells view).toFinset.card ∧
      rs.glyphs.length = n ∧ rs.glyph_list.length = n ∧ rs.glyph_list.Nodup ∧
      (∀ cp, cp ∈ rs.glyph_list ↔ cp ∈ view_cells view) ∧
      rs.tex_w = (atlas_cols n : Int) * cell_w ∧
      rs.tex_h = (atlas_rows n : Int) * cell_h ∧
      (∀ i, i < n → ∃ cp g, rs.glyph_list[i]? = some cp ∧ rs.glyphs[i]? = some g ∧
        (font (utf8_encode cp) = none → g = zero_glyph) ∧
        ((font (utf8_encode cp)).isSome = true →
          g.codepoint = cp ∧
          g.u0 = ((((i % atlas_cols n : ℕ) : Int) * cell_w : Int) : ℚ) / (rs.tex_w : ℚ) ∧
          g.u1 = ((((i % atlas_cols n + 1 : ℕ) : Int) * cell_w : Int) : ℚ) / (rs.tex_w : ℚ) ∧
          g.v0 = ((((i / atlas_cols n : ℕ) : Int) * cell_h : Int) : ℚ) / (rs.tex_h : ℚ) ∧
          g.v1 = ((((i / atlas_cols n + 1 : ℕ) : Int) * cell_h : Int) : ℚ) / (rs.tex_h : ℚ))) ∧
      (∀ i, i < n →
        ((i % atlas_cols n + 1 : ℕ) : Int) * cell_w ≤ rs.tex_w ∧
        ((i / atlas_cols n + 1 : ℕ) : Int) * cell_h ≤ rs.tex_h) ∧
      (∀ i j, i < n → j < n → i ≠ j →
        ((i % atlas_cols n + 1 : ℕ) : Int) * cell_w ≤ ((j % atlas_cols n : ℕ) : Int) * cell_w ∨
        ((j % atlas_cols n + 1 : ℕ) : Int) * cell_w ≤ ((i % atlas_cols n : ℕ) : Int) * cell_w ∨
        ((i / atlas_cols n + 1 : ℕ) : Int) * cell_h ≤ ((j / atlas_cols n : ℕ) : Int) * cell_h ∨
        ((j / atlas_cols n + 1 : ℕ) : Int) * cell_h ≤ ((i / atlas_cols n : ℕ) : Int) * cell_h) := by
  have hc := atlas_cols_pos n hn
  have hr := (atlas_rows_spec n hn).1
  have hcw : cell_w < 2 ^ 31 := by
    have : (1 : Int) ≤ (atlas_cols n : Int) := by exact_mod_cast hc
    nlinarith
  have hch : cell_h < 2 ^ 31 := by
    have : (1 : Int) ≤ (atlas_rows n : Int) := by exact_mod_cast hr
    nlinarith
  have hW := pixel_extent_eq (atlas_cols n) cell_w (le_of_lt hw0) hcw hw
  have hH := pixel_extent_eq (atlas_rows n) cell_h (le_of_lt hh0) hch hh
  have hmono : ∀ (a b : Nat) (c : Int), 0 < c → a ≤ b →
      ((a : ℕ) : Int) * c ≤ ((b : ℕ) : Int) * c := by
    intro a b c hc0 hab
    have : ((a : ℕ) : Int) ≤ ((b : ℕ) : Int) := by exact_mod_cast hab
    exact Int.mul_le_mul_of_nonneg_right this (le_of_lt hc0)
  obtain ⟨hnd, hmem⟩ := collect_glyphs_spec view
  have hb : build_atlas view font cell_w cell_h = some
      { tex_w := (atlas_cols n : Int) * cell_w
        tex_h := (atlas_rows n : Int) * cell_h
        glyphs := (List.range n).map (fun i =>
          atlas_glyph font cell_w cell_h (atlas_cols n) ((atlas_cols n : Int) * cell_w)
            ((atlas_rows n : Int) * cell_h) i ((collect_glyphs view).getD i 0))
        glyph_list := collect_glyphs view
        grid_w := (view.max_cols : Int)
        grid_h := (view.lines.length : Int) } := by
    unfold build_atlas
    simp only [hglyphs]
    rw [if_neg (by omega), hW, hH]
  refine ⟨_, hb, ?_, ?_, hglyphs, hnd, hmem, rfl, rfl, ?_, ?_, ?_⟩
  · rw [← hglyphs]
    exact collect_glyphs_card view
  · simp
  · intro i hi
    have hlt : i < (collect_glyphs view).length := by omega
    obtain ⟨hcin, hrin⟩ := packing_cell_inside n hn i hi
    have hx : pixel_extent (i % atlas_cols n) cell_w
        = ((i % atlas_cols n : ℕ) : Int) * cell_w :=
      pixel_extent_eq _ _ (le_of_lt hw0) hcw
        (lt_of_le_of_lt (hmono _ _ _ hw0 (le_of_lt hcin)) hw)
    have hy : pixel_extent (i / atlas_cols n) cell_h
        = ((i / atlas_cols n : ℕ) : Int) * cell_h :=
      pixel_extent_eq _ _ (le_of_lt hh0) hch
        (lt_of_le_of_lt (hmono _ _ _ hh0 (le_of_lt hrin)) hh)
    refine ⟨(collect_glyphs view)[i],
      atlas_glyph font cell_w cell_h (atlas_cols n) ((atlas_cols n : Int) * cell_w)
        ((atlas_rows n : Int) * cell_h) i (collect_glyphs view)[i],
      List.getElem?_eq_getElem hlt, ?_, ?_, ?_⟩
    · simp only [List.getElem?_map, List.getElem?_range hi, Option.map_some']
      rw [List.getD_eq_getElem _ _ hlt]
    · intro hnone
      exact atlas_glyph_none _ _ _ _ _ _ _ _ hnone
    · intro hsome
      have ex : ((i % atlas_cols n : ℕ) : Int) * cell_w + cell_w
          = ((i % atlas_cols n + 1 : ℕ) : Int) * cell_w := by
        push_cast
        ring
      have ey : ((i / atlas_cols n : ℕ) : Int) * cell_h + cell_h
          = ((i / atlas_cols n + 1 : ℕ) : Int) * cell_h := by
        push_cast
        ring
      rw [atlas_glyph_some _ _ _ _ _ _ _ _ hsome, hx, hy, ex, ey]
      exact ⟨rfl, rfl, rfl, rfl, rfl⟩
  · intro i hi
    obtain ⟨hcin, hrin⟩ := packing_cell_inside n hn i hi
    exact ⟨hmono _ _ _ hw0 hcin, hmono _ _ _ hh0 hrin⟩
  · intro i j _ _ hij
    exact packing_cells_disjoint (atlas_cols n) cell_w cell_h hw0 hh0 i j hij


/-- Witness of C9: the screen with nine distinct glyphs, cells of 8 by 16 pixels
and a font that rasterizes every glyph. -/
theorem build_atlas_glyph_table_witness :
    (collect_glyphs example_screen) = [97, 98, 99, 100, 101, 102, 103, 104, 105] ∧
    ∃ rs, build_atlas example_screen (fun _ => some (6, 12)) 8 16 = some rs ∧
      rs.glyphs.length = 9 ∧ rs.tex_w = 24 ∧ rs.tex_h = 48 :=
  ⟨by decide,
   (build_atlas_glyph_table example_screen (fun _ => some (6, 12)) 8 16 9 (by decide)
      (by decide) (by decide) (by decide) (by decide) (by decide)).imp
     (fun _ h => ⟨h.1, h.2.2.1, h.2.2.2.2.2.2.1, h.2.2.2.2.2.2.2.1⟩)⟩

/-- C9 as stated fails when the font service returns `NULL` for a glyph: for the
screen `A` U+200B the build succeeds with two entries, and the entry of U+200B
is left zeroed, so it neither carries its code point nor covers its packing
cell. -/
theorem build_atlas_glyph_table_counterexample :
    collect_glyphs example_zero_width = [65, 0x200B] ∧
    example_font (utf8_encode 0x200B) = none ∧
    (build_atlas example_zero_width example_font 8 16).map
      (fun rs => (rs.glyphs.length, rs.glyphs[1]?)) = some (2, some zero_glyph) ∧
    zero_glyph.codepoint ≠ 0x200B ∧
    zero_glyph.u0 = zero_glyph.u1 ∧ zero_glyph.v0 = zero_glyph.v1 := by
  decide


/-! ## Properties of the typewriter reveal -/

/-- C11: `view_build_cells` is idempotent: a second run, with no text changed,
gives the same `max_cols` and the same cells as the first. -/
theorem view_build_cells_idempotent (view : View) :
    view_build_cells (view_build_cells view) = view_build_cells view := by
  have hmax : ∀ (m : Nat) (lines : List Line),
      view_max_cols (lines.map (build_line m)) = view_max_cols lines := by
    intro m lines
    rw [view_max_cols_eq, view_max_cols_eq, List.map_map]
    rfl
  unfold view_build_cells
  simp only [hmax, List.map_map]
  congr 1

/-- C12: `view_build_cells` sets `max_cols` to the maximum over the lines of the
number of code points decoded from the line's text (0 without lines); every
line's cells are its decoded code points, in order from column 0, followed by
spaces, so that cell `c` below the line's decoded count is the `c`-th decoded
code point. -/
theorem view_build_cells_decoded (view : View) :
    (view_build_cells view).max_cols
      = (view.lines.map (fun line => (decoded line.text).length)).foldr max 0 ∧
    (view.lines = [] → (view_build_cells view).max_cols = 0) ∧
    (view_build_cells view).lines.map (fun line => line.text)
      = view.lines.map (fun line => line.text) ∧
    ∀ line ∈ (view_build_cells view).lines,
      (decoded line.text).length ≤ (view_build_cells view).max_cols ∧
      line.cells = decoded line.text ++
        List.replicate ((view_build_cells view).max_cols - (decoded line.text).length) SPACE ∧
      ∀ c, c < (decoded line.text).length → line.cells[c]? = (decoded line.text)[c]? := by
  have hmc : (view_build_cells view).max_cols
      = (view.lines.map (fun line => (decoded line.text).length)).foldr max 0 :=
    view_max_cols_eq view.lines
  refine ⟨hmc, ?_, ?_, ?_⟩
  · intro hnil
    rw [hmc, hnil]
    rfl
  · rw [view_build_cells_lines, List.map_map]
    rfl
  · intro line hline
    rw [view_build_cells_lines, List.mem_map] at hline
    obtain ⟨l0, hl0, rfl⟩ := hline
    have hle : (decoded l0.text).length ≤ (view_build_cells view).max_cols := by
      rw [hmc]
      exact foldr_max_ge _ _ (List.mem_map.mpr ⟨l0, hl0, rfl⟩)
    have hcells := build_line_cells (view_build_cells view).max_cols l0 hle
    refine ⟨hle, hcells, ?_⟩
    intro c hc
    have hcells2 : (build_line (view_max_cols view.lines) l0).cells
        = decoded l0.text ++
          List.replicate ((view_build_cells view).max_cols - (decoded l0.text).length) SPACE :=
      hcells
    rw [hcells2]
    exact List.getElem?_append_left hc

/-! ## Properties of `align_art_to_field` -/

/-- C13: for an art block of width `w ≥ 1` and height `h ≥ 1`, `align_art_to_field`
returns `top = (y0 + y1) / 2 - half(h)` and `left = (x0 + x1) / 2 - half(w)`, with
the integer division of C and `half(d) = d / 2 - 1` for even `d`, `d / 2` for odd
`d`; so `top + half(h)` and `left + half(w)` are the midpoints of the slot. -/
theorem align_art_to_field_centered (slot : ArtSlot) (w h : Int) (hw : 1 ≤ w) (hh : 1 ≤ h) :
    (align_art_to_field slot w h).2 = (slot.y0 + slot.y1).tdiv 2 - half_extent h ∧
    (align_art_to_field slot w h).1 = (slot.x0 + slot.x1).tdiv 2 - half_extent w ∧
    (align_art_to_field slot w h).2 + half_extent h = (slot.y0 + slot.y1).tdiv 2 ∧
    (align_art_to_field slot w h).1 + half_extent w = (slot.x0 + slot.x1).tdiv 2 ∧
    (0 ≤ slot.y0 + slot.y1 → (slot.y0 + slot.y1).tdiv 2 = (slot.y0 + slot.y1) / 2) ∧
    (0 ≤ slot.x0 + slot.x1 → (slot.x0 + slot.x1).tdiv 2 = (slot.x0 + slot.x1) / 2) := by
  have key : ∀ d : Int, 1 ≤ d →
      d.tdiv 2 - (if d.tmod 2 = 1 then 0 else 1) = half_extent d := by
    intro d hd
    rw [Int.tdiv_eq_ediv (by omega) (by omega), Int.tmod_eq_emod (by omega) (by omega)]
    unfold half_extent
    by_cases h1 : d % 2 = 1
    · rw [if_pos h1, if_neg (by omega)]
      omega
    · rw [if_neg h1, if_pos (by omega)]
  have hy : (align_art_to_field slot w h).2
      = (slot.y0 + slot.y1).tdiv 2 - half_extent h := by
    rw [← key h hh]
    rfl
  have hx : (align_art_to_field slot w h).1
      = (slot.x0 + slot.x1).tdiv 2 - half_extent w := by
    rw [← key w hw]
    rfl
  refine ⟨hy, hx, by rw [hy]; omega, by rw [hx]; omega, ?_, ?_⟩
  · intro h0
    exact Int.tdiv_eq_ediv h0 (by omega)
  · intro h0
    exact Int.tdiv_eq_ediv h0 (by omega)

/-- Witness of C13: an art block of width 5 and height 4 aligned into the slot
`y:[0,3], x:[0,9]` gets the top 0 and the left 2. -/
theorem align_art_to_field_centered_witness :
    half_extent 4 = 1 ∧ half_extent 5 = 2 ∧
    align_art_to_field ⟨0, 3, 0, 9⟩ 5 4 = (2, 0) ∧
    (align_art_to_field ⟨0, 3, 0, 9⟩ 5 4).2 = (0 + 3 : Int).tdiv 2 - half_extent 4 :=
  ⟨by decide, by decide, by decide,
   (align_art_to_field_centered ⟨0, 3, 0, 9⟩ 5 4 (by decide) (by decide)).1⟩

/-! ## Properties of the value map -/

/-- C14: after `value_map_set(m, k, v)`, `value_map_get(m, k)` returns `v`, and for
every other key `value_map_get` returns what it returned before the set. -/
theorem value_map_set_get (map : ValueMap) (key value : List Nat) :
    value_map_get (value_map_set map key value) key = some value ∧
    ∀ key2 : List Nat, key2 ≠ key →
      value_map_get (value_map_set map key value) key2 = value_map_get map key2 :=
  ⟨value_map_get_set_same map key value,
   fun key2 hne => value_map_get_set_other map key value key2 hne⟩

/-- C15: a map reached from the empty map by calls of `value_map_set`,
`value_map_set_int` and `value_map_set_if_missing` has no key twice.  On a key
already present `value_map_set` replaces the value of the first item with that
key, at its position, and leaves the number and the order of the items as they
were; on a new key it appends one item at the end. -/
theorem value_map_unique_keys (calls : List MapCall) (map : ValueMap)
    (key value : List Nat) :
    (map_keys (map_calls calls)).Nodup ∧
    (key ∈ map_keys map →
      (∃ pre old post, map.items = pre ++ { key := key, value := old } :: post ∧
        key ∉ pre.map (fun kv => kv.key) ∧
        (value_map_set map key value).items
          = pre ++ { key := key, value := value } :: post) ∧
      map_keys (value_map_set map key value) = map_keys map ∧
      (value_map_set map key value).items.length = map.items.length) ∧
    (key ∉ map_keys map →
      (value_map_set map key value).items
        = map.items ++ [{ key := key, value := value }]) := by
  refine ⟨map_keys_nodup_calls calls _ List.nodup_nil, ?_, ?_⟩
  · intro h
    obtain ⟨pre, old, post, h1, h2, h3⟩ := value_map_set_present map key value h
    refine ⟨⟨pre, old, post, h1, h2, by rw [h3]⟩, ?_, ?_⟩
    · rw [map_keys_set, if_pos h]
    · rw [h3, h1]
      simp
  · intro h
    rw [value_map_set_absent map key value h]

/-- A run of calls on the value map: the second `set` of `hp` replaces in place,
`set_if_missing` on the present key `name` changes nothing, and the new key
`gold` is appended. -/
theorem value_map_calls_example :
    map_calls [.set [104, 112] [49], .set [110, 97, 109, 101] [65, 116, 111],
        .set [104, 112] [50], .set_if_missing [110, 97, 109, 101] [66],
        .set_int [103, 111, 108, 100] (-12)]
      = { items := [⟨[104, 112], [50]⟩, ⟨[110, 97, 109, 101], [65, 116, 111]⟩,
                    ⟨[103, 111, 108, 100], [45, 49, 50]⟩] } := by
  decide

/-! ## Properties of `utf8_decode` and `utf8_encode` -/

/-- C19: at an index `i < len`, `utf8_decode` returns an advance between 1 and 4
that stays inside the string, so decoding a text from `i` on ends within
`len - i` calls.  For a byte `0x80`-`0xBF` or `0xF8`-`0xFF` at `i`, and for a
leading byte whose sequence is cut off by the end of the string, the result is
U+FFFD with the advance 1. -/
theorem utf8_decode_progress (s : List Nat) (len i : Nat) (hi : i < len) :
    1 ≤ (utf8_decode s len i).2 ∧ (utf8_decode s len i).2 ≤ 4 ∧
    i + (utf8_decode s len i).2 ≤ len ∧
    ((0x80 ≤ byte_at s i ∧ byte_at s i ≤ 0xBF) ∨ 0xF8 ≤ byte_at s i →
      utf8_decode s len i = (0xFFFD, 1)) ∧
    ((0xC0 ≤ byte_at s i ∧ byte_at s i ≤ 0xDF ∧ len ≤ i + 1) ∨
      (0xE0 ≤ byte_at s i ∧ byte_at s i ≤ 0xEF ∧ len ≤ i + 2) ∨
      (0xF0 ≤ byte_at s i ∧ byte_at s i ≤ 0xF7 ∧ len ≤ i + 3) →
      utf8_decode s len i = (0xFFFD, 1)) ∧
    (∀ fuel, len - i ≤ fuel →
      decode_loop s len (fuel + 1) i = decode_loop s len fuel i) := by
  have hc := byte_at_lt s i
  refine ⟨?_, ?_, ?_, ?_, ?_, fun fuel h => decode_loop_fuel s len fuel i h⟩
  all_goals
    unfold utf8_decode
    simp only [shr5, shr4, shr3]
    generalize byte_at s i = c at hc ⊢
    by_cases h1 : c < 0x80
    · rw [if_pos h1]
      all_goals first
        | (intro h; exfalso; omega)
        | (simp only []; omega)
    · rw [if_neg h1]
      by_cases h2 : c / 32 = 0x6 ∧ i + 1 < len
      · rw [if_pos h2]
        all_goals first
          | (intro h; exfalso; omega)
          | (simp only []; omega)
      · rw [if_neg h2]
        by_cases h3 : c / 16 = 0xE ∧ i + 2 < len
        · rw [if_pos h3]
          all_goals first
            | (intro h; exfalso; omega)
            | (simp only []; omega)
        · rw [if_neg h3]
          by_cases h4 : c / 8 = 0x1E ∧ i + 3 < len
          · rw [if_pos h4]
            all_goals first
              | (intro h; exfalso; omega)
              | (simp only []; omega)
          · rw [if_neg h4]
            all_goals first
              | (intro _; rfl)
              | (simp only []; omega)

/-- Witness of C19: in the two-byte text `E2 80` the leading byte `E2` announces
three bytes that the text does not have, and the continuation byte `80` is no
leading byte; both decode to U+FFFD with the advance 1. -/
theorem utf8_decode_progress_witness :
    utf8_decode [0xE2, 0x80] 2 0 = (0xFFFD, 1) ∧ utf8_decode [0xE2, 0x80] 2 1 = (0xFFFD, 1) ∧
    decoded [0xE2, 0x80] = [0xFFFD, 0xFFFD] :=
  ⟨(utf8_decode_progress [0xE2, 0x80] 2 0 (by decide)).2.2.2.2.1
     (Or.inr (Or.inl (by decide))),
   (utf8_decode_progress [0xE2, 0x80] 2 1 (by decide)).2.2.2.1 (Or.inl (by decide)),
   by decide⟩

/-- C20, as the code has it: `utf8_decode` decodes a 2-, 3- or 4-byte sequence
whenever the leading byte announces it and that many bytes are left before the
end of the string.  The bytes after the leading byte are not checked for the
form `10xxxxxx`: each contributes its low six bits, so that two strings with the
same leading byte and the same low six bits in the following bytes decode
alike.  A byte below `0x80` is its own code point with the advance 1.  The result
U+FFFD with the advance 1 comes exactly for a byte `0x80`-`0xBF` or `0xF8`-`0xFF`
at the index and for a sequence cut off by the end of the string. -/
theorem utf8_decode_unchecked (s t : List Nat) (len i : Nat)
    (hlead : byte_at s i = byte_at t i)
    (hlow : ∀ k, 1 ≤ k → k ≤ 3 → byte_at s (i + k) % 64 = byte_at t (i + k) % 64) :
    utf8_decode s len i = utf8_decode t len i ∧
    (0xC0 ≤ byte_at s i ∧ byte_at s i ≤ 0xDF ∧ i + 1 < len →
      utf8_decode s len i = (byte_at s i % 32 * 64 + byte_at s (i + 1) % 64, 2)) ∧
    (0xE0 ≤ byte_at s i ∧ byte_at s i ≤ 0xEF ∧ i + 2 < len →
      utf8_decode s len i
        = (byte_at s i % 16 * 4096 + byte_at s (i + 1) % 64 * 64
            + byte_at s (i + 2) % 64, 3)) ∧
    (0xF0 ≤ byte_at s i ∧ byte_at s i ≤ 0xF7 ∧ i + 3 < len →
      utf8_decode s len i
        = (byte_at s i % 8 * 262144 + byte_at s (i + 1) % 64 * 4096
            + byte_at s (i + 2) % 64 * 64 + byte_at s (i + 3) % 64, 4)) ∧
    (byte_at s i < 0x80 → utf8_decode s len i = (byte_at s i, 1)) ∧
    (utf8_decode s len i = (0xFFFD, 1) ↔
      ((0x80 ≤ byte_at s i ∧ byte_at s i ≤ 0xBF) ∨ 0xF8 ≤ byte_at s i ∨
        (0xC0 ≤ byte_at s i ∧ byte_at s i ≤ 0xDF ∧ len ≤ i + 1) ∨
        (0xE0 ≤ byte_at s i ∧ byte_at s i ≤ 0xEF ∧ len ≤ i + 2) ∨
        (0xF0 ≤ byte_at s i ∧ byte_at s i ≤ 0xF7 ∧ len ≤ i + 3))) ∧
    byte_at s i < 256 :=
  ⟨utf8_decode_congr s t len i hlead hlow,
   fun h => utf8_decode_two s len i ⟨h.1, h.2.1⟩ h.2.2,
   fun h => utf8_decode_three s len i ⟨h.1, h.2.1⟩ h.2.2,
   fun h => utf8_decode_four s len i ⟨h.1, h.2.1⟩ h.2.2,
   utf8_decode_low s len i,
   utf8_decode_replacement_iff s len i,
   byte_at_lt s i⟩

/-- Witness of C20: the byte `29` after the leading byte `C3` decodes like the
continuation byte `A9` with the same low six bits, to U+00E9 with the advance 2,
and not to U+FFFD with the advance 1. -/
theorem utf8_decode_unchecked_witness :
    utf8_decode [0xC3, 0x29] 2 0 = utf8_decode [0xC3, 0xA9] 2 0 ∧
    utf8_decode [0xC3, 0xA9] 2 0 = (0xE9, 2) ∧
    utf8_decode [0xC3, 0x29] 2 0 ≠ (0xFFFD, 1) :=
  ⟨(utf8_decode_unchecked [0xC3, 0x29] [0xC3, 0xA9] 2 0 (by decide)
      (by
        intro k h1 h3
        have hk : k = 1 ∨ k = 2 ∨ k = 3 := by omega
        rcases hk with rfl | rfl | rfl <;> decide)).1,
   by decide,
   fun h => absurd
     ((utf8_decode_unchecked [0xC3, 0x29] [0xC3, 0xA9] 2 0 (by decide)
        (by
          intro k h1 h3
          have hk : k = 1 ∨ k = 2 ∨ k = 3 := by omega
          rcases hk with rfl | rfl | rfl <;> decide)).2.2.2.2.2.1.mp h)
     (by decide)⟩

/-- C20 as stated fails: in `C3 41` the byte after the leading byte is the letter
`A`, not of the form `10xxxxxx`, and the result is U+00C1 with the advance 2; in
`E2 41 42` both following bytes are letters and the result is U+2042 with the
advance 3.  Neither is U+FFFD with the advance 1. -/
theorem utf8_decode_unchecked_counterexample :
    ¬ (0x80 ≤ byte_at [0xC3, 0x41] 1 ∧ byte_at [0xC3, 0x41] 1 ≤ 0xBF) ∧
    utf8_decode [0xC3, 0x41] 2 0 = (0xC1, 2) ∧
    utf8_decode [0xC3, 0x41] 2 0 ≠ (0xFFFD, 1) ∧
    utf8_decode [0xE2, 0x41, 0x42] 3 0 = (0x2042, 3) ∧
    utf8_decode [0xE2, 0x41, 0x42] 3 0 ≠ (0xFFFD, 1) := by
  decide

/-- C18: for a code point up to U+10FFFF, `utf8_encode` writes 1, 2, 3 or 4 bytes
(1 below `0x80`, 2 below `0x800`, 3 below `0x10000`, else 4), and `utf8_decode` at
index 0 of exactly those bytes returns the code point with the advance equal to
their number. -/
theorem utf8_encode_decode (cp : Nat) (hcp : cp ≤ 0x10FFFF) :
    (utf8_encode cp).length
      = (if cp < 0x80 then 1 else if cp < 0x800 then 2 else if cp < 0x10000 then 3 else 4) ∧
    (∀ b ∈ utf8_encode cp, b < 256) ∧
    utf8_decode (utf8_encode cp) (utf8_encode cp).length 0
      = (cp, (utf8_encode cp).length) := by
  by_cases h1 : cp < 0x80
  · rw [utf8_encode_one cp h1, if_pos h1]
    refine ⟨rfl, ?_, ?_⟩
    · intro b hb
      rw [List.mem_singleton] at hb
      omega
    · unfold utf8_decode
      simp only [byte_at_cons_zero]
      rw [Nat.mod_eq_of_lt (by omega), if_pos h1]
      rfl
  · by_cases h2 : cp < 0x800
    · rw [utf8_encode_two cp (by omega) h2, if_neg h1, if_pos h2]
      refine ⟨rfl, ?_, ?_⟩
      · intro b hb
        simp only [List.mem_cons, List.mem_singleton, List.not_mem_nil, or_false] at hb
        omega
      · rw [utf8_decode_two _ _ _ (by simp only [byte_at_cons_zero]; omega) (by simp)]
        simp only [byte_at_cons_zero, byte_at_cons_succ, List.length_cons, List.length_nil]
        congr 1
        omega
    · by_cases h3 : cp < 0x10000
      · rw [utf8_encode_three cp (by omega) h3, if_neg h1, if_neg h2, if_pos h3]
        refine ⟨rfl, ?_, ?_⟩
        · intro b hb
          simp only [List.mem_cons, List.mem_singleton, List.not_mem_nil, or_false] at hb
          omega
        · rw [utf8_decode_three _ _ _ (by simp only [byte_at_cons_zero]; omega) (by simp)]
          simp only [byte_at_cons_zero, byte_at_cons_succ, List.length_cons, List.length_nil]
          congr 1
          omega
      · rw [utf8_encode_four cp (by omega) hcp, if_neg h1, if_neg h2, if_neg h3]
        refine ⟨rfl, ?_, ?_⟩
        · intro b hb
          simp only [List.mem_cons, List.mem_singleton, List.not_mem_nil, or_false] at hb
          omega
        · rw [utf8_decode_four _ _ _ (by simp only [byte_at_cons_zero]; omega) (by simp)]
          simp only [byte_at_cons_zero, byte_at_cons_succ, List.length_cons, List.length_nil]
          congr 1
          omega

/-- Witness of C18: U+00E9 is encoded as `C3 A9`, U+20AC as `E2 82 AC` and
U+10FFFF as `F4 8F BF BF`, and each decodes back. -/
theorem utf8_encode_decode_witness :
    utf8_encode 0xE9 = [0xC3, 0xA9] ∧ utf8_encode 0x20AC = [0xE2, 0x82, 0xAC] ∧
    utf8_encode 0x10FFFF = [0xF4, 0x8F, 0xBF, 0xBF] ∧
    utf8_decode (utf8_encode 0x10FFFF) (utf8_encode 0x10FFFF).length 0
      = (0x10FFFF, (utf8_encode 0x10FFFF).length) :=
  ⟨by decide, by decide, by decide, (utf8_encode_decode 0x10FFFF (by decide)).2.2⟩

/-! ## Properties of `menu_load` -/

/-- C16: for a root that is a map, `menu_load` returns `true` exactly when the
loaded view has at least one line, that is, when the field `view` is a sequence
with at least one scalar item.  The result depends on the field `view` only:
two roots with the same field `view` succeed or fail together, whatever their
fields `insert_options`, `arts` and `partials` are. -/
theorem menu_load_succeeds_iff (entries : List (List Nat × Node)) (menu : Menu) :
    ((menu_load (some (.map entries)) menu).1 = true ↔
      (menu_load (some (.map entries)) menu).2.view.lines ≠ []) ∧
    ((menu_load (some (.map entries)) menu).1 = true ↔
      ∃ items, node_map_get (.map entries) KEY_VIEW = some (.seq items) ∧
        ∃ text, Node.scalar text ∈ items) ∧
    (∀ entries2 : List (List Nat × Node),
      node_map_get (.map entries2) KEY_VIEW = node_map_get (.map entries) KEY_VIEW →
      (menu_load (some (.map entries2)) menu).1 = (menu_load (some (.map entries)) menu).1) := by
  have hflag : (menu_load (some (.map entries)) menu).1 = true ↔
      (load_view (node_map_get (.map entries) KEY_VIEW)).lines ≠ [] := by
    rw [menu_load_map]
    simp only [decide_eq_true_eq]
    exact List.length_pos
  refine ⟨?_, ?_, ?_⟩
  · rw [hflag, menu_load_map]
  · rw [hflag, load_view_lines_ne_nil_iff]
  · intro entries2 h
    rw [menu_load_map, menu_load_map, h]

/-! ## Properties of `compose_menu` -/

/-- C17, as the code has it: partial composition goes one level deep.  For a
partial slot whose template loads, `compose_menu` applies the placeholder
substitution and the cell rebuild (steps 1 and 2) to the partial and copies its
grid into the parent at `(y0, x0)`; the partial slots and art slots that the
partial itself declares are not composed, so that two sets of template files
whose menus differ in these fields only give the same composed menu. -/
theorem compose_menu_one_level (files files2 art_files : List Nat → Option Node)
    (round_text : List Nat → List Nat) (menu : Menu) (main_map : ValueMap)
    (partial_maps : List (Option ValueMap)) (art_args : List ArtArg)
    (h : ∀ name,
      (menu_load (files name) empty_menu).1 = (menu_load (files2 name) empty_menu).1 ∧
      (menu_load (files name) empty_menu).2.view = (menu_load (files2 name) empty_menu).2.view ∧
      (menu_load (files name) empty_menu).2.inserts
        = (menu_load (files2 name) empty_menu).2.inserts) :
    compose_menu files art_files round_text menu main_map partial_maps art_args
      = compose_menu files2 art_files round_text menu main_map partial_maps art_args ∧
    ∀ (view : View) (i : Nat) (slot : PartialSlot) (name : List Nat) (part : Menu),
      slot.name = some name → menu_load (files name) empty_menu = (true, part) →
      compose_part files round_text main_map partial_maps view i slot
        = insert_view view
            (view_build_cells (apply_inserts round_text part
              (match partial_maps[i]? with
                | some (some m) => m
                | _ => main_map)).view)
            slot.y0 slot.x0 := by
  constructor
  · unfold compose_menu
    simp only [compose_part_congr files files2 round_text main_map partial_maps h]
  · intro view i slot name part hname hload
    unfold compose_part
    rw [hname]
    simp only [hload]

/-- Witness of C17: with and without the partial slot that the template `p`
declares for `q`, the menu `m` composes to the same result. -/
theorem compose_menu_one_level_witness :
    compose_menu example_menu_files (fun _ => none) (fun s => s) (example_menu [109])
        { items := [] } [] []
      = compose_menu example_menu_files_flat (fun _ => none) (fun s => s) (example_menu [109])
        { items := [] } [] [] :=
  (compose_menu_one_level example_menu_files example_menu_files_flat (fun _ => none)
    (fun s => s) (example_menu [109]) { items := [] } [] []
    (by
      intro name
      unfold example_menu_files example_menu_files_flat
      split_ifs <;> decide)).1

/-- C17 as stated fails: the template `p` declares a partial slot for `q`, and
steps 1 to 3 applied to `p` give the grid `Zb`; composing `m`, whose partial slot
refers to `p`, copies the grid `ab` of `p` without its nested partial, so the
result is not the parent with the composed grid of `p` copied in at `(0, 0)`. -/
theorem compose_menu_nested_counterexample :
    (example_menu [112]).partials
      = [{ name := some [113], y0 := 0, y1 := 0, x0 := 0, x1 := 0 }] ∧
    (compose_menu example_menu_files (fun _ => none) (fun s => s) (example_menu [112])
        { items := [] } [] []).view.lines.map (fun line => line.cells) = [[90, 98]] ∧
    (compose_menu example_menu_files (fun _ => none) (fun s => s) (example_menu [109])
        { items := [] } [] []).view.lines.map (fun line => line.cells)
      = [[97, 98, 46, 46], [46, 46, 46, 46]] ∧
    (compose_menu example_menu_files (fun _ => none) (fun s => s) (example_menu [109])
        { items := [] } [] []).view
      ≠ insert_view
          (view_build_cells
            (apply_inserts (fun s => s) (example_menu [109]) { items := [] }).view)
          (compose_menu example_menu_files (fun _ => none) (fun s => s) (example_menu [112])
            { items := [] } [] []).view
          0 0 := by
  decide

/-! ## Properties of `node_string_list` -/

/-- C24: `node_string_list` returns the one text of a scalar node; for a sequence
node it returns the texts of the scalar items in their order, passing over every
other item, so that the list has as many entries as the sequence has scalar
items; for a map node and for an absent node the list is empty. -/
theorem node_string_list_spec :
    (∀ text, node_string_list (some (.scalar text)) = [text]) ∧
    (∀ items,
      (node_string_list (some (.seq items))).length = items.countP is_scalar ∧
      List.Sublist ((node_string_list (some (.seq items))).map Node.scalar) items ∧
      (∀ text, text ∈ node_string_list (some (.seq items)) ↔ Node.scalar text ∈ items)) ∧
    (∀ entries, node_string_list (some (.map entries)) = []) ∧
    node_string_list none = [] := by
  refine ⟨fun _ => rfl, ?_, fun _ => rfl, rfl⟩
  intro items
  induction items with
  | nil =>
    refine ⟨rfl, List.Sublist.slnil, ?_⟩
    intro text
    simp [node_string_list]
  | cons item rest ih =>
    obtain ⟨h1, h2, h3⟩ := ih
    cases item with
    | scalar t =>
      have hstep : node_string_list (some (.seq (Node.scalar t :: rest)))
          = t :: node_string_list (some (.seq rest)) := by
        simp [node_string_list, node_scalar]
      rw [hstep]
      refine ⟨?_, ?_, ?_⟩
      · simp [is_scalar, h1]
      · exact h2.cons₂ _
      · intro text
        rw [List.mem_cons, List.mem_cons, h3 text]
        constructor
        · rintro (h | h)
          · exact Or.inl (by rw [h])
          · exact Or.inr h
        · rintro (h | h)
          · exact Or.inl (by cases h; rfl)
          · exact Or.inr h
    | seq sub =>
      have hstep : node_string_list (some (.seq (Node.seq sub :: rest)))
          = node_string_list (some (.seq rest)) := by
        simp [node_string_list, node_scalar]
      rw [hstep]
      refine ⟨?_, h2.cons _, ?_⟩
      · simp [is_scalar, h1]
      · intro text
        rw [h3 text, List.mem_cons]
        constructor
        · exact fun h => Or.inr h
        · rintro (h | h)
          · cases h
          · exact h
    | map sub =>
      have hstep : node_string_list (some (.seq (Node.map sub :: rest)))
          = node_string_list (some (.seq rest)) := by
        simp [node_string_list, node_scalar]
      rw [hstep]
      refine ⟨?_, h2.cons _, ?_⟩
      · simp [is_scalar, h1]
      · intro text
        rw [h3 text, List.mem_cons]
        constructor
        · exact fun h => Or.inr h
        · rintro (h | h)
          · cases h
          · exact h

/-- An evaluation of `node_string_list`: of the items `a`, a sequence, `b`, a map, the
texts `a` and `b` remain. -/
theorem node_string_list_example :
    node_string_list (some (.seq [.scalar [97], .seq [.scalar [120]], .scalar [98], .map []]))
      = [[97], [98]] := by
  decide

/-! ## Further properties of the value map -/

/-- C25: when the key is present, `value_map_set_if_missing` leaves the map as it
was, and `value_map_get` still returns the old value; when the key is absent, it
does what `value_map_set` does. -/
theorem value_map_set_if_missing_spec (map : ValueMap) (key value : List Nat) :
    (key ∈ map_keys map →
      value_map_set_if_missing map key value = map ∧
      value_map_get (value_map_set_if_missing map key value) key = value_map_get map key ∧
      ∃ old, value_map_get map key = some old) ∧
    (key ∉ map_keys map →
      value_map_set_if_missing map key value = value_map_set map key value) := by
  constructor
  · intro h
    have hget : value_map_get map key ≠ none :=
      fun hn => (value_map_get_none_iff map key).mp hn h
    cases hg : value_map_get map key with
    | none => exact absurd hg hget
    | some old =>
      have heq : value_map_set_if_missing map key value = map := by
        unfold value_map_set_if_missing
        rw [hg]
      exact ⟨heq, by rw [heq, hg], old, rfl⟩
  · intro h
    have hget := (value_map_get_none_iff map key).mpr h
    unfold value_map_set_if_missing
    rw [hget]

/-- Witness of C25: the map holds `hp`, so setting `hp` if missing leaves the map;
it does not hold `mp`, so setting `mp` if missing appends it. -/
theorem value_map_set_if_missing_spec_witness :
    value_map_set_if_missing { items := [⟨[104, 112], [49]⟩] } [104, 112] [50]
      = { items := [⟨[104, 112], [49]⟩] } ∧
    value_map_set_if_missing { items := [⟨[104, 112], [49]⟩] } [109, 112] [50]
      = value_map_set { items := [⟨[104, 112], [49]⟩] } [109, 112] [50] ∧
    value_map_set { items := [⟨[104, 112], [49]⟩] } [109, 112] [50]
      = { items := [⟨[104, 112], [49]⟩, ⟨[109, 112], [50]⟩] } :=
  ⟨((value_map_set_if_missing_spec { items := [⟨[104, 112], [49]⟩] } [104, 112] [50]).1
      (by decide)).1,
   (value_map_set_if_missing_spec { items := [⟨[104, 112], [49]⟩] } [109, 112] [50]).2
      (by decide),
   by decide⟩

/-! ## Further properties of `align_art_to_field` -/

/-- C30: for a slot with `0 ≤ y0 ≤ y1` and `0 ≤ x0 ≤ x1` and an art block that is
at least 1 and at most the slot in height and width, the rectangle that
`align_art_to_field` places lies in the slot. -/
theorem align_art_to_field_inside (slot : ArtSlot) (w h : Int)
    (hy0 : 0 ≤ slot.y0) (hy : slot.y0 ≤ slot.y1) (hx0 : 0 ≤ slot.x0) (hx : slot.x0 ≤ slot.x1)
    (hh1 : 1 ≤ h) (hh : h ≤ slot.y1 - slot.y0 + 1)
    (hw1 : 1 ≤ w) (hw : w ≤ slot.x1 - slot.x0 + 1) :
    slot.y0 ≤ (align_art_to_field slot w h).2 ∧
    (align_art_to_field slot w h).2 + h - 1 ≤ slot.y1 ∧
    slot.x0 ≤ (align_art_to_field slot w h).1 ∧
    (align_art_to_field slot w h).1 + w - 1 ≤ slot.x1 := by
  have key : ∀ (a b d : Int), 0 ≤ a → a ≤ b → 1 ≤ d → d ≤ b - a + 1 →
      a ≤ (a + b).tdiv 2 - (d.tdiv 2 - (if d.tmod 2 = 1 then 0 else 1)) ∧
      (a + b).tdiv 2 - (d.tdiv 2 - (if d.tmod 2 = 1 then 0 else 1)) + d - 1 ≤ b := by
    intro a b d ha hab hd1 hd
    rw [Int.tdiv_eq_ediv (by omega) (by omega), Int.tdiv_eq_ediv (by omega) (by omega),
      Int.tmod_eq_emod (by omega) (by omega)]
    by_cases h1 : d % 2 = 1
    · rw [if_pos h1]; omega
    · rw [if_neg h1]; omega
  obtain ⟨k1, k2⟩ := key slot.y0 slot.y1 h hy0 hy hh1 hh
  obtain ⟨k3, k4⟩ := key slot.x0 slot.x1 w hx0 hx hw1 hw
  exact ⟨k1, k2, k3, k4⟩

/-- Witness of C30: an art block of width 5 and height 4 in the slot `y:[0,3]`,
`x:[0,9]` is placed at the rows 0 to 3 and the columns 2 to 6. -/
theorem align_art_to_field_inside_witness :
    align_art_to_field ⟨0, 3, 0, 9⟩ 5 4 = (2, 0) ∧
    (0 : Int) ≤ (align_art_to_field ⟨0, 3, 0, 9⟩ 5 4).2 ∧
    (align_art_to_field ⟨0, 3, 0, 9⟩ 5 4).2 + 4 - 1 ≤ 3 :=
  ⟨by decide,
   (align_art_to_field_inside ⟨0, 3, 0, 9⟩ 5 4 (by decide) (by decide) (by decide) (by decide)
      (by decide) (by decide) (by decide) (by decide)).1,
   (align_art_to_field_inside ⟨0, 3, 0, 9⟩ 5 4 (by decide) (by decide) (by decide) (by decide)
      (by decide) (by decide) (by decide) (by decide)).2.1⟩

/-! ## Frame properties of `apply_insert` -/

/-- C26: when the target line is `pre ++ ch^r ++ suf`, where the run `ch^r` is the
leftmost run of the placeholder of length 3 or more, one call of `apply_insert`
writes `pre ++ field ++ suf` with a field of `r` bytes: the bytes before the run
and all bytes after it, with every later run of the placeholder in `suf`, stay
what they were, at the same offsets. -/
theorem apply_insert_leftmost_only (view : View) (opt : InsertOption) (value : List Nat)
    (idx : Nat) (line : Line) (pre suf : List Nat) (r : Nat)
    (hidx : opt.line_idx = (idx : Int)) (hline : view.lines[idx]? = some line)
    (htext : line.text = pre ++ List.replicate r opt.placeholder ++ suf)
    (hrun : FirstRun opt.placeholder pre r suf) :
    ∃ out : Line, (apply_insert view opt value).lines[idx]? = some out ∧
      out.text = pre ++ insert_field opt.modifier value r ++ suf ∧
      out.text.take pre.length = pre ∧
      out.text.drop (pre.length + r) = suf ∧
      out.text.length = line.text.length := by
  have hlt : idx < view.lines.length := by
    rcases Nat.lt_or_ge idx view.lines.length with h | h
    · exact h
    · rw [List.getElem?_eq_none h] at hline; cases hline
  have htxt : apply_insert_text line.text opt value
      = pre ++ insert_field opt.modifier value r ++ suf := by
    rw [htext]
    exact apply_insert_text_first_run opt value pre suf r hrun
  refine ⟨{ line with text := apply_insert_text line.text opt value }, ?_, htxt, ?_, ?_, ?_⟩
  · rw [apply_insert_at view opt value idx line hidx hline]
    simp only [List.getElem?_set_self hlt]
  · show (apply_insert_text line.text opt value).take pre.length = pre
    rw [htxt, List.append_assoc, List.take_left]
  · show (apply_insert_text line.text opt value).drop (pre.length + r) = suf
    rw [htxt]
    have hlen : (pre ++ insert_field opt.modifier value r).length = pre.length + r := by
      rw [List.length_append, insert_field_length]
    rw [← hlen, List.drop_left]
  · show (apply_insert_text line.text opt value).length = line.text.length
    exact apply_insert_text_length line.text opt value

/-- Witness of C26: in the line `"a###b####c"` the value `"xy"` replaces the run
of three only; the later run of four stays. -/
theorem apply_insert_leftmost_only_witness :
    apply_insert ⟨[⟨[97, 35, 35, 35, 98, 35, 35, 35, 35, 99], []⟩], 0⟩ ⟨0, 35, 115, []⟩
        [120, 121]
      = ⟨[⟨[97, 120, 121, 32, 98, 35, 35, 35, 35, 99], []⟩], 0⟩ ∧
    ∃ out : Line,
      (apply_insert ⟨[⟨[97, 35, 35, 35, 98, 35, 35, 35, 35, 99], []⟩], 0⟩ ⟨0, 35, 115, []⟩
        [120, 121]).lines[0]? = some out ∧
      out.text = [97] ++ insert_field 115 [120, 121] 3 ++ [98, 35, 35, 35, 35, 99] ∧
      out.text.take 1 = [97] ∧
      out.text.drop (1 + 3) = [98, 35, 35, 35, 35, 99] ∧
      out.text.length = 10 :=
  ⟨by decide,
   apply_insert_leftmost_only ⟨[⟨[97, 35, 35, 35, 98, 35, 35, 35, 35, 99], []⟩], 0⟩
     ⟨0, 35, 115, []⟩ [120, 121] 0 ⟨[97, 35, 35, 35, 98, 35, 35, 35, 35, 99], []⟩
     [97] [98, 35, 35, 35, 35, 99] 3 (by decide) (by decide) (by decide) (by decide)⟩

/-- C29: `apply_insert` keeps the number of lines, keeps every line other than
`line_idx` as it was, and keeps the byte length of the text of every line, the
target line included; when `line_idx` is negative or not below the line count,
the view is returned as it was. -/
theorem apply_insert_frame (view : View) (opt : InsertOption) (value : List Nat) :
    (apply_insert view opt value).lines.length = view.lines.length ∧
    (∀ i : Nat, (i : Int) ≠ opt.line_idx →
      (apply_insert view opt value).lines[i]? = view.lines[i]?) ∧
    (∀ i : Nat, ((apply_insert view opt value).lines[i]?).map (fun l => l.text.length)
      = (view.lines[i]?).map (fun l => l.text.length)) ∧
    (opt.line_idx < 0 ∨ (view.lines.length : Int) ≤ opt.line_idx →
      apply_insert view opt value = view) := by
  by_cases hout : opt.line_idx < 0 ∨ (view.lines.length : Int) ≤ opt.line_idx
  · rw [apply_insert_outside view opt value hout]
    exact ⟨rfl, fun _ _ => rfl, fun _ => rfl, fun _ => rfl⟩
  · have hidx : opt.line_idx = ((opt.line_idx.toNat : Nat) : Int) := by omega
    have hlt : opt.line_idx.toNat < view.lines.length := by omega
    have hline : view.lines[opt.line_idx.toNat]? = some (view.lines[opt.line_idx.toNat]) :=
      List.getElem?_eq_getElem hlt
    rw [apply_insert_at view opt value opt.line_idx.toNat _ hidx hline]
    refine ⟨by simp, ?_, ?_, fun h => absurd h hout⟩
    · intro i hi
      have hne : opt.line_idx.toNat ≠ i := by omega
      simp only [List.getElem?_set_ne hne]
    · intro i
      by_cases hi : opt.line_idx.toNat = i
      · subst hi
        simp only [List.getElem?_set_self hlt, hline, Option.map_some',
          apply_insert_text_length]
      · simp only [List.getElem?_set_ne hi]

/-- Witness of C29: the value `"Hello"` written into the run of three on line 1
leaves line 0 and the length 5 of line 1; with `line_idx = 2` nothing changes. -/
theorem apply_insert_frame_witness :
    apply_insert ⟨[⟨[97, 98], []⟩, ⟨[35, 35, 35, 32, 33], []⟩], 0⟩ ⟨1, 35, 115, []⟩
        [72, 101, 108, 108, 111]
      = ⟨[⟨[97, 98], []⟩, ⟨[72, 101, 108, 32, 33], []⟩], 0⟩ ∧
    (apply_insert ⟨[⟨[97, 98], []⟩, ⟨[35, 35, 35, 32, 33], []⟩], 0⟩ ⟨1, 35, 115, []⟩
        [72, 101, 108, 108, 111]).lines[0]?
      = (⟨[⟨[97, 98], []⟩, ⟨[35, 35, 35, 32, 33], []⟩], 0⟩ : View).lines[0]? ∧
    apply_insert ⟨[⟨[97, 98], []⟩, ⟨[35, 35, 35, 32, 33], []⟩], 0⟩ ⟨2, 35, 115, []⟩
        [72, 101, 108, 108, 111]
      = ⟨[⟨[97, 98], []⟩, ⟨[35, 35, 35, 32, 33], []⟩], 0⟩ :=
  ⟨by decide,
   (apply_insert_frame ⟨[⟨[97, 98], []⟩, ⟨[35, 35, 35, 32, 33], []⟩], 0⟩ ⟨1, 35, 115, []⟩
      [72, 101, 108, 108, 111]).2.1 0 (by decide),
   (apply_insert_frame ⟨[⟨[97, 98], []⟩, ⟨[35, 35, 35, 32, 33], []⟩], 0⟩ ⟨2, 35, 115, []⟩
      [72, 101, 108, 108, 111]).2.2.2 (by decide)⟩

/-! ## The art loop of `compose_menu` -/

/-- When the argument has no name or no path, or the art file does not load, the
art slot leaves the view as it was. -/
theorem compose_art_skipped (art_files : List Nat → Option Node) (view : View)
    (slot : ArtSlot) (arg : ArtArg)
    (h : arg.name = none ∨ arg.path = none ∨
      ∃ path, arg.path = some path ∧ (artfile_load (art_files path)).1 = false) :
    compose_art art_files view slot arg = view := by
  unfold compose_art
  rcases h with h | h | ⟨path, hp, hl⟩
  · rw [h]
  · rw [h]
    cases arg.name <;> rfl
  · rw [hp]
    cases hn : arg.name with
    | none => rfl
    | some name =>
      simp only []
      cases hload : artfile_load (art_files path) with
      | mk flag arts =>
        rw [hload] at hl
        simp only [] at hl
        subst hl
        rfl

/-- C28: for an art file that loads, with the variants `arts`, and a requested
name, the art loop of `compose_menu` copies in the variant that `artfile_find`
gives for the requested name, which is a variant of the file with that name;
when the file has no variant of that name and the name is not `normal`, it copies
in the variant that `artfile_find` gives for `normal`; when there is neither, or
the missing name is `normal` itself, the view stays as it was. -/
theorem compose_art_variant (art_files : List Nat → Option Node) (view : View)
    (slot : ArtSlot) (name path : List Nat) (arts : List Art)
    (hload : artfile_load (art_files path) = (true, arts)) :
    (∀ (n : List Nat) (a : Art), artfile_find arts n = some a → a ∈ arts ∧ a.name = n) ∧
    (∀ n : List Nat, artfile_find arts n = none ↔ ∀ a ∈ arts, a.name ≠ n) ∧
    (∀ a, artfile_find arts name = some a →
      compose_art art_files view slot ⟨some name, some path⟩
        = insert_view view (view_build_cells a.view)
            (align_art_to_field slot ((view_build_cells a.view).max_cols : Int)
              ((view_build_cells a.view).lines.length : Int)).2
            (align_art_to_field slot ((view_build_cells a.view).max_cols : Int)
              ((view_build_cells a.view).lines.length : Int)).1) ∧
    (artfile_find arts name = none → name ≠ STR_NORMAL →
      ∀ a, artfile_find arts STR_NORMAL = some a →
      compose_art art_files view slot ⟨some name, some path⟩
        = insert_view view (view_build_cells a.view)
            (align_art_to_field slot ((view_build_cells a.view).max_cols : Int)
              ((view_build_cells a.view).lines.length : Int)).2
            (align_art_to_field slot ((view_build_cells a.view).max_cols : Int)
              ((view_build_cells a.view).lines.length : Int)).1) ∧
    (artfile_find arts name = none →
      (name = STR_NORMAL ∨ artfile_find arts STR_NORMAL = none) →
      compose_art art_files view slot ⟨some name, some path⟩ = view) := by
  refine ⟨?_, ?_, ?_, ?_, ?_⟩
  · intro n a h
    unfold artfile_find at h
    refine ⟨List.mem_of_find?_eq_some h, ?_⟩
    have := List.find?_some h
    simpa using this
  · intro n
    unfold artfile_find
    rw [List.find?_eq_none]
    simp
  · intro a h
    unfold compose_art
    simp only [hload, h]
  · intro h hne a hn
    unfold compose_art
    simp only [hload, h, hn, if_pos hne]
  · intro h hor
    unfold compose_art
    rcases hor with hn | hn
    · have hnot : ¬ name ≠ STR_NORMAL := fun hc => hc hn
      simp only [hload, h, if_neg hnot]
    · by_cases hne : name ≠ STR_NORMAL
      · simp only [hload, h, hn, if_pos hne]
      · simp only [hload, h, if_neg hne]

/-- Witness of C28: for the art file `a` with the variants `normal` and `angry`,
`compose_menu` puts `A` into the view for the name `angry` and `N` for the name
`happy`; for the file `b` without `normal`, the name `normal` leaves the view. -/
theorem compose_art_variant_witness :
    ((compose_menu (fun _ => none) example_art_files (fun s => s) example_art_menu
        { items := [] } [] [⟨some STR_ANGRY, some [97]⟩]).view.lines.map
          (fun line => line.cells) = [[46, 65, 46, 46]]) ∧
    ((compose_menu (fun _ => none) example_art_files (fun s => s) example_art_menu
        { items := [] } [] [⟨some [104, 97, 112, 112, 121], some [97]⟩]).view.lines.map
          (fun line => line.cells) = [[46, 78, 46, 46]]) ∧
    ((compose_menu (fun _ => none) example_art_files (fun s => s) example_art_menu
        { items := [] } [] [⟨some STR_NORMAL, some [98]⟩]).view.lines.map
          (fun line => line.cells) = [[46, 46, 46, 46]]) ∧
    compose_art example_art_files (view_build_cells example_art_menu.view) ⟨0, 0, 0, 3⟩
        ⟨some STR_NORMAL, some [98]⟩
      = view_build_cells example_art_menu.view :=
  ⟨by decide, by decide, by decide,
   (compose_art_variant example_art_files (view_build_cells example_art_menu.view)
      ⟨0, 0, 0, 3⟩ STR_NORMAL [98]
      [{ name := STR_ANGRY, view := { lines := [{ text := [65], cells := [] }], max_cols := 0 } }]
      (by decide)).2.2.2.2 (by decide) (Or.inl rfl)⟩

/-! ## The glyph list of `build_atlas` -/

/-- C21: the glyph list that `build_atlas` collects from the cells of a view, taken
line after line and left to right, holds every code point of a cell and no
other, holds none twice, and is in the order of first appearance: of two
entries, the earlier one has its first cell earlier in the scan.  When
`build_atlas` succeeds, this list is the `glyph_list` of the render state. -/
theorem collect_glyphs_first_appearance (view : View) :
    (∀ cp, cp ∈ collect_glyphs view ↔ cp ∈ view_cells view) ∧
    (collect_glyphs view).Nodup ∧
    (collect_glyphs view).Pairwise
      (fun a b => (view_cells view).indexOf a < (view_cells view).indexOf b) ∧
    (∀ (font : List Nat → Option (Int × Int)) (cell_w cell_h : Int) (rs : RenderState),
      build_atlas view font cell_w cell_h = some rs → rs.glyph_list = collect_glyphs view) := by
  obtain ⟨hnd, hmem⟩ := collect_glyphs_spec view
  refine ⟨hmem, hnd, ?_, ?_⟩
  · rw [collect_glyphs_eq]
    exact collect_cells_order (view_cells view) (view_cells view) [] [] rfl
      (fun x => Iff.rfl) List.Pairwise.nil
  · intro font cell_w cell_h rs h
    exact (build_atlas_some view font cell_w cell_h rs h).1

/-- An evaluation of the glyph collection: the screen `abcab`, `defde`, `ghigh`
gives the nine letters in their order, and `build_atlas` keeps that list. -/
theorem collect_glyphs_first_appearance_witness :
    collect_glyphs example_screen = [97, 98, 99, 100, 101, 102, 103, 104, 105] ∧
    view_cells example_screen
      = [97, 98, 99, 97, 98, 100, 101, 102, 100, 101, 103, 104, 105, 103, 104] ∧
    (build_atlas example_screen (fun _ => some (6, 12)) 8 16).map (fun rs => rs.glyph_list)
      = some (collect_glyphs example_screen) := by
  refine ⟨by decide, by decide, ?_⟩
  cases h : build_atlas example_screen (fun _ => some (6, 12)) 8 16 with
  | none => exact absurd h (by decide)
  | some rs =>
    exact congrArg some
      ((collect_glyphs_first_appearance example_screen).2.2.2 (fun _ => some (6, 12)) 8 16 rs h)

/-! ## Properties of `apply_method_chain` -/

/-- C27, as the code has it: for methods `m0, ..., mk`, none of them `round`, whose
dotted key `m0.m1.....mk` has at most 126 bytes, `apply_method_chain` returns the
value that the map holds under the dotted key `m0.....mi` for the largest `i` for
which the map holds that key, and the empty string when it holds none of these
keys; with an empty method list it returns the empty string. -/
theorem apply_method_chain_last_key (round_text : List Nat → List Nat) (map : ValueMap)
    (opt : InsertOption) (hround : ∀ m ∈ opt.methods, m ≠ STR_ROUND)
    (hfit : (dotted_key opt.methods).length ≤ 126) :
    (∀ (i : Nat) (v : List Nat), i < opt.methods.length →
      value_map_get map (dotted_key (opt.methods.take (i + 1))) = some v →
      (∀ j, i < j → j < opt.methods.length →
        value_map_get map (dotted_key (opt.methods.take (j + 1))) = none) →
      apply_method_chain round_text map opt = v) ∧
    ((∀ i, i < opt.methods.length →
        value_map_get map (dotted_key (opt.methods.take (i + 1))) = none) →
      apply_method_chain round_text map opt = []) ∧
    (opt.methods = [] → apply_method_chain round_text map opt = []) := by
  have heq := apply_method_chain_eq round_text map opt hround hfit
  refine ⟨?_, ?_, ?_⟩
  · intro i v hi hv hlater
    rw [heq]
    refine last_value_at map _ [] i _ v (dotted_keys_getElem opt.methods i hi) hv ?_
    intro j key2 hij hj
    have hjlt : j < opt.methods.length := by
      rcases Nat.lt_or_ge j opt.methods.length with h | h
      · exact h
      · rw [List.getElem?_eq_none (by rw [dotted_keys_length]; exact h)] at hj
        cases hj
    rw [dotted_keys_getElem opt.methods j hjlt] at hj
    cases hj
    exact hlater j hij hjlt
  · intro hnone
    rw [heq]
    refine last_value_none map _ [] ?_
    intro key hkey
    obtain ⟨i, hi⟩ := List.getElem?_of_mem hkey
    have hilt : i < opt.methods.length := by
      rcases Nat.lt_or_ge i opt.methods.length with h | h
      · exact h
      · rw [List.getElem?_eq_none (by rw [dotted_keys_length]; exact h)] at hi
        cases hi
    rw [dotted_keys_getElem opt.methods i hilt] at hi
    cases hi
    exact hnone i hilt
  · intro h
    unfold apply_method_chain
    rw [h]

/-- Witness of C27: with the methods `p`, `hp`, `max` and a map that holds `p` and
`p.hp`, the value of `p.hp` is returned. -/
theorem apply_method_chain_last_key_witness :
    apply_method_chain (fun s => s)
        { items := [⟨[112], [49]⟩, ⟨[112, 46, 104, 112], [55]⟩] }
        ⟨0, 35, 115, [[112], [104, 112], [109, 97, 120]]⟩ = [55] :=
  (apply_method_chain_last_key (fun s => s)
    { items := [⟨[112], [49]⟩, ⟨[112, 46, 104, 112], [55]⟩] }
    ⟨0, 35, 115, [[112], [104, 112], [109, 97, 120]]⟩ (by decide) (by decide)).1 1 [55]
    (by decide) (by decide)
    (by
      intro j h1 h2
      have h3 : j < 3 := h2
      have hj : j = 2 := by omega
      subst hj
      decide)

set_option maxRecDepth 20000 in
/-- C27 as stated fails: the dotted key of two methods of 63 bytes has 127 bytes
and fits the buffer of 128 bytes with its terminator, and the map holds the
value `x` under it; the guard `strlen(key) + strlen(method) + 2 < sizeof(key)`
is `128 < 128`, the key is not extended, and the empty string is returned. -/
theorem apply_method_chain_full_buffer_counterexample :
    (∀ m ∈ example_long_methods, m ≠ STR_ROUND) ∧
    (dotted_key example_long_methods).length = 127 ∧
    (dotted_key example_long_methods).length + 1 ≤ 128 ∧
    value_map_get example_long_map (dotted_key example_long_methods) = some [120] ∧
    apply_method_chain (fun s => s) example_long_map ⟨0, 35, 115, example_long_methods⟩ = [] ∧
    apply_method_chain (fun s => s) example_long_map ⟨0, 35, 115, example_long_methods⟩
      ≠ [120] := by
  decide

/-! ## Properties of `draw_menu` -/

/-- C22: for a render state that matches the view, `draw_menu` emits the quads of
the cells with row-major index below the limit, or of all cells when `max_chars`
is negative, in row-major order, passing over the cells that are a space and the
cells whose code point has no entry in the glyph table.  So every quad belongs to
a cell of the grid that is not a space, with an index below a limit `L ≥ 0`; the
indices of the quads increase; and with the limit "all" a cell that is not a
space and whose code point is in the glyph table has exactly one quad, and every
other cell has none. -/
theorem draw_menu_reveal (view : View) (rs : RenderState) (max_chars : Int)
    (hw : rs.grid_w = (view.max_cols : Int)) (hh : rs.grid_h = (view.lines.length : Int)) :
    draw_menu view rs max_chars
      = (List.range (if max_chars < 0 then view.max_cols * view.lines.length
          else min max_chars.toNat (view.max_cols * view.lines.length))).filterMap
          (quad_at view rs view.max_cols) ∧
    (∀ q ∈ draw_menu view rs max_chars,
      q.x < view.max_cols ∧ q.y < view.lines.length ∧
      (0 ≤ max_chars → ((q.y * view.max_cols + q.x : Nat) : Int) < max_chars) ∧
      q.cp = draw_cp view q.y q.x ∧ q.cp ≠ SPACE ∧
      find_glyph rs.glyphs q.cp = some q.glyph) ∧
    (draw_menu view rs max_chars).Pairwise
      (fun a b => a.y * view.max_cols + a.x < b.y * view.max_cols + b.x) ∧
    (max_chars < 0 → ∀ y x, y < view.lines.length → x < view.max_cols →
      (draw_cp view y x ≠ SPACE → (∃ g ∈ rs.glyphs, g.codepoint = draw_cp view y x) →
        (draw_menu view rs max_chars).countP (fun q => decide (q.y = y ∧ q.x = x)) = 1) ∧
      ((draw_cp view y x = SPACE ∨ ∀ g ∈ rs.glyphs, g.codepoint ≠ draw_cp view y x) →
        (draw_menu view rs max_chars).countP (fun q => decide (q.y = y ∧ q.x = x)) = 0)) := by
  have heq := draw_menu_eq view rs max_chars hw hh
  refine ⟨heq, ?_, ?_, ?_⟩
  · intro q hq
    rw [heq, List.mem_filterMap] at hq
    obtain ⟨k, hk, hqk⟩ := hq
    rw [List.mem_range] at hk
    obtain ⟨hx, hy, hcp, hsp, hg⟩ := quad_at_some view rs _ k q hqk
    have hidx := quad_at_index view rs _ k q hqk
    have hktot : k < view.max_cols * view.lines.length := by
      by_cases hm : max_chars < 0
      · rw [if_pos hm] at hk; exact hk
      · rw [if_neg hm] at hk; exact lt_of_lt_of_le hk (Nat.min_le_right _ _)
    have hwpos : 0 < view.max_cols := by
      rcases Nat.eq_zero_or_pos view.max_cols with h0 | h0
      · rw [h0, Nat.zero_mul] at hktot; omega
      · exact h0
    refine ⟨?_, ?_, ?_, hcp, hsp, hg⟩
    · rw [hx]; exact Nat.mod_lt k hwpos
    · rw [hy]; exact Nat.div_lt_of_lt_mul hktot
    · intro hm
      rw [hidx]
      have hnot : ¬ max_chars < 0 := by omega
      rw [if_neg hnot] at hk
      have : k < max_chars.toNat := lt_of_lt_of_le hk (Nat.min_le_left _ _)
      omega
  · rw [heq]
    refine List.Pairwise.filterMap _ ?_ (List.pairwise_lt_range _)
    intro i j hij a ha b hb
    rw [quad_at_index view rs _ i a ha, quad_at_index view rs _ j b hb]
    exact hij
  · intro hm y x hy hx
    have hcount := countP_filterMap_range (quad_at view rs view.max_cols)
      (fun q => decide (q.y = y ∧ q.x = x)) (y * view.max_cols + x)
      (by
        intro k q hq
        obtain ⟨hqx, hqy, _⟩ := quad_at_some view rs _ k q hq
        have hidx := quad_at_index view rs _ k q hq
        rw [decide_eq_true_iff]
        constructor
        · rintro ⟨h1, h2⟩
          rw [← hidx, h1, h2]
        · intro hk
          have hwpos : 0 < view.max_cols := by omega
          rw [hqx, hqy, hk]
          constructor
          · rw [Nat.add_comm, Nat.add_mul_div_right _ _ hwpos, Nat.div_eq_of_lt hx,
              Nat.zero_add]
          · rw [Nat.add_comm, Nat.add_mul_mod_self_right, Nat.mod_eq_of_lt hx])
      (view.max_cols * view.lines.length)
    have hwpos : 0 < view.max_cols := by omega
    have hk0 : y * view.max_cols + x < view.max_cols * view.lines.length := by
      have h1 : (y + 1) * view.max_cols ≤ view.lines.length * view.max_cols :=
        Nat.mul_le_mul_right _ hy
      rw [Nat.mul_comm view.max_cols]
      rw [Nat.add_mul] at h1
      omega
    have hq0 : quad_at view rs view.max_cols (y * view.max_cols + x) = cell_quad view rs y x := by
      unfold quad_at
      rw [Nat.add_comm, Nat.add_mul_div_right _ _ hwpos, Nat.div_eq_of_lt hx,
        Nat.zero_add, Nat.add_mul_mod_self_right, Nat.mod_eq_of_lt hx]
    rw [heq, if_pos hm, hcount, hq0]
    constructor
    · intro hsp hex
      obtain ⟨g, hg, hgc⟩ := hex
      have hfind : find_glyph rs.glyphs (draw_cp view y x) ≠ none := by
        intro hn
        exact (find_glyph_none_iff _ _).mp hn g hg hgc
      have hsome : (cell_quad view rs y x).isSome = true := by
        unfold cell_quad
        rw [if_neg hsp]
        cases hf : find_glyph rs.glyphs (draw_cp view y x) with
        | none => exact absurd hf hfind
        | some g2 => rfl
      rw [if_pos ⟨hk0, hsome⟩]
    · intro hor
      have hnone : cell_quad view rs y x = none := by
        unfold cell_quad
        rcases hor with hsp | hno
        · rw [if_pos hsp]
        · by_cases hsp : draw_cp view y x = SPACE
          · rw [if_pos hsp]
          · rw [if_neg hsp, (find_glyph_none_iff _ _).mpr hno]
            rfl
      rw [hnone]
      simp

/-- Witness of C22: on the screen `a b`, `bac` with glyphs for `a` and `b`, the limit
4 gives the quads of the cells 0, 2 and 3 (cell 1 is a space and counts), and the
limit "all" gives one more, for cell 4; the cell `c` has no glyph and no quad. -/
theorem draw_menu_reveal_witness :
    (draw_menu example_draw_view example_draw_state 4).map (fun q => (q.y, q.x, q.cp))
      = [(0, 0, 97), (0, 2, 98), (1, 0, 98)] ∧
    (draw_menu example_draw_view example_draw_state (-1)).map (fun q => (q.y, q.x, q.cp))
      = [(0, 0, 97), (0, 2, 98), (1, 0, 98), (1, 1, 97)] ∧
    (draw_menu example_draw_view example_draw_state 4).Pairwise
      (fun a b => a.y * example_draw_view.max_cols + a.x
        < b.y * example_draw_view.max_cols + b.x) :=
  ⟨by decide, by decide,
   (draw_menu_reveal example_draw_view example_draw_state 4 (by decide) (by decide)).2.2.1⟩

/-! ## Properties of the tree builder of `yaml_load_file` -/

/-- C23, as the code has it: for a document tree nested at most 128 deep, the
builder returns that tree from the events of the document, with the entries of
every map in the order of the document and with every repeated key kept, since
`node_map_set` appends an entry without looking for its key.  So a map node of
the tree has pairwise distinct keys only when the map of the document has. -/
theorem yaml_build_document (n : Node) (hdepth : depth n ≤ 128) :
    yaml_build (document_events n) = some (some n) := by
  unfold yaml_build document_events
  rw [build_loop_cons _ _ _ (by simp)]
  show Option.map _ (build_loop _ (.document_start :: _)) = _
  rw [build_loop_cons _ _ _ (by simp)]
  show Option.map _ (build_loop _ (events_of n ++ _)) = _
  have hpos : Accepts { root := none, stack := [] } := rfl
  rw [run_node n { root := none, stack := [] } _ (by simpa using hdepth) hpos,
    build_loop_cons _ _ _ (by simp)]
  rfl

/-- Witness of C23: the document `view: [ab, cd]`, `x: 1` is built as it stands. -/
theorem yaml_build_document_witness :
    yaml_build (document_events example_document) = some (some example_document) :=
  yaml_build_document example_document (by decide)

/-- C23 as stated fails: for the document `a: 1`, `a: 2` the builder returns a map
node with the two entries `a: 1` and `a: 2`, whose keys `a`, `a` are not pairwise
distinct. -/
theorem yaml_build_repeated_key_counterexample :
    yaml_build example_repeated_key
      = some (some (.map [([97], .scalar [49]), ([97], .scalar [50])])) ∧
    node_keys (.map [([97], .scalar [49]), ([97], .scalar [50])]) = [[97], [97]] ∧
    ¬ (node_keys (.map [([97], .scalar [49]), ([97], .scalar [50])])).Nodup ∧
    example_repeated_key
      = document_events (.map [([97], .scalar [49]), ([97], .scalar [50])]) :=
  ⟨rfl, rfl, by decide, rfl⟩

end Pzdc
